import Mathlib

/-!
# Verification of the Maze-Ai-2025 core algorithms

Shallow embedding of the maze game's core: the grid model, the six search
strategies of `main_game/path_finding.py` (`PathFinder`), the maze generator
of `main_game/maze_generator.py`, the feature placement / solvability check of
`main3.py` (`setup_difficulty_features`, `is_solvable_with_enemy`), and the
enemy patrol-path construction of `main_game/game_objects.py`.

Conventions:
* a grid cell is a pair `(x, y) : ℤ × ℤ` (Python list `[x, y]`);
* a maze is a `List (List ℕ)` of rows, `maze[y][x] = 0` meaning Path and
  anything else Wall, accessed with default `1` (Wall) out of range;
* Python's ambient `random` is made explicit as streams of naturals / booleans
  / direction lists passed to the embedded functions;
* wall-clock instrumentation (`time.time()`) is dropped: embedded search
  functions return the `(path, nodes_explored)` pair.
-/

namespace MazeAi

/-- A grid coordinate `(x, y)`, Python's `[x, y]`. -/
abbrev Pos := ℤ × ℤ

/-- `GameConfig.DIRECTIONS = [(0, 1), (1, 0), (0, -1), (-1, 0)]` (config.py line 62),
identical to the literal direction lists used in `main3.py`. -/
def DIRECTIONS : List Pos := [(0, 1), (1, 0), (0, -1), (-1, 0)]

/-- Move from `p` one step in direction `d`: `(x + dx, y + dy)`. -/
def stepDir (p d : Pos) : Pos := (p.1 + d.1, p.2 + d.2)

/-- `maze[y][x]`, with the out-of-range default `1` (Wall); all embedded code
only reads it under an explicit in-bounds guard, as the Python does. -/
def cellVal (maze : List (List ℕ)) (p : Pos) : ℕ :=
  (maze.getD p.2.toNat []).getD p.1.toNat 1

/-- The in-bounds test `0 <= x < width and 0 <= y < height`. -/
def inBounds (w h : ℤ) (p : Pos) : Bool :=
  decide (0 ≤ p.1) && decide (p.1 < w) && decide (0 ≤ p.2) && decide (p.2 < h)

/-- The passability test used by every search in `path_finding.py`:
`0 <= nx < width and 0 <= ny < height and maze[ny][nx] == 0`. -/
def mazePass (maze : List (List ℕ)) (w h : ℤ) (p : Pos) : Bool :=
  inBounds w h p && (cellVal maze p == 0)

/-- The passability test of `bfs_avoid_enemy` in `main3.py`: additionally
requires the cell not to be in the `blocked` set of enemy-patrol cells. -/
def mazePassAvoid (maze : List (List ℕ)) (w h : ℤ) (blocked : List Pos) (p : Pos) : Bool :=
  inBounds w h p && (cellVal maze p == 0) && !(blocked.contains p)

/-- The finite set of in-bounds cells for a `w × h` grid (used for termination
measures; searches only ever mark in-bounds cells visited). -/
def bound (w h : ℤ) : Finset Pos :=
  ((Finset.range w.toNat) ×ˢ (Finset.range h.toNat)).image
    (fun q => ((q.1 : ℤ), (q.2 : ℤ)))

lemma mem_bound {w h : ℤ} {p : Pos} : p ∈ bound w h ↔ inBounds w h p = true := by
  constructor
  · rintro hp
    simp only [bound, Finset.mem_image, Finset.mem_product, Finset.mem_range] at hp
    obtain ⟨⟨a, b⟩, ⟨ha, hb⟩, rfl⟩ := hp
    simp only [inBounds, Bool.and_eq_true, decide_eq_true_eq]
    refine ⟨⟨⟨Int.ofNat_nonneg a, ?_⟩, Int.ofNat_nonneg b⟩, ?_⟩
    · omega
    · omega
  · intro hp
    simp only [inBounds, Bool.and_eq_true, decide_eq_true_eq] at hp
    obtain ⟨⟨⟨hx0, hxw⟩, hy0⟩, hyh⟩ := hp
    simp only [bound, Finset.mem_image, Finset.mem_product, Finset.mem_range]
    refine ⟨(p.1.toNat, p.2.toNat), ⟨?_, ?_⟩, ?_⟩
    · omega
    · omega
    · simp [Int.toNat_of_nonneg hx0, Int.toNat_of_nonneg hy0]

/-! ## Paths and reachability -/

/-- `b` is one of the four 4-directional neighbours of `a`. -/
def adjacentB (a b : Pos) : Bool := DIRECTIONS.any fun d => b == stepDir a d

lemma adjacentB_symm {a b : Pos} (h : adjacentB a b = true) : adjacentB b a = true := by
  simp only [adjacentB, DIRECTIONS, stepDir, List.any_eq_true, List.mem_cons,
    beq_iff_eq] at h ⊢
  obtain ⟨d, hd, rfl⟩ := h
  rcases hd with rfl | rfl | rfl | rfl | h
  · exact ⟨(0, -1), by simp, by simp⟩
  · exact ⟨(-1, 0), by simp, by simp⟩
  · exact ⟨(0, 1), by simp, by simp⟩
  · exact ⟨(1, 0), by simp, by simp⟩
  · simp at h

/-- Consecutive cells of the list are 4-directionally adjacent. -/
def chainOk : List Pos → Bool
  | [] => true
  | [_] => true
  | a :: b :: r => adjacentB a b && chainOk (b :: r)

/-- `l` is a path as returned by the searches: nonempty, starting at `s`,
ending at `g`, consecutive cells adjacent, and every cell except the first
passable (the start cell is never validated by the code). -/
def isGoodPath (pass : Pos → Bool) (s g : Pos) (l : List Pos) : Bool :=
  (l.head? == some s) && (l.getLast? == some g) && chainOk l && l.tail.all pass

/-- `g` is reachable from `s` through `pass`-cells (start unchecked). -/
def Reach (pass : Pos → Bool) (s g : Pos) : Prop :=
  ∃ l, isGoodPath pass s g l = true

/-- The set of lengths (in cells) of good paths from `s` to `g`. -/
def distSet (pass : Pos → Bool) (s g : Pos) : Set ℕ :=
  {n | ∃ l, isGoodPath pass s g l = true ∧ l.length = n}

/-- Length in cells of a shortest good path from `s` to `g` (junk `0` if
unreachable). -/
noncomputable def dist (pass : Pos → Bool) (s g : Pos) : ℕ :=
  sInf (distSet pass s g)

lemma isGoodPath_singleton (pass : Pos → Bool) (s : Pos) :
    isGoodPath pass s s [s] = true := by
  simp [isGoodPath, chainOk]

lemma isGoodPath_ne_nil {pass : Pos → Bool} {s g : Pos} {l : List Pos}
    (h : isGoodPath pass s g l = true) : l ≠ [] := by
  rintro rfl
  simp [isGoodPath] at h

lemma isGoodPath_length_pos {pass : Pos → Bool} {s g : Pos} {l : List Pos}
    (h : isGoodPath pass s g l = true) : 1 ≤ l.length := by
  have := isGoodPath_ne_nil h
  cases l with
  | nil => simp at this
  | cons a t => simp

lemma chainOk_append_last {l : List Pos} {c n : Pos}
    (hl : chainOk l = true) (hlast : l.getLast? = some c) (hadj : adjacentB c n = true) :
    chainOk (l ++ [n]) = true := by
  induction l with
  | nil => simp at hlast
  | cons a t ih =>
    cases t with
    | nil =>
      simp only [List.getLast?_singleton, Option.some.injEq] at hlast
      subst hlast
      simpa [chainOk] using hadj
    | cons b r =>
      simp only [chainOk, Bool.and_eq_true] at hl
      have hlast' : (b :: r).getLast? = some c := by
        simpa [List.getLast?_cons_cons] using hlast
      have := ih hl.2 hlast'
      simp only [List.cons_append, chainOk, Bool.and_eq_true]
      exact ⟨hl.1, by simpa using this⟩

lemma isGoodPath_snoc {pass : Pos → Bool} {s c n : Pos} {l : List Pos}
    (h : isGoodPath pass s c l = true) (hadj : adjacentB c n = true)
    (hp : pass n = true) : isGoodPath pass s n (l ++ [n]) = true := by
  simp only [isGoodPath, Bool.and_eq_true, beq_iff_eq, List.all_eq_true] at h ⊢
  obtain ⟨⟨⟨hhead, hlast⟩, hchain⟩, htail⟩ := h
  refine ⟨⟨⟨?_, ?_⟩, chainOk_append_last hchain hlast hadj⟩, ?_⟩
  · cases l with
    | nil => simp at hhead
    | cons a t => simpa using hhead
  · simp
  · intro x hx
    cases l with
    | nil => simp at hhead
    | cons a t =>
      simp only [List.cons_append, List.tail_cons, List.mem_append,
        List.mem_singleton] at hx
      rcases hx with hx | rfl
      · exact htail x (by simpa using hx)
      · exact hp

lemma reach_self (pass : Pos → Bool) (s : Pos) : Reach pass s s :=
  ⟨[s], isGoodPath_singleton pass s⟩

lemma distSet_nonempty {pass : Pos → Bool} {s g : Pos} (h : Reach pass s g) :
    (distSet pass s g).Nonempty := by
  obtain ⟨l, hl⟩ := h
  exact ⟨l.length, l, hl, rfl⟩

lemma dist_mem {pass : Pos → Bool} {s g : Pos} (h : Reach pass s g) :
    dist pass s g ∈ distSet pass s g :=
  Nat.sInf_mem (distSet_nonempty h)

lemma dist_le {pass : Pos → Bool} {s g : Pos} {l : List Pos}
    (h : isGoodPath pass s g l = true) : dist pass s g ≤ l.length :=
  Nat.sInf_le ⟨l, h, rfl⟩

lemma dist_pos {pass : Pos → Bool} {s g : Pos} (h : Reach pass s g) :
    1 ≤ dist pass s g := by
  obtain ⟨l, hl, hlen⟩ := dist_mem h
  have := isGoodPath_length_pos hl
  omega

lemma dist_self (pass : Pos → Bool) (s : Pos) : dist pass s s = 1 := by
  have h1 := dist_le (isGoodPath_singleton pass s)
  have h2 := dist_pos (reach_self pass s)
  simp at h1
  omega

/-! ## The BFS loop (`PathFinder._bfs`, path_finding.py lines 46-70)

State: FIFO queue of `(position, path)` entries and the visited set
(visited-on-enqueue).  The inner `for dx, dy in GameConfig.DIRECTIONS`
neighbour loop is the fold `bfsExpand`. -/

/-- The neighbour loop of `_bfs` (and `_bidirectional`): scan the direction
list in order; each passable not-yet-visited neighbour is marked visited and
appended (with its extended path) to the list of new queue entries. -/
def bfsExpand (pass : Pos → Bool) (path : List Pos) (c : Pos) :
    List Pos → Finset Pos → List (Pos × List Pos) × Finset Pos
  | [], vis => ([], vis)
  | d :: ds, vis =>
    let np := stepDir c d
    if pass np = true ∧ np ∉ vis then
      let r := bfsExpand pass path c ds (insert np vis)
      ((np, path ++ [np]) :: r.1, r.2)
    else
      bfsExpand pass path c ds vis

lemma bfsExpand_measure {bnd : Finset Pos} {pass : Pos → Bool}
    (hp : ∀ p, pass p = true → p ∈ bnd) (path : List Pos) (c : Pos) :
    ∀ (ds : List Pos) (vis : Finset Pos),
      5 * (bnd \ (bfsExpand pass path c ds vis).2).card
        + (bfsExpand pass path c ds vis).1.length ≤ 5 * (bnd \ vis).card := by
  intro ds
  induction ds with
  | nil => intro vis; simp [bfsExpand]
  | cons d ds ih =>
    intro vis
    by_cases hc : pass (stepDir c d) = true ∧ stepDir c d ∉ vis
    · simp only [bfsExpand, if_pos hc, List.length_cons]
      have hmem : stepDir c d ∈ bnd \ vis := Finset.mem_sdiff.mpr ⟨hp _ hc.1, hc.2⟩
      have hcard : (bnd \ insert (stepDir c d) vis).card = (bnd \ vis).card - 1 := by
        rw [Finset.sdiff_insert]
        rw [Finset.card_erase_of_mem hmem]
      have hpos : 1 ≤ (bnd \ vis).card := Finset.card_pos.mpr ⟨_, hmem⟩
      have := ih (insert (stepDir c d) vis)
      omega
    · simp only [bfsExpand, if_neg hc]
      exact ih vis

/-- The `while queue:` loop of `_bfs`.  The parameter `bnd`, with the proof
`hp` that passable cells are in bounds, exists only for termination: the
visited set can grow only inside `bnd`. -/
def bfsLoop (pass : Pos → Bool) (bnd : Finset Pos)
    (hp : ∀ p, pass p = true → p ∈ bnd) (goal : Pos) :
    List (Pos × List Pos) → Finset Pos → ℕ → Option (List Pos) × ℕ
  | [], _, n => (none, n)
  | (c, path) :: rest, vis, n =>
    if c = goal then (some path, n + 1)
    else
      let e := bfsExpand pass path c DIRECTIONS vis
      bfsLoop pass bnd hp goal (rest ++ e.1) e.2 (n + 1)
termination_by q vis _ => 5 * (bnd \ vis).card + q.length
decreasing_by
  have h := bfsExpand_measure hp path c DIRECTIONS vis
  simp only [List.length_append, List.length_cons]
  omega

/-- `PathFinder._bfs(start, end, maze, width, height)` (returning the
`(path, nodes_explored)` pair; wall-clock time is dropped). -/
def pfBfs (start goal : Pos) (maze : List (List ℕ)) (w h : ℤ) :
    Option (List Pos) × ℕ :=
  bfsLoop (mazePass maze w h) (bound w h)
    (fun p hpp => mem_bound.mpr (by
      simp only [mazePass, Bool.and_eq_true] at hpp
      exact hpp.1))
    goal [(start, [start])] {start} 0

/-! ## The UCS loop (`PathFinder._ucs`, path_finding.py lines 72-100)

Python's `heapq` holds `(cost, [x, y], path)` tuples and `heappop` removes the
least one under lexicographic tuple/list comparison.  The heap is modelled as
the list of its entries with `popMin` removing the lexicographic minimum. -/

/-- Lexicographic `<` on coordinates, Python's `[x1, y1] < [x2, y2]`. -/
def posLtB (a b : Pos) : Bool :=
  decide (a.1 < b.1) || (a.1 == b.1 && decide (a.2 < b.2))

/-- Lexicographic `<` on paths (lists compare elementwise in Python, a proper
leading sublist being smaller). -/
def pathLtB : List Pos → List Pos → Bool
  | _, [] => false
  | [], _ :: _ => true
  | a :: as, b :: bs => posLtB a b || (a == b && pathLtB as bs)

/-- Lexicographic `<` on heap entries `(cost, position, path)`. -/
def entryLtB (a b : ℕ × Pos × List Pos) : Bool :=
  decide (a.1 < b.1) ||
    (a.1 == b.1 && (posLtB a.2.1 b.2.1 || (a.2.1 == b.2.1 && pathLtB a.2.2 b.2.2)))

/-- `heapq.heappop`: remove the least entry (ties yield equal first components,
which is all the proofs use). -/
def popMin : List (ℕ × Pos × List Pos) →
    Option ((ℕ × Pos × List Pos) × List (ℕ × Pos × List Pos))
  | [] => none
  | e :: es =>
    match popMin es with
    | none => some (e, [])
    | some (m, rest) => if entryLtB m e then some (m, e :: rest) else some (e, es)

lemma popMin_eq_none {l : List (ℕ × Pos × List Pos)} :
    popMin l = none ↔ l = [] := by
  cases l with
  | nil => simp [popMin]
  | cons e es =>
    simp only [popMin]
    cases h : popMin es with
    | none => simp
    | some p =>
      obtain ⟨m, rest⟩ := p
      by_cases hlt : entryLtB m e = true <;> simp [hlt]

lemma popMin_perm {l : List (ℕ × Pos × List Pos)} {e rest}
    (h : popMin l = some (e, rest)) : l.Perm (e :: rest) := by
  induction l generalizing e rest with
  | nil => simp [popMin] at h
  | cons a as ih =>
    cases has : popMin as with
    | none =>
      simp only [popMin, has] at h
      have : as = [] := popMin_eq_none.mp has
      subst this
      obtain ⟨rfl, rfl⟩ := h
      exact List.Perm.refl _
    | some p =>
      obtain ⟨m, r⟩ := p
      simp only [popMin, has] at h
      by_cases hlt : entryLtB m a = true
      · rw [if_pos hlt] at h
        simp only [Option.some.injEq, Prod.mk.injEq] at h
        obtain ⟨rfl, rfl⟩ := h
        exact ((ih has).cons a).trans (List.Perm.swap m a r)
      · rw [if_neg hlt] at h
        simp only [Option.some.injEq, Prod.mk.injEq] at h
        obtain ⟨rfl, rfl⟩ := h
        exact List.Perm.refl _

lemma popMin_mem {l : List (ℕ × Pos × List Pos)} {e rest}
    (h : popMin l = some (e, rest)) : e ∈ l :=
  (popMin_perm h).mem_iff.mpr (List.mem_cons_self e rest)

lemma popMin_rest_subset {l : List (ℕ × Pos × List Pos)} {e rest}
    (h : popMin l = some (e, rest)) : ∀ x ∈ rest, x ∈ l :=
  fun x hx => (popMin_perm h).mem_iff.mpr (List.mem_cons_of_mem e hx)

lemma popMin_length {l : List (ℕ × Pos × List Pos)} {e rest}
    (h : popMin l = some (e, rest)) : l.length = rest.length + 1 := by
  have := (popMin_perm h).length_eq
  simpa using this

lemma entryLtB_false_cost {a b : ℕ × Pos × List Pos}
    (h : entryLtB a b = false) : b.1 ≤ a.1 := by
  simp only [entryLtB, Bool.or_eq_false_iff, decide_eq_false_iff_not, not_lt] at h
  exact h.1

lemma entryLtB_true_cost {a b : ℕ × Pos × List Pos}
    (h : entryLtB a b = true) : a.1 ≤ b.1 := by
  simp only [entryLtB, Bool.or_eq_true, decide_eq_true_eq, Bool.and_eq_true,
    beq_iff_eq] at h
  rcases h with h | ⟨h, _⟩
  · omega
  · omega

/-- The popped entry has minimal cost among the heap's entries. -/
lemma popMin_cost_min {l : List (ℕ × Pos × List Pos)} {e rest}
    (h : popMin l = some (e, rest)) : ∀ x ∈ l, e.1 ≤ x.1 := by
  induction l generalizing e rest with
  | nil => simp [popMin] at h
  | cons a as ih =>
    cases has : popMin as with
    | none =>
      simp only [popMin, has] at h
      obtain ⟨rfl, rfl⟩ := h
      have : as = [] := popMin_eq_none.mp has
      subst this
      simp
    | some p =>
      obtain ⟨m, r⟩ := p
      simp only [popMin, has] at h
      by_cases hlt : entryLtB m a = true
      · rw [if_pos hlt] at h
        obtain ⟨rfl, rfl⟩ := h
        intro x hx
        rcases List.mem_cons.mp hx with rfl | hx
        · exact entryLtB_true_cost hlt
        · exact ih has x hx
      · rw [if_neg hlt] at h
        obtain ⟨rfl, rfl⟩ := h
        intro x hx
        rcases List.mem_cons.mp hx with rfl | hx
        · exact le_rfl
        · exact le_trans (entryLtB_false_cost (Bool.eq_false_iff.mpr hlt))
            (ih has x hx)

/-- The neighbour pushes of `_ucs`: for each direction in order, a passable
not-yet-visited neighbour is pushed with cost `cost + 1` (the visited set is
not updated here: `_ucs` marks visited on dequeue). -/
def ucsNbrs (pass : Pos → Bool) (cost : ℕ) (path : List Pos) (c : Pos)
    (vis : Finset Pos) : List (ℕ × Pos × List Pos) :=
  (DIRECTIONS.filter
      (fun d => pass (stepDir c d) && !(decide (stepDir c d ∈ vis)))).map
    (fun d => (cost + 1, stepDir c d, path ++ [stepDir c d]))

lemma ucsNbrs_length_le (pass : Pos → Bool) (cost : ℕ) (path : List Pos)
    (c : Pos) (vis : Finset Pos) : (ucsNbrs pass cost path c vis).length ≤ 4 := by
  have := List.length_filter_le
    (fun d => pass (stepDir c d) && !(decide (stepDir c d ∈ vis))) DIRECTIONS
  simp only [ucsNbrs, List.length_map]
  simpa [DIRECTIONS] using this

/-- The `while heap:` loop of `_ucs` (visited-on-dequeue, lazy deletion).
`bnd` must contain every passable cell and every cell in the heap (`hq`);
both exist only for termination. -/
def ucsLoop (pass : Pos → Bool) (bnd : Finset Pos)
    (hp : ∀ p, pass p = true → p ∈ bnd) (goal : Pos)
    (heap : List (ℕ × Pos × List Pos)) (vis : Finset Pos) (n : ℕ)
    (hq : ∀ e ∈ heap, e.2.1 ∈ bnd) : Option (List Pos) × ℕ :=
  match hpop : popMin heap with
  | none => (none, n)
  | some ((cost, c, path), rest) =>
    if hcv : c ∈ vis then
      ucsLoop pass bnd hp goal rest vis (n + 1)
        (fun e he => hq e (popMin_rest_subset hpop e he))
    else
      if c = goal then (some path, n + 1)
      else
        ucsLoop pass bnd hp goal (rest ++ ucsNbrs pass cost path c (insert c vis))
          (insert c vis) (n + 1)
          (by
            intro e he
            rcases List.mem_append.mp he with he | he
            · exact hq e (popMin_rest_subset hpop e he)
            · simp only [ucsNbrs, List.mem_map, List.mem_filter,
                Bool.and_eq_true] at he
              obtain ⟨d, ⟨_, hd⟩, rfl⟩ := he
              exact hp _ hd.1)
termination_by 5 * (bnd \ vis).card + heap.length
decreasing_by
  · have hlen := popMin_length hpop
    omega
  · have hlen := popMin_length hpop
    have hnb := ucsNbrs_length_le pass cost path c (insert c vis)
    have hcb : c ∈ bnd := hq _ (popMin_mem hpop)
    have hmem : c ∈ bnd \ vis := Finset.mem_sdiff.mpr ⟨hcb, hcv⟩
    have hcard : (bnd \ insert c vis).card = (bnd \ vis).card - 1 := by
      rw [Finset.sdiff_insert, Finset.card_erase_of_mem hmem]
    have hpos : 1 ≤ (bnd \ vis).card := Finset.card_pos.mpr ⟨_, hmem⟩
    simp only [List.length_append]
    omega

/-- `PathFinder._ucs(start, end, maze, width, height)`: initial heap
`[(0, start, [start])]`, empty visited set. -/
def pfUcs (start goal : Pos) (maze : List (List ℕ)) (w h : ℤ) :
    Option (List Pos) × ℕ :=
  ucsLoop (mazePass maze w h) (insert start (bound w h))
    (fun p hpp => Finset.mem_insert_of_mem (mem_bound.mpr (by
      simp only [mazePass, Bool.and_eq_true] at hpp
      exact hpp.1)))
    goal [(0, start, [start])] ∅ 0
    (by intro e he; simp only [List.mem_singleton] at he; subst he; simp)

/-! ## The DFS loop (`PathFinder._dfs`, path_finding.py lines 102-132)

`random.shuffle(directions)` is made explicit: the stream `σ` yields, per
expansion, the shuffled direction list (always a permutation of
`DIRECTIONS`).  The stack pops from the end (`list.pop()`), visited is marked
on pop. -/

/-- A stream of shuffled direction lists, the explicit image of the ambient
`random.shuffle` calls. -/
def ShuffleStream := ℕ → {l : List Pos // l.Perm DIRECTIONS}

/-- The canonical stream that never permutes (used by witnesses). -/
def idShuffle : ShuffleStream := fun _ => ⟨DIRECTIONS, List.Perm.refl _⟩

/-- The neighbour pushes of `_dfs`: passable unvisited neighbours in the
given (shuffled) direction order, each paired with its extended path. -/
def dfsNbrs (pass : Pos → Bool) (path : List Pos) (c : Pos) (dirs : List Pos)
    (vis : Finset Pos) : List (Pos × List Pos) :=
  (dirs.filter (fun d => pass (stepDir c d) && !(decide (stepDir c d ∈ vis)))).map
    (fun d => (stepDir c d, path ++ [stepDir c d]))

/-- The `while stack:` loop of `_dfs`; `k` indexes the shuffle stream, `n`
counts nodes explored.  `hq` (each stacked cell in `bnd`) is for
termination only. -/
def dfsLoop (pass : Pos → Bool) (bnd : Finset Pos)
    (hp : ∀ p, pass p = true → p ∈ bnd) (σ : ShuffleStream) (goal : Pos)
    (stack : List (Pos × List Pos)) (vis : Finset Pos) (k n : ℕ)
    (hq : ∀ e ∈ stack, e.1 ∈ bnd) : Option (List Pos) × ℕ :=
  match hpop : stack.getLast? with
  | none => (none, n)
  | some (c, path) =>
    let rest := stack.dropLast
    if hcv : c ∈ vis then
      dfsLoop pass bnd hp σ goal rest vis k (n + 1)
        (fun e he => hq e (List.dropLast_sublist stack |>.mem he))
    else
      if c = goal then (some path, n + 1)
      else
        dfsLoop pass bnd hp σ goal
          (rest ++ dfsNbrs pass path c (σ k).1 (insert c vis)) (insert c vis)
          (k + 1) (n + 1)
          (by
            intro e he
            rcases List.mem_append.mp he with he | he
            · exact hq e (List.dropLast_sublist stack |>.mem he)
            · simp only [dfsNbrs, List.mem_map, List.mem_filter,
                Bool.and_eq_true] at he
              obtain ⟨d, ⟨_, hd⟩, rfl⟩ := he
              exact hp _ hd.1)
termination_by 5 * (bnd \ vis).card + stack.length
decreasing_by
  · have hlen : stack.length = stack.dropLast.length + 1 := by
      cases hs : stack with
      | nil => rw [hs] at hpop; simp at hpop
      | cons a t => simp
    omega
  · have hlen : stack.length = stack.dropLast.length + 1 := by
      cases hs : stack with
      | nil => rw [hs] at hpop; simp at hpop
      | cons a t => simp
    have hnb : (dfsNbrs pass path c (σ k).1 (insert c vis)).length ≤ 4 := by
      have h1 := List.length_filter_le
        (fun d => pass (stepDir c d) && !(decide (stepDir c d ∈ insert c vis)))
        (σ k).1
      have h2 : (σ k).1.length = 4 := by
        have := (σ k).2.length_eq
        simpa [DIRECTIONS] using this
      simp only [dfsNbrs, List.length_map]
      omega
    have hcb : c ∈ bnd := by
      have hmem : (c, path) ∈ stack := by
        obtain ⟨hne, heq⟩ :=
          List.mem_getLast?_eq_getLast (Option.mem_def.mpr hpop)
        exact heq ▸ List.getLast_mem hne
      exact hq _ hmem
    have hmem : c ∈ bnd \ vis := Finset.mem_sdiff.mpr ⟨hcb, hcv⟩
    have hcard : (bnd \ insert c vis).card = (bnd \ vis).card - 1 := by
      rw [Finset.sdiff_insert, Finset.card_erase_of_mem hmem]
    have hpos : 1 ≤ (bnd \ vis).card := Finset.card_pos.mpr ⟨_, hmem⟩
    simp only [List.length_append]
    omega

/-- `PathFinder._dfs(start, end, maze, width, height)`. -/
def pfDfs (σ : ShuffleStream) (start goal : Pos) (maze : List (List ℕ))
    (w h : ℤ) : Option (List Pos) × ℕ :=
  dfsLoop (mazePass maze w h) (insert start (bound w h))
    (fun p hpp => Finset.mem_insert_of_mem (mem_bound.mpr (by
      simp only [mazePass, Bool.and_eq_true] at hpp
      exact hpp.1)))
    σ goal [(start, [start])] ∅ 0 0
    (by intro e he; simp only [List.mem_singleton] at he; subst he; simp)

/-! ## DLS (`PathFinder._dls_recursive` / `_dls`, path_finding.py lines 134-176)

The recursion carries `remaining_depth : ℤ` (checked `< 0` first, exactly as
the Python), the path so far, and the visited set; Python's
`visited.copy()` handed to each child is value-passing, which the immutable
`Finset` models directly. -/

mutual

/-- `_dls_recursive(x, y, end, path, visited, remaining_depth, ...)`. -/
def dlsRec (pass : Pos → Bool) (goal : Pos) (remaining : ℤ) (c : Pos)
    (path : List Pos) (vis : Finset Pos) : Option (List Pos) × ℕ :=
  if h : remaining < 0 then (none, 0)
  else if c = goal then (some path, 1)
  else dlsTry pass goal remaining (by omega) c path (insert c vis) DIRECTIONS 1
termination_by (6 * (remaining + 1).toNat + 5 : ℕ)
decreasing_by
  simp only [DIRECTIONS, List.length_cons, List.length_nil]
  omega

/-- The `for dx, dy in GameConfig.DIRECTIONS` loop of `_dls_recursive`:
recurse into each passable unvisited neighbour, accumulating explored-node
counts, returning the first found path. -/
def dlsTry (pass : Pos → Bool) (goal : Pos) (remaining : ℤ)
    (hr : 0 ≤ remaining) (c : Pos) (path : List Pos) (vis : Finset Pos) :
    List Pos → ℕ → Option (List Pos) × ℕ
  | [], acc => (none, acc)
  | d :: ds, acc =>
    let np := stepDir c d
    if pass np = true ∧ np ∉ vis then
      let r := dlsRec pass goal (remaining - 1) np (path ++ [np]) vis
      match r.1 with
      | some res => (some res, acc + r.2)
      | none => dlsTry pass goal remaining hr c path vis ds (acc + r.2)
    else
      dlsTry pass goal remaining hr c path vis ds acc
termination_by ds _ => (6 * (remaining + 1).toNat + ds.length : ℕ)
decreasing_by
  · omega
  · simp only [List.length_cons]
    omega
  · simp only [List.length_cons]
    omega

end

/-- `PathFinder._dls(start, end, maze, width, height, depth_limit=50)`. -/
def pfDls (start goal : Pos) (maze : List (List ℕ)) (w h : ℤ)
    (depthLimit : ℤ := 50) : Option (List Pos) × ℕ :=
  dlsRec (mazePass maze w h) goal depthLimit start [start] ∅

/-! ## IDS (`PathFinder._ids`, path_finding.py lines 178-188) -/

/-- The `for depth in range(max_depth)` loop of `_ids`, accumulating the
total nodes explored over all DLS iterations. -/
def idsGo (start goal : Pos) (maze : List (List ℕ)) (w h : ℤ) :
    List ℕ → ℕ → Option (List Pos) × ℕ
  | [], total => (none, total)
  | depth :: ds, total =>
    let r := pfDls start goal maze w h depth
    if r.1.isSome then (r.1, total + r.2)
    else idsGo start goal maze w h ds (total + r.2)

/-- `PathFinder._ids(start, end, maze, width, height, max_depth=100)`. -/
def pfIds (start goal : Pos) (maze : List (List ℕ)) (w h : ℤ)
    (maxDepth : ℕ := 100) : Option (List Pos) × ℕ :=
  idsGo start goal maze w h (List.range maxDepth) 0

/-! ## Bidirectional search (`PathFinder._bidirectional`, path_finding.py
lines 190-254)

The two `visited` dicts (cell ↦ discovering path) are association lists;
both sides are FIFO queues with visited-on-enqueue.  One loop iteration runs
the forward block then the backward block, each dequeuing one node (when its
queue is nonempty), checking the opposite side's visited map on dequeue. -/

/-- Dict lookup `visited[(x, y)]` / membership test. -/
def lookupPos (vis : List (Pos × List Pos)) (c : Pos) : Option (List Pos) :=
  (vis.find? (fun e => e.1 == c)).map Prod.snd

/-- Key set of a visited map (termination measure support). -/
def visKeys (vis : List (Pos × List Pos)) : Finset Pos :=
  (vis.map Prod.fst).toFinset

lemma lookupPos_none_not_key {vis : List (Pos × List Pos)} {c : Pos}
    (h : lookupPos vis c = none) : c ∉ visKeys vis := by
  intro hc
  simp only [visKeys, List.mem_toFinset, List.mem_map] at hc
  obtain ⟨e, he, rfl⟩ := hc
  have hs : (vis.find? (fun x => x.1 == e.1)).isSome :=
    List.find?_isSome.mpr ⟨e, he, by simp⟩
  simp only [lookupPos] at h
  cases hf : vis.find? (fun x => x.1 == e.1) with
  | none => rw [hf] at hs; simp at hs
  | some v => rw [hf] at h; simp at h

lemma visKeys_append_one (vis : List (Pos × List Pos)) (np : Pos) (p : List Pos) :
    visKeys (vis ++ [(np, p)]) = insert np (visKeys vis) := by
  simp only [visKeys, List.map_append, List.toFinset_append, List.map_cons,
    List.map_nil, List.toFinset_cons, List.toFinset_nil]
  ext x
  simp [or_comm]

/-- The neighbour loop of either side of `_bidirectional`: passable cells not
yet in this side's visited map are recorded there (keyed by their extended
path) and returned as new queue entries, in direction order. -/
def bidirExpand (pass : Pos → Bool) (path : List Pos) (c : Pos) :
    List Pos → List (Pos × List Pos) →
      List (Pos × List Pos) × List (Pos × List Pos)
  | [], vis => ([], vis)
  | d :: ds, vis =>
    let np := stepDir c d
    if pass np = true ∧ lookupPos vis np = none then
      let r := bidirExpand pass path c ds (vis ++ [(np, path ++ [np])])
      ((np, path ++ [np]) :: r.1, r.2)
    else
      bidirExpand pass path c ds vis

lemma bidirExpand_measure {bnd : Finset Pos} {pass : Pos → Bool}
    (hp : ∀ p, pass p = true → p ∈ bnd) (path : List Pos) (c : Pos) :
    ∀ (ds : List Pos) (vis : List (Pos × List Pos)),
      5 * (bnd \ visKeys (bidirExpand pass path c ds vis).2).card
        + (bidirExpand pass path c ds vis).1.length
        ≤ 5 * (bnd \ visKeys vis).card := by
  intro ds
  induction ds with
  | nil => intro vis; simp [bidirExpand]
  | cons d ds ih =>
    intro vis
    by_cases hc : pass (stepDir c d) = true ∧ lookupPos vis (stepDir c d) = none
    · simp only [bidirExpand, if_pos hc, List.length_cons]
      have hkey := lookupPos_none_not_key hc.2
      have hmem : stepDir c d ∈ bnd \ visKeys vis :=
        Finset.mem_sdiff.mpr ⟨hp _ hc.1, hkey⟩
      have hcard : (bnd \ visKeys (vis ++ [(stepDir c d, path ++ [stepDir c d])])).card
          = (bnd \ visKeys vis).card - 1 := by
        rw [visKeys_append_one, Finset.sdiff_insert, Finset.card_erase_of_mem hmem]
      have hpos : 1 ≤ (bnd \ visKeys vis).card := Finset.card_pos.mpr ⟨_, hmem⟩
      have := ih (vis ++ [(stepDir c d, path ++ [stepDir c d])])
      omega
    · simp only [bidirExpand, if_neg hc]
      exact ih vis

/-- The `while forward_queue or backward_queue:` loop of `_bidirectional`. -/
def bidirLoop (pass : Pos → Bool) (bnd : Finset Pos)
    (hp : ∀ p, pass p = true → p ∈ bnd) :
    List (Pos × List Pos) → List (Pos × List Pos) →
      List (Pos × List Pos) → List (Pos × List Pos) → ℕ →
      Option (List Pos) × ℕ
  | [], [], _, _, n => (none, n)
  | (c, path) :: restF, qB, visF, visB, n =>
    match lookupPos visB c with
    | some bpath => (some (path ++ bpath.dropLast.reverse), n + 1)
    | none =>
      let e := bidirExpand pass path c DIRECTIONS visF
      match qB with
      | [] => bidirLoop pass bnd hp (restF ++ e.1) [] e.2 visB (n + 1)
      | (c2, path2) :: restB =>
        match lookupPos e.2 c2 with
        | some fpath => (some (fpath ++ path2.dropLast.reverse), n + 2)
        | none =>
          let e2 := bidirExpand pass path2 c2 DIRECTIONS visB
          bidirLoop pass bnd hp (restF ++ e.1) (restB ++ e2.1) e.2 e2.2 (n + 2)
  | [], (c2, path2) :: restB, visF, visB, n =>
    match lookupPos visF c2 with
    | some fpath => (some (fpath ++ path2.dropLast.reverse), n + 1)
    | none =>
      let e2 := bidirExpand pass path2 c2 DIRECTIONS visB
      bidirLoop pass bnd hp [] (restB ++ e2.1) visF e2.2 (n + 1)
termination_by qF qB visF visB _ =>
  5 * ((bnd \ visKeys visF).card + (bnd \ visKeys visB).card)
    + qF.length + qB.length
decreasing_by
  · have h1 := bidirExpand_measure hp path c DIRECTIONS visF
    simp only [List.length_append, List.length_cons, List.length_nil]
    omega
  · have h1 := bidirExpand_measure hp path c DIRECTIONS visF
    have h2 := bidirExpand_measure hp path2 c2 DIRECTIONS visB
    simp only [List.length_append, List.length_cons]
    omega
  · have h2 := bidirExpand_measure hp path2 c2 DIRECTIONS visB
    simp only [List.length_append, List.length_cons, List.length_nil]
    omega

/-- `PathFinder._bidirectional(start, end, maze, width, height)`, including
its explicit `start == end` short-circuit. -/
def pfBidirectional (start goal : Pos) (maze : List (List ℕ)) (w h : ℤ) :
    Option (List Pos) × ℕ :=
  if start = goal then (some [start], 1)
  else
    bidirLoop (mazePass maze w h) (bound w h)
      (fun p hpp => mem_bound.mpr (by
        simp only [mazePass, Bool.and_eq_true] at hpp
        exact hpp.1))
      [(start, [start])] [(goal, [goal])]
      [(start, [start])] [(goal, [goal])] 0

/-! ## `PathFinder.find_path` (path_finding.py lines 16-44)

Dimensions are recovered from the maze (`height = len(maze)`,
`width = len(maze[0]) if maze else 0`); any unrecognized algorithm name
falls through to BFS.  The wall-clock `search_time` is dropped. -/

def find_path (σ : ShuffleStream) (start goal : Pos) (algorithm : String)
    (maze : List (List ℕ)) : Option (List Pos) × ℕ :=
  let h : ℤ := maze.length
  let w : ℤ := (maze.headD []).length
  if algorithm = "BFS" then pfBfs start goal maze w h
  else if algorithm = "UCS" then pfUcs start goal maze w h
  else if algorithm = "DFS" then pfDfs σ start goal maze w h
  else if algorithm = "DLS" then pfDls start goal maze w h
  else if algorithm = "IDS" then pfIds start goal maze w h
  else if algorithm = "Bidirectional" then pfBidirectional start goal maze w h
  else pfBfs start goal maze w h

/-! ## Path decomposition and distance lemmas -/

lemma chainOk_iff {l : List Pos} :
    chainOk l = true ↔ l.Chain' (fun a b => adjacentB a b = true) := by
  induction l with
  | nil => simp [chainOk]
  | cons a t ih =>
    cases t with
    | nil => simp [chainOk]
    | cons b r =>
      simp only [chainOk, Bool.and_eq_true, List.chain'_cons]
      exact and_congr Iff.rfl ih

lemma adjacentB_stepDir {c : Pos} {d : Pos} (hd : d ∈ DIRECTIONS) :
    adjacentB c (stepDir c d) = true := by
  simp only [adjacentB, List.any_eq_true, beq_iff_eq]
  exact ⟨d, hd, rfl⟩

lemma adjacentB_exists_dir {c x : Pos} (h : adjacentB c x = true) :
    ∃ d ∈ DIRECTIONS, x = stepDir c d := by
  simp only [adjacentB, List.any_eq_true, beq_iff_eq] at h
  exact h

/-- A good path of length ≥ 2 splits off its final step. -/
lemma isGoodPath_decomp {pass : Pos → Bool} {s z : Pos} {l : List Pos}
    (h : isGoodPath pass s z l = true) (hlen : 2 ≤ l.length) :
    ∃ l' y, l = l' ++ [z] ∧ isGoodPath pass s y l' = true ∧
      adjacentB y z = true ∧ pass z = true ∧ l'.length + 1 = l.length := by
  simp only [isGoodPath, Bool.and_eq_true, beq_iff_eq, List.all_eq_true] at h
  obtain ⟨⟨⟨hhead, hlast⟩, hchain⟩, htail⟩ := h
  obtain ⟨a, t, rfl⟩ : ∃ a t, l = a :: t := by
    cases l with
    | nil => simp at hlen
    | cons a t => exact ⟨a, t, rfl⟩
  obtain ⟨b, r, rfl⟩ : ∃ b r, t = b :: r := by
    cases t with
    | nil => simp at hlen
    | cons b r => exact ⟨b, r, rfl⟩
  have hsplit : (a :: b :: r).dropLast ++ [z] = a :: b :: r :=
    List.dropLast_append_getLast? z hlast
  refine ⟨(a :: b :: r).dropLast, (a :: b :: r).dropLast.getLast (by simp), ?_, ?_, ?_, ?_, ?_⟩
  · exact hsplit.symm
  · simp only [isGoodPath, Bool.and_eq_true, beq_iff_eq, List.all_eq_true]
    refine ⟨⟨⟨?_, ?_⟩, ?_⟩, ?_⟩
    · simp only [List.head?_cons, Option.some.injEq] at hhead
      simp [hhead]
    · exact List.getLast?_eq_getLast_of_ne_nil (by simp)
    · rw [chainOk_iff]
      have := chainOk_iff.mp hchain
      rw [← hsplit] at this
      exact (List.chain'_append.mp this).1
    · intro x hx
      refine htail x ?_
      have hsub : (a :: b :: r).dropLast.tail.Sublist (a :: b :: r).tail := by
        simp only [List.dropLast_cons₂, List.tail_cons]
        exact List.dropLast_sublist _
      exact hsub.mem hx
  · have := chainOk_iff.mp hchain
    rw [← hsplit] at this
    have h2 := (List.chain'_append.mp this).2.2
    have hg : (a :: b :: r).dropLast.getLast? =
        some ((a :: b :: r).dropLast.getLast (by simp)) :=
      List.getLast?_eq_getLast_of_ne_nil _
    exact h2 _ hg z rfl
  · refine htail z ?_
    have hlast2 : (b :: r).getLast? = some z := by
      simpa [List.getLast?_cons_cons] using hlast
    obtain ⟨hne, heq⟩ := List.mem_getLast?_eq_getLast (Option.mem_def.mpr hlast2)
    have hm := List.getLast_mem hne
    rw [← heq] at hm
    simpa using hm
  · have : (a :: b :: r).dropLast.length + 1 = (a :: b :: r).length := by
      simp [List.length_dropLast]
    exact this

/-- A good path of length 1 is `[s]`, so its endpoint is the start. -/
lemma isGoodPath_length_one {pass : Pos → Bool} {s z : Pos} {l : List Pos}
    (h : isGoodPath pass s z l = true) (hlen : l.length = 1) : z = s := by
  obtain ⟨a, rfl⟩ : ∃ a, l = [a] := by
    cases l with
    | nil => simp at hlen
    | cons a t =>
      cases t with
      | nil => exact ⟨a, rfl⟩
      | cons b r => simp at hlen
  simp only [isGoodPath, Bool.and_eq_true, beq_iff_eq] at h
  obtain ⟨⟨⟨hh, hl⟩, _⟩, _⟩ := h
  simp only [List.head?_cons, Option.some.injEq] at hh
  simp only [List.getLast?_singleton, Option.some.injEq] at hl
  rw [← hl, hh]

lemma dist_eq_one_iff {pass : Pos → Bool} {s z : Pos} (h : Reach pass s z)
    (hd : dist pass s z = 1) : z = s := by
  obtain ⟨l, hl, hlen⟩ := dist_mem h
  exact isGoodPath_length_one hl (hd ▸ hlen)

/-- Extending reachability by one passable step. -/
lemma reach_snoc {pass : Pos → Bool} {s y z : Pos} (h : Reach pass s y)
    (hadj : adjacentB y z = true) (hp : pass z = true) :
    Reach pass s z ∧ dist pass s z ≤ dist pass s y + 1 := by
  obtain ⟨l, hl, hlen⟩ := dist_mem h
  have hz := isGoodPath_snoc hl hadj hp
  exact ⟨⟨_, hz⟩, by
    have := dist_le hz
    simp only [List.length_append, List.length_singleton] at this
    omega⟩

/-- The penultimate cell of a shortest path: any cell at distance `n ≥ 2` has
a neighbour at distance `n - 1` from which it is entered through a passable
step. -/
lemma dist_penultimate {pass : Pos → Bool} {s z : Pos} (h : Reach pass s z)
    (hn : 2 ≤ dist pass s z) :
    ∃ y, Reach pass s y ∧ dist pass s y = dist pass s z - 1 ∧
      adjacentB y z = true ∧ pass z = true := by
  obtain ⟨l, hl, hlen⟩ := dist_mem h
  obtain ⟨l', y, rfl, hl', hadj, hpz, hlen'⟩ := isGoodPath_decomp hl (by omega)
  have hry : Reach pass s y := ⟨l', hl'⟩
  refine ⟨y, hry, ?_, hadj, hpz⟩
  have h1 : dist pass s y ≤ l'.length := dist_le hl'
  have h2 : dist pass s z ≤ dist pass s y + 1 := (reach_snoc hry hadj hpz).2
  omega

/-- A set containing the start and closed under passable steps contains every
reachable cell. -/
lemma reach_mem_closed {pass : Pos → Bool} {s : Pos} {V : Set Pos}
    (hs : s ∈ V)
    (hcl : ∀ y ∈ V, ∀ d ∈ DIRECTIONS, pass (stepDir y d) = true → stepDir y d ∈ V) :
    ∀ z, Reach pass s z → z ∈ V := by
  have key : ∀ (k : ℕ) (z : Pos) (l : List Pos), l.length = k →
      isGoodPath pass s z l = true → z ∈ V := by
    intro k
    induction k using Nat.strong_induction_on with
    | _ k ih =>
      intro z l hlen hl
      rcases Nat.lt_or_ge k 2 with hk | hk
      · have h1 := isGoodPath_length_pos hl
        have : l.length = 1 := by omega
        have := isGoodPath_length_one hl this
        subst this
        exact hs
      · obtain ⟨l', y, rfl, hl', hadj, hpz, hlen'⟩ :=
          isGoodPath_decomp hl (by omega)
        have hy : y ∈ V := ih l'.length (by omega) y l' rfl hl'
        obtain ⟨d, hd, rfl⟩ := adjacentB_exists_dir hadj
        exact hcl y hy d hd hpz
  rintro z ⟨l, hl⟩
  exact key l.length z l rfl hl

/-! ## BFS loop invariant and correctness -/

lemma bfsExpand_spec (pass : Pos → Bool) (path : List Pos) (c : Pos) :
    ∀ (ds : List Pos) (vis : Finset Pos),
      (∀ x, x ∈ (bfsExpand pass path c ds vis).2 ↔
        (x ∈ vis ∨ x ∈ (bfsExpand pass path c ds vis).1.map Prod.fst)) ∧
      (∀ pr ∈ (bfsExpand pass path c ds vis).1,
        pr.2 = path ++ [pr.1] ∧ pass pr.1 = true ∧ pr.1 ∉ vis ∧
          ∃ d ∈ ds, pr.1 = stepDir c d) ∧
      ((bfsExpand pass path c ds vis).1.map Prod.fst).Nodup ∧
      (∀ d ∈ ds, pass (stepDir c d) = true →
        stepDir c d ∈ (bfsExpand pass path c ds vis).2) := by
  intro ds
  induction ds with
  | nil =>
    intro vis
    refine ⟨fun x => by simp [bfsExpand], by simp [bfsExpand], by simp [bfsExpand],
      by simp⟩
  | cons d ds ih =>
    intro vis
    by_cases hc : pass (stepDir c d) = true ∧ stepDir c d ∉ vis
    · obtain ⟨ihmem, ihent, ihnd, ihcov⟩ := ih (insert (stepDir c d) vis)
      simp only [bfsExpand, if_pos hc]
      refine ⟨?_, ?_, ?_, ?_⟩
      · intro x
        rw [ihmem x]
        simp only [Finset.mem_insert, List.map_cons, List.mem_cons]
        tauto
      · intro pr hpr
        rcases List.mem_cons.mp hpr with rfl | hpr
        · exact ⟨rfl, hc.1, hc.2, d, List.mem_cons_self d ds, rfl⟩
        · obtain ⟨h1, h2, h3, dd, hdd, h4⟩ := ihent pr hpr
          exact ⟨h1, h2, fun hx => h3 (Finset.mem_insert_of_mem hx),
            dd, List.mem_cons_of_mem d hdd, h4⟩
      · simp only [List.map_cons, List.nodup_cons]
        refine ⟨?_, ihnd⟩
        intro hmem
        simp only [List.mem_map] at hmem
        obtain ⟨pr, hpr, hpr1⟩ := hmem
        have := (ihent pr hpr).2.2.1
        rw [hpr1] at this
        exact this (Finset.mem_insert_self _ _)
      · intro d' hd' hp'
        rcases List.mem_cons.mp hd' with rfl | hd'
        · rw [ihmem]
          left
          exact Finset.mem_insert_self _ _
        · exact ihcov d' hd' hp'
    · obtain ⟨ihmem, ihent, ihnd, ihcov⟩ := ih vis
      simp only [bfsExpand, if_neg hc]
      refine ⟨ihmem, ?_, ihnd, ?_⟩
      · intro pr hpr
        obtain ⟨h1, h2, h3, dd, hdd, h4⟩ := ihent pr hpr
        exact ⟨h1, h2, h3, dd, List.mem_cons_of_mem d hdd, h4⟩
      · intro d' hd' hp'
        rcases List.mem_cons.mp hd' with rfl | hd'
        · have : stepDir c d' ∈ vis := by
            by_contra hnv
            exact hc ⟨hp', hnv⟩
          rw [ihmem]
          exact Or.inl this
        · exact ihcov d' hd' hp'

/-- The loop invariant of `_bfs`: queue entries carry shortest good paths,
queue lengths are level-sorted within one level of the head, visited is
exactly the enqueued-ever set (closed under expansion away from the queue)
and covers every cell at distance up to the head's level. -/
structure BfsInv (pass : Pos → Bool) (s goal : Pos)
    (q : List (Pos × List Pos)) (vis : Finset Pos) : Prop where
  entries_good : ∀ e ∈ q, isGoodPath pass s e.1 e.2 = true
  entries_dist : ∀ e ∈ q, e.2.length = dist pass s e.1
  leveled : List.Pairwise
    (fun a b : Pos × List Pos =>
      a.2.length ≤ b.2.length ∧ b.2.length ≤ a.2.length + 1) q
  cells_nodup : (q.map Prod.fst).Nodup
  cells_vis : ∀ e ∈ q, e.1 ∈ vis
  start_vis : s ∈ vis
  closed : ∀ y ∈ vis, y ∉ q.map Prod.fst →
    ∀ d ∈ DIRECTIONS, pass (stepDir y d) = true → stepDir y d ∈ vis
  ball : ∀ z, Reach pass s z → ∀ e0, q.head? = some e0 →
    dist pass s z ≤ e0.2.length → z ∈ vis
  goal_q : goal ∈ vis → goal ∈ q.map Prod.fst

/-- One expansion step of `_bfs` preserves the invariant. -/
lemma BfsInv.step {pass : Pos → Bool} {s goal c : Pos} {path : List Pos}
    {rest : List (Pos × List Pos)} {vis : Finset Pos}
    (inv : BfsInv pass s goal ((c, path) :: rest) vis) (hcg : c ≠ goal) :
    BfsInv pass s goal (rest ++ (bfsExpand pass path c DIRECTIONS vis).1)
      (bfsExpand pass path c DIRECTIONS vis).2 := by
  obtain ⟨emem, eent, end_, ecov⟩ := bfsExpand_spec pass path c DIRECTIONS vis
  set E := (bfsExpand pass path c DIRECTIONS vis).1 with hE
  set vis' := (bfsExpand pass path c DIRECTIONS vis).2 with hvis'
  have hgood_c : isGoodPath pass s c path = true :=
    inv.entries_good _ (List.mem_cons_self _ _)
  have hdist_c : path.length = dist pass s c :=
    inv.entries_dist _ (List.mem_cons_self _ _)
  have hreach_c : Reach pass s c := ⟨path, hgood_c⟩
  have hhead_pairs : ∀ b ∈ rest, path.length ≤ b.2.length ∧
      b.2.length ≤ path.length + 1 :=
    (List.pairwise_cons.mp inv.leveled).1
  -- facts about the new entries
  have hE_good : ∀ pr ∈ E, isGoodPath pass s pr.1 pr.2 = true := by
    intro pr hpr
    obtain ⟨h1, h2, _, d, hd, h4⟩ := eent pr hpr
    rw [h1]
    have hadj : adjacentB c pr.1 = true := by
      rw [h4]
      exact adjacentB_stepDir hd
    exact isGoodPath_snoc hgood_c hadj h2
  have hE_len : ∀ pr ∈ E, pr.2.length = path.length + 1 := by
    intro pr hpr
    rw [(eent pr hpr).1]
    simp
  have hE_dist : ∀ pr ∈ E, pr.2.length = dist pass s pr.1 := by
    intro pr hpr
    obtain ⟨h1, h2, h3, d, hd, h4⟩ := eent pr hpr
    have hadj : adjacentB c pr.1 = true := by
      rw [h4]
      exact adjacentB_stepDir hd
    have hle : dist pass s pr.1 ≤ dist pass s c + 1 :=
      (reach_snoc hreach_c hadj h2).2
    have hreach : Reach pass s pr.1 := (reach_snoc hreach_c hadj h2).1
    have hgt : ¬ dist pass s pr.1 ≤ path.length := by
      intro hcon
      exact h3 (inv.ball pr.1 hreach (c, path) rfl hcon)
    rw [hE_len pr hpr]
    omega
  refine ⟨?_, ?_, ?_, ?_, ?_, ?_, ?_, ?_, ?_⟩
  · intro e he
    rcases List.mem_append.mp he with he | he
    · exact inv.entries_good _ (List.mem_cons_of_mem _ he)
    · exact hE_good e he
  · intro e he
    rcases List.mem_append.mp he with he | he
    · exact inv.entries_dist _ (List.mem_cons_of_mem _ he)
    · exact hE_dist e he
  · rw [List.pairwise_append]
    refine ⟨(List.pairwise_cons.mp inv.leveled).2, ?_, ?_⟩
    · refine List.pairwise_of_forall_mem_list ?_
      intro a ha b hb
      rw [hE_len a ha, hE_len b hb]
      omega
    · intro a ha b hb
      have h1 := hhead_pairs a ha
      rw [hE_len b hb]
      omega
  · rw [List.map_append, List.nodup_append]
    refine ⟨(List.nodup_cons.mp (by simpa using inv.cells_nodup)).2, end_, ?_⟩
    intro x hx hx'
    simp only [List.mem_map] at hx hx'
    obtain ⟨a, ha, rfl⟩ := hx
    obtain ⟨b, hb, hba⟩ := hx'
    have hbv := (eent b hb).2.2.1
    rw [hba] at hbv
    exact hbv (inv.cells_vis _ (List.mem_cons_of_mem _ ha))
  · intro e he
    rcases List.mem_append.mp he with he | he
    · rw [emem]
      exact Or.inl (inv.cells_vis _ (List.mem_cons_of_mem _ he))
    · rw [emem]
      exact Or.inr (List.mem_map_of_mem Prod.fst he)
  · rw [emem]
    exact Or.inl inv.start_vis
  · intro y hy hyq d hd hp
    have hy' := (emem y).mp hy
    rcases hy' with hy' | hy'
    · by_cases hyc : y = c
      · subst hyc
        exact ecov d hd hp
      · have hynq : y ∉ ((c, path) :: rest).map Prod.fst := by
          simp only [List.map_cons, List.mem_cons]
          rintro (h | h)
          · exact hyc h
          · exact hyq (by
              rw [List.map_append]
              exact List.mem_append_left _ h)
        have := inv.closed y hy' hynq d hd hp
        rw [emem]
        exact Or.inl this
    · exfalso
      apply hyq
      rw [List.map_append]
      exact List.mem_append_right _ hy'
  · intro z hz e0 he0 hdz
    have hmono : ∀ x ∈ vis, x ∈ vis' := fun x hx => (emem x).mpr (Or.inl hx)
    have hmem0 : e0 ∈ rest ++ E :=
      List.mem_of_mem_head? (Option.mem_def.mpr he0)
    have he0len : e0.2.length ≤ path.length + 1 := by
      rcases List.mem_append.mp hmem0 with h | h
      · exact (hhead_pairs _ h).2
      · rw [hE_len _ h]
    by_cases hdz' : dist pass s z ≤ path.length
    · exact hmono _ (inv.ball z hz (c, path) rfl hdz')
    · have hdzeq : dist pass s z = path.length + 1 := by omega
      have hplen : 1 ≤ path.length := isGoodPath_length_pos hgood_c
      obtain ⟨y, hry, hdy, hadj, hpz⟩ := dist_penultimate hz (by omega)
      have hyvis : y ∈ vis := inv.ball y hry (c, path) rfl
        (by show dist pass s y ≤ path.length; omega)
      by_cases hyc : y = c
      · subst hyc
        obtain ⟨d, hd, rfl⟩ := adjacentB_exists_dir hadj
        exact ecov d hd hpz
      · by_cases hyq : y ∈ ((c, path) :: rest).map Prod.fst
        · exfalso
          simp only [List.map_cons, List.mem_cons] at hyq
          rcases hyq with h | h
          · exact hyc h
          · obtain ⟨⟨y', py⟩, hpy, hfst⟩ := List.mem_map.mp h
            have hpylen : py.length = dist pass s y := by
              have h0 := inv.entries_dist _ (List.mem_cons_of_mem (c, path) hpy)
              rw [← hfst]
              exact h0
            have hpyk : py.length = path.length := by omega
            cases rest with
            | nil => simp at hpy
            | cons r0 rs =>
              have he0r : e0 = r0 := by
                simp only [List.cons_append, List.head?_cons,
                  Option.some.injEq] at he0
                exact he0.symm
              subst he0r
              have he0eq : e0.2.length = path.length + 1 := by omega
              have hpw := (List.pairwise_cons.mp inv.leveled).2
              rcases List.mem_cons.mp hpy with hpy0 | hpy0
              · rw [← hpy0] at he0eq
                simp only at he0eq
                omega
              · have := (List.pairwise_cons.mp hpw).1 _ hpy0
                simp only at this
                omega
        · obtain ⟨d, hd, rfl⟩ := adjacentB_exists_dir hadj
          exact hmono _ (inv.closed y hyvis hyq d hd hpz)
  · intro hgv
    rcases (emem goal).mp hgv with h | h
    · have := inv.goal_q h
      simp only [List.map_cons, List.mem_cons] at this
      rcases this with h' | h'
      · exact absurd h'.symm hcg
      · rw [List.map_append]
        exact List.mem_append_left _ h'
    · rw [List.map_append]
      exact List.mem_append_right _ h

/-- The BFS loop, started in an invariant state, returns a shortest good path
when the goal is reachable and `none` exactly when it is not. -/
theorem bfsLoop_spec (pass : Pos → Bool) (bnd : Finset Pos)
    (hp : ∀ p, pass p = true → p ∈ bnd) (s goal : Pos) :
    ∀ (q : List (Pos × List Pos)) (vis : Finset Pos) (n : ℕ),
      BfsInv pass s goal q vis →
      ((bfsLoop pass bnd hp goal q vis n).1 = none → ¬ Reach pass s goal) ∧
      (∀ p, (bfsLoop pass bnd hp goal q vis n).1 = some p →
        isGoodPath pass s goal p = true ∧ p.length = dist pass s goal) := by
  intro q vis n
  induction q, vis, n using bfsLoop.induct pass bnd hp goal with
  | case1 vis n =>
    intro inv
    constructor
    · intro _ hreach
      have hgv : goal ∈ vis := by
        have := @reach_mem_closed pass s {x | x ∈ vis} inv.start_vis
          (fun y hy d hd hpd => inv.closed y hy (by simp) d hd hpd) goal hreach
        exact this
      have := inv.goal_q hgv
      simp at this
    · intro p hp'
      simp [bfsLoop] at hp'
  | case2 path rest vis n =>
    intro inv
    constructor
    · intro hnone
      simp [bfsLoop] at hnone
    · intro p hp'
      simp only [bfsLoop, if_pos rfl] at hp'
      obtain rfl : path = p := by simpa using hp'
      exact ⟨inv.entries_good _ (List.mem_cons_self _ _),
        inv.entries_dist _ (List.mem_cons_self _ _)⟩
  | case3 c path rest vis n hgoal e ih =>
    intro inv
    have hnext := BfsInv.step inv hgoal
    have := ih hnext
    constructor
    · intro hnone
      apply this.1
      rw [← hnone]
      simp only [bfsLoop, if_neg hgoal]
    · intro p hp'
      apply this.2
      rw [← hp']
      simp only [bfsLoop, if_neg hgoal]

/-- The invariant holds at `_bfs`'s initial state. -/
lemma BfsInv.init (pass : Pos → Bool) (s goal : Pos) :
    BfsInv pass s goal [(s, [s])] {s} := by
  refine ⟨?_, ?_, ?_, ?_, ?_, ?_, ?_, ?_, ?_⟩
  · intro e he
    simp only [List.mem_singleton] at he
    subst he
    exact isGoodPath_singleton pass s
  · intro e he
    simp only [List.mem_singleton] at he
    subst he
    simp [dist_self]
  · simp
  · simp
  · intro e he
    simp only [List.mem_singleton] at he
    subst he
    simp
  · simp
  · intro y hy hyq
    simp only [Finset.mem_singleton] at hy
    subst hy
    simp at hyq
  · intro z hz e0 he0 hdz
    simp only [List.head?_cons, Option.some.injEq] at he0
    subst he0
    simp only [List.length_singleton] at hdz
    have h1 := dist_pos hz
    have : dist pass s z = 1 := by omega
    have := dist_eq_one_iff hz this
    subst this
    simp
  · intro hgv
    simp only [Finset.mem_singleton] at hgv
    subst hgv
    simp

/-- Main specification of `PathFinder._bfs`: it returns `none` exactly when
no good path exists, and otherwise a shortest good path. -/
theorem pfBfs_spec (start goal : Pos) (maze : List (List ℕ)) (w h : ℤ) :
    ((pfBfs start goal maze w h).1 = none ↔
      ¬ Reach (mazePass maze w h) start goal) ∧
    (∀ p, (pfBfs start goal maze w h).1 = some p →
      isGoodPath (mazePass maze w h) start goal p = true ∧
        p.length = dist (mazePass maze w h) start goal) := by
  have := bfsLoop_spec (mazePass maze w h) (bound w h)
    (fun p hpp => mem_bound.mpr (by
      simp only [mazePass, Bool.and_eq_true] at hpp
      exact hpp.1))
    start goal [(start, [start])] {start} 0 (BfsInv.init _ _ _)
  refine ⟨⟨this.1, ?_⟩, this.2⟩
  intro hnr
  cases hres : (pfBfs start goal maze w h).1 with
  | none => rfl
  | some p =>
    exact absurd ⟨p, (this.2 p hres).1⟩ hnr

/-! ## UCS loop invariant and correctness -/

lemma ucsNbrs_mem {pass : Pos → Bool} {cost : ℕ} {path : List Pos} {c : Pos}
    {vis : Finset Pos} {x : ℕ × Pos × List Pos} :
    x ∈ ucsNbrs pass cost path c vis ↔
      ∃ d ∈ DIRECTIONS, pass (stepDir c d) = true ∧ stepDir c d ∉ vis ∧
        x = (cost + 1, stepDir c d, path ++ [stepDir c d]) := by
  simp only [ucsNbrs, List.mem_map, List.mem_filter, Bool.and_eq_true,
    Bool.not_eq_true', decide_eq_false_iff_not]
  constructor
  · rintro ⟨d, ⟨hd, hp, hv⟩, rfl⟩
    exact ⟨d, hd, hp, hv, rfl⟩
  · rintro ⟨d, hd, hp, hv, rfl⟩
    exact ⟨d, ⟨hd, hp, hv⟩, rfl⟩

/-- The loop invariant of `_ucs`: heap entries carry good paths with
`cost = length - 1`; every passable neighbour of a visited cell is visited or
on the heap with cost at most the visited cell's distance; the start has its
cost-0 entry while unvisited; visited cells are reachable; the goal is
unvisited. -/
structure UcsInv (pass : Pos → Bool) (s goal : Pos)
    (heap : List (ℕ × Pos × List Pos)) (vis : Finset Pos) : Prop where
  entries : ∀ e ∈ heap, isGoodPath pass s e.2.1 e.2.2 = true ∧
    e.1 + 1 = e.2.2.length
  relaxed : ∀ x ∈ vis, ∀ d ∈ DIRECTIONS, pass (stepDir x d) = true →
    stepDir x d ∈ vis ∨
      ∃ e ∈ heap, e.2.1 = stepDir x d ∧ e.1 ≤ dist pass s x
  start_entry : s ∉ vis → ∃ e ∈ heap, e.2.1 = s ∧ e.1 = 0
  reach_vis : ∀ x ∈ vis, Reach pass s x
  goal_unvis : goal ∉ vis

/-- Any reachable unvisited cell has a heap entry of an unvisited cell whose
cost is below its distance (Dijkstra frontier property). -/
lemma UcsInv.frontier {pass : Pos → Bool} {s goal : Pos}
    {heap : List (ℕ × Pos × List Pos)} {vis : Finset Pos}
    (inv : UcsInv pass s goal heap vis) :
    ∀ z, Reach pass s z → z ∉ vis →
      ∃ e ∈ heap, e.1 + 1 ≤ dist pass s z := by
  have key : ∀ (n : ℕ) (z : Pos), dist pass s z = n → Reach pass s z →
      z ∉ vis → ∃ e ∈ heap, e.1 + 1 ≤ dist pass s z := by
    intro n
    induction n using Nat.strong_induction_on with
    | _ n ih =>
      intro z hdn hz hzv
      have h1 := dist_pos hz
      rcases Nat.lt_or_ge n 2 with hn | hn
      · have : dist pass s z = 1 := by omega
        have hzs := dist_eq_one_iff hz this
        subst hzs
        obtain ⟨e, he, _, hc⟩ := inv.start_entry hzv
        exact ⟨e, he, by omega⟩
      · obtain ⟨y, hry, hdy, hadj, hpz⟩ := dist_penultimate hz (by omega)
        by_cases hyv : y ∈ vis
        · obtain ⟨d, hd, rfl⟩ := adjacentB_exists_dir hadj
          rcases inv.relaxed y hyv d hd hpz with hvz | ⟨e, he, _, hce⟩
          · exact absurd hvz hzv
          · exact ⟨e, he, by omega⟩
        · obtain ⟨e, he, hce⟩ := ih (n - 1) (by omega) y (by omega) hry hyv
          exact ⟨e, he, by omega⟩
  intro z hz hzv
  exact key (dist pass s z) z rfl hz hzv

/-- When `popMin` yields an unvisited cell, that entry's path is shortest. -/
lemma UcsInv.pop_shortest {pass : Pos → Bool} {s goal : Pos}
    {heap rest : List (ℕ × Pos × List Pos)} {vis : Finset Pos}
    {cost : ℕ} {c : Pos} {path : List Pos}
    (inv : UcsInv pass s goal heap vis)
    (hpop : popMin heap = some ((cost, c, path), rest)) (hcv : c ∉ vis) :
    cost + 1 = dist pass s c ∧ path.length = dist pass s c := by
  have hent := inv.entries _ (popMin_mem hpop)
  have hrc : Reach pass s c := ⟨path, hent.1⟩
  obtain ⟨e, he, hce⟩ := inv.frontier c hrc hcv
  have hmin : cost ≤ e.1 := popMin_cost_min hpop e he
  have hup : dist pass s c ≤ path.length := dist_le hent.1
  have hlen : cost + 1 = path.length := hent.2
  constructor
  · omega
  · omega

/-! Step equations of the UCS loop. -/

lemma ucsLoop_eq_none {pass : Pos → Bool} {bnd : Finset Pos}
    {hp : ∀ p, pass p = true → p ∈ bnd} {goal : Pos}
    {heap : List (ℕ × Pos × List Pos)} {vis : Finset Pos} {n : ℕ}
    {hq : ∀ e ∈ heap, e.2.1 ∈ bnd} (hpop : popMin heap = none) :
    ucsLoop pass bnd hp goal heap vis n hq = (none, n) := by
  rw [ucsLoop.eq_def]
  split
  · rfl
  · rename_i cost c path rest hpop2
    rw [hpop] at hpop2
    exact absurd hpop2 (by simp)

lemma ucsLoop_eq_skip {pass : Pos → Bool} {bnd : Finset Pos}
    {hp : ∀ p, pass p = true → p ∈ bnd} {goal : Pos}
    {heap rest : List (ℕ × Pos × List Pos)} {vis : Finset Pos} {n cost : ℕ}
    {c : Pos} {path : List Pos}
    {hq : ∀ e ∈ heap, e.2.1 ∈ bnd}
    (hpop : popMin heap = some ((cost, c, path), rest)) (hcv : c ∈ vis)
    (hq' : ∀ e ∈ rest, e.2.1 ∈ bnd) :
    ucsLoop pass bnd hp goal heap vis n hq =
      ucsLoop pass bnd hp goal rest vis (n + 1) hq' := by
  rw [ucsLoop.eq_def]
  split
  · rename_i hpop2
    rw [hpop] at hpop2
    exact absurd hpop2 (by simp)
  · rename_i cost2 c2 path2 rest2 hpop2
    rw [hpop] at hpop2
    obtain ⟨⟨h1, h2, h3⟩, h4⟩ : (cost2 = cost ∧ c2 = c ∧ path2 = path) ∧ rest2 = rest := by
      simpa using hpop2.symm
    subst h1; subst h2; subst h3; subst h4
    rw [dif_pos hcv]

lemma ucsLoop_eq_found {pass : Pos → Bool} {bnd : Finset Pos}
    {hp : ∀ p, pass p = true → p ∈ bnd} {goal : Pos}
    {heap rest : List (ℕ × Pos × List Pos)} {vis : Finset Pos} {n cost : ℕ}
    {path : List Pos}
    {hq : ∀ e ∈ heap, e.2.1 ∈ bnd}
    (hpop : popMin heap = some ((cost, goal, path), rest)) (hcv : goal ∉ vis) :
    ucsLoop pass bnd hp goal heap vis n hq = (some path, n + 1) := by
  rw [ucsLoop.eq_def]
  split
  · rename_i hpop2
    rw [hpop] at hpop2
    exact absurd hpop2 (by simp)
  · rename_i cost2 c2 path2 rest2 hpop2
    rw [hpop] at hpop2
    obtain ⟨⟨h1, h2, h3⟩, h4⟩ : (cost2 = cost ∧ c2 = goal ∧ path2 = path) ∧ rest2 = rest := by
      simpa using hpop2.symm
    subst h1; subst h2; subst h3; subst h4
    rw [dif_neg hcv, if_pos rfl]

lemma ucsLoop_eq_step {pass : Pos → Bool} {bnd : Finset Pos}
    {hp : ∀ p, pass p = true → p ∈ bnd} {goal : Pos}
    {heap rest : List (ℕ × Pos × List Pos)} {vis : Finset Pos} {n cost : ℕ}
    {c : Pos} {path : List Pos}
    {hq : ∀ e ∈ heap, e.2.1 ∈ bnd}
    (hpop : popMin heap = some ((cost, c, path), rest)) (hcv : c ∉ vis)
    (hcg : c ≠ goal)
    (hq' : ∀ e ∈ rest ++ ucsNbrs pass cost path c (insert c vis), e.2.1 ∈ bnd) :
    ucsLoop pass bnd hp goal heap vis n hq =
      ucsLoop pass bnd hp goal
        (rest ++ ucsNbrs pass cost path c (insert c vis)) (insert c vis)
        (n + 1) hq' := by
  rw [ucsLoop.eq_def]
  split
  · rename_i hpop2
    rw [hpop] at hpop2
    exact absurd hpop2 (by simp)
  · rename_i cost2 c2 path2 rest2 hpop2
    rw [hpop] at hpop2
    obtain ⟨⟨h1, h2, h3⟩, h4⟩ : (cost2 = cost ∧ c2 = c ∧ path2 = path) ∧ rest2 = rest := by
      simpa using hpop2.symm
    subst h1; subst h2; subst h3; subst h4
    rw [dif_neg hcv, if_neg hcg]

/-- The UCS loop, started in an invariant state, returns a shortest good
path when the goal is reachable and `none` exactly when it is not. -/
theorem ucsLoop_spec (pass : Pos → Bool) (bnd : Finset Pos)
    (hp : ∀ p, pass p = true → p ∈ bnd) (goal s : Pos) :
    ∀ (heap : List (ℕ × Pos × List Pos)) (vis : Finset Pos) (n : ℕ)
      (hq : ∀ e ∈ heap, e.2.1 ∈ bnd), UcsInv pass s goal heap vis →
      ((ucsLoop pass bnd hp goal heap vis n hq).1 = none →
        ¬ Reach pass s goal) ∧
      (∀ p, (ucsLoop pass bnd hp goal heap vis n hq).1 = some p →
        isGoodPath pass s goal p = true ∧ p.length = dist pass s goal) := by
  intro heap vis n hq
  induction heap, vis, n, hq using ucsLoop.induct pass bnd hp goal with
  | case1 heap vis n hq hpop =>
    intro inv
    rw [ucsLoop_eq_none hpop]
    constructor
    · intro _ hreach
      obtain ⟨e, he, _⟩ := inv.frontier goal hreach inv.goal_unvis
      rw [popMin_eq_none.mp hpop] at he
      simp at he
    · intro p hp'
      simp at hp'
  | case2 heap vis n hq cost c path rest hpop hcv ih =>
    intro inv
    have inv' : UcsInv pass s goal rest vis := by
      have hperm := popMin_perm hpop
      refine ⟨?_, ?_, ?_, inv.reach_vis, inv.goal_unvis⟩
      · intro e he
        exact inv.entries e (popMin_rest_subset hpop e he)
      · intro x hx d hd hpd
        rcases inv.relaxed x hx d hd hpd with h | ⟨e, he, hcell, hce⟩
        · exact Or.inl h
        · rcases List.mem_cons.mp (hperm.mem_iff.mp he) with he2 | he2
          · left
            rw [← hcell, he2]
            exact hcv
          · exact Or.inr ⟨e, he2, hcell, hce⟩
      · intro hsv
        obtain ⟨e, he, hcell, hc0⟩ := inv.start_entry hsv
        rcases List.mem_cons.mp (hperm.mem_iff.mp he) with he2 | he2
        · exfalso
          apply hsv
          rw [← hcell, he2]
          exact hcv
        · exact ⟨e, he2, hcell, hc0⟩
    rw [ucsLoop_eq_skip hpop hcv]
    exact ih inv'
  | case3 heap vis n hq cost path rest hpop hcv =>
    intro inv
    have hshort := inv.pop_shortest hpop hcv
    have hent := inv.entries _ (popMin_mem hpop)
    rw [ucsLoop_eq_found hpop hcv]
    constructor
    · intro hnone
      simp at hnone
    · intro p hp'
      obtain rfl : path = p := by simpa using hp'
      exact ⟨hent.1, hshort.2⟩
  | case4 heap vis n hq cost c path rest hpop hcv hcg ih =>
    intro inv
    have hshort := inv.pop_shortest hpop hcv
    have hent := inv.entries _ (popMin_mem hpop)
    have hgood : isGoodPath pass s c path = true := hent.1
    have hlen : cost + 1 = path.length := hent.2
    have hperm := popMin_perm hpop
    have inv' : UcsInv pass s goal
        (rest ++ ucsNbrs pass cost path c (insert c vis)) (insert c vis) := by
      refine ⟨?_, ?_, ?_, ?_, ?_⟩
      · intro e he
        rcases List.mem_append.mp he with he | he
        · exact inv.entries e (popMin_rest_subset hpop e he)
        · obtain ⟨d, hd, hpd, _, rfl⟩ := ucsNbrs_mem.mp he
          exact ⟨isGoodPath_snoc hgood (adjacentB_stepDir hd) hpd,
            by simp [← hlen]⟩
      · intro x hx d hd hpd
        rcases Finset.mem_insert.mp hx with rfl | hx
        · by_cases hnv : stepDir x d ∈ insert x vis
          · exact Or.inl hnv
          · right
            refine ⟨(cost + 1, stepDir x d, path ++ [stepDir x d]), ?_, rfl, ?_⟩
            · exact List.mem_append_right _
                (ucsNbrs_mem.mpr ⟨d, hd, hpd, hnv, rfl⟩)
            · have := hshort.1
              omega
        · rcases inv.relaxed x hx d hd hpd with h | ⟨e, he, hcell, hce⟩
          · exact Or.inl (Finset.mem_insert_of_mem h)
          · rcases List.mem_cons.mp (hperm.mem_iff.mp he) with he2 | he2
            · left
              rw [← hcell, he2]
              exact Finset.mem_insert_self _ _
            · exact Or.inr ⟨e, List.mem_append_left _ he2, hcell, hce⟩
      · intro hsv
        have hsv2 : s ∉ vis := fun h => hsv (Finset.mem_insert_of_mem h)
        have hsc : s ≠ c := fun h => hsv (h ▸ Finset.mem_insert_self _ _)
        obtain ⟨e, he, hcell, hc0⟩ := inv.start_entry hsv2
        rcases List.mem_cons.mp (hperm.mem_iff.mp he) with he2 | he2
        · exfalso
          apply hsc
          rw [← hcell, he2]
        · exact ⟨e, List.mem_append_left _ he2, hcell, hc0⟩
      · intro x hx
        rcases Finset.mem_insert.mp hx with rfl | hx
        · exact ⟨path, hgood⟩
        · exact inv.reach_vis x hx
      · intro hg
        rcases Finset.mem_insert.mp hg with h | h
        · exact hcg h.symm
        · exact inv.goal_unvis h
    rw [ucsLoop_eq_step hpop hcv hcg]
    exact ih inv'

/-- Main specification of `PathFinder._ucs`: same contract as `_bfs`. -/
theorem pfUcs_spec (start goal : Pos) (maze : List (List ℕ)) (w h : ℤ) :
    ((pfUcs start goal maze w h).1 = none ↔
      ¬ Reach (mazePass maze w h) start goal) ∧
    (∀ p, (pfUcs start goal maze w h).1 = some p →
      isGoodPath (mazePass maze w h) start goal p = true ∧
        p.length = dist (mazePass maze w h) start goal) := by
  have hinv : UcsInv (mazePass maze w h) start goal
      [(0, start, [start])] ∅ := by
    refine ⟨?_, by simp, ?_, by simp, by simp⟩
    · intro e he
      simp only [List.mem_singleton] at he
      subst he
      exact ⟨isGoodPath_singleton _ _, by simp⟩
    · intro _
      exact ⟨(0, start, [start]), by simp, rfl, rfl⟩
  have := ucsLoop_spec (mazePass maze w h) (insert start (bound w h))
    (fun p hpp => Finset.mem_insert_of_mem (mem_bound.mpr (by
      simp only [mazePass, Bool.and_eq_true] at hpp
      exact hpp.1)))
    goal start [(0, start, [start])] ∅ 0
    (by intro e he; simp only [List.mem_singleton] at he; subst he; simp)
    hinv
  refine ⟨⟨this.1, ?_⟩, this.2⟩
  intro hnr
  cases hres : (pfUcs start goal maze w h).1 with
  | none => rfl
  | some p =>
    exact absurd ⟨p, (this.2 p hres).1⟩ hnr
/-! ## DFS soundness -/

lemma dfsNbrs_mem {pass : Pos → Bool} {path : List Pos} {c : Pos}
    {dirs : List Pos} {vis : Finset Pos} {x : Pos × List Pos} :
    x ∈ dfsNbrs pass path c dirs vis ↔
      ∃ d ∈ dirs, pass (stepDir c d) = true ∧ stepDir c d ∉ vis ∧
        x = (stepDir c d, path ++ [stepDir c d]) := by
  simp only [dfsNbrs, List.mem_map, List.mem_filter, Bool.and_eq_true,
    Bool.not_eq_true', decide_eq_false_iff_not]
  constructor
  · rintro ⟨d, ⟨hd, hp, hv⟩, rfl⟩
    exact ⟨d, hd, hp, hv, rfl⟩
  · rintro ⟨d, hd, hp, hv, rfl⟩
    exact ⟨d, ⟨hd, hp, hv⟩, rfl⟩

lemma dfsLoop_eq_nil {pass : Pos → Bool} {bnd : Finset Pos}
    {hp : ∀ p, pass p = true → p ∈ bnd} {σ : ShuffleStream} {goal : Pos}
    {stack : List (Pos × List Pos)} {vis : Finset Pos} {k n : ℕ}
    {hq : ∀ e ∈ stack, e.1 ∈ bnd} (hpop : stack.getLast? = none) :
    dfsLoop pass bnd hp σ goal stack vis k n hq = (none, n) := by
  rw [dfsLoop.eq_def]
  split
  · rfl
  · rename_i c path hpop2
    rw [hpop] at hpop2
    exact absurd hpop2 (by simp)

lemma dfsLoop_eq_skip {pass : Pos → Bool} {bnd : Finset Pos}
    {hp : ∀ p, pass p = true → p ∈ bnd} {σ : ShuffleStream} {goal : Pos}
    {stack : List (Pos × List Pos)} {vis : Finset Pos} {k n : ℕ}
    {c : Pos} {path : List Pos}
    {hq : ∀ e ∈ stack, e.1 ∈ bnd}
    (hpop : stack.getLast? = some (c, path)) (hcv : c ∈ vis)
    (hq' : ∀ e ∈ stack.dropLast, e.1 ∈ bnd) :
    dfsLoop pass bnd hp σ goal stack vis k n hq =
      dfsLoop pass bnd hp σ goal stack.dropLast vis k (n + 1) hq' := by
  rw [dfsLoop.eq_def]
  split
  · rename_i hpop2
    rw [hpop] at hpop2
    exact absurd hpop2 (by simp)
  · rename_i c2 path2 hpop2
    rw [hpop] at hpop2
    obtain ⟨h1, h2⟩ : c2 = c ∧ path2 = path := by simpa using hpop2.symm
    subst h1; subst h2
    rw [dif_pos hcv]

lemma dfsLoop_eq_found {pass : Pos → Bool} {bnd : Finset Pos}
    {hp : ∀ p, pass p = true → p ∈ bnd} {σ : ShuffleStream} {goal : Pos}
    {stack : List (Pos × List Pos)} {vis : Finset Pos} {k n : ℕ}
    {path : List Pos}
    {hq : ∀ e ∈ stack, e.1 ∈ bnd}
    (hpop : stack.getLast? = some (goal, path)) (hcv : goal ∉ vis) :
    dfsLoop pass bnd hp σ goal stack vis k n hq = (some path, n + 1) := by
  rw [dfsLoop.eq_def]
  split
  · rename_i hpop2
    rw [hpop] at hpop2
    exact absurd hpop2 (by simp)
  · rename_i c2 path2 hpop2
    rw [hpop] at hpop2
    obtain ⟨h1, h2⟩ : c2 = goal ∧ path2 = path := by simpa using hpop2.symm
    subst h1; subst h2
    rw [dif_neg hcv, if_pos rfl]

lemma dfsLoop_eq_step {pass : Pos → Bool} {bnd : Finset Pos}
    {hp : ∀ p, pass p = true → p ∈ bnd} {σ : ShuffleStream} {goal : Pos}
    {stack : List (Pos × List Pos)} {vis : Finset Pos} {k n : ℕ}
    {c : Pos} {path : List Pos}
    {hq : ∀ e ∈ stack, e.1 ∈ bnd}
    (hpop : stack.getLast? = some (c, path)) (hcv : c ∉ vis) (hcg : c ≠ goal)
    (hq' : ∀ e ∈ stack.dropLast ++ dfsNbrs pass path c (σ k).1 (insert c vis),
      e.1 ∈ bnd) :
    dfsLoop pass bnd hp σ goal stack vis k n hq =
      dfsLoop pass bnd hp σ goal
        (stack.dropLast ++ dfsNbrs pass path c (σ k).1 (insert c vis))
        (insert c vis) (k + 1) (n + 1) hq' := by
  rw [dfsLoop.eq_def]
  split
  · rename_i hpop2
    rw [hpop] at hpop2
    exact absurd hpop2 (by simp)
  · rename_i c2 path2 hpop2
    rw [hpop] at hpop2
    obtain ⟨h1, h2⟩ : c2 = c ∧ path2 = path := by simpa using hpop2.symm
    subst h1; subst h2
    rw [dif_neg hcv, if_neg hcg]

/-- Any path returned by the DFS loop is a good path to the goal, provided
every stack entry carries a good path and every shuffled list only contains
real directions. -/
theorem dfsLoop_sound (pass : Pos → Bool) (bnd : Finset Pos)
    (hp : ∀ p, pass p = true → p ∈ bnd) (σ : ShuffleStream) (goal s : Pos) :
    ∀ (stack : List (Pos × List Pos)) (vis : Finset Pos) (k n : ℕ)
      (hq : ∀ e ∈ stack, e.1 ∈ bnd),
      (∀ e ∈ stack, isGoodPath pass s e.1 e.2 = true) →
      ∀ p, (dfsLoop pass bnd hp σ goal stack vis k n hq).1 = some p →
        isGoodPath pass s goal p = true := by
  intro stack vis k n hq
  induction stack, vis, k, n, hq using dfsLoop.induct pass bnd hp σ goal with
  | case1 stack vis k n hq hpop =>
    intro _ p hp'
    rw [dfsLoop_eq_nil hpop] at hp'
    simp at hp'
  | case2 stack vis k n hq c path hpop rest hcv ih =>
    intro hg p hp'
    rw [dfsLoop_eq_skip hpop hcv] at hp'
    exact ih (fun e he => hg e ((List.dropLast_sublist stack).mem he)) p hp'
  | case3 stack vis k n hq path hpop hcv =>
    intro hg p hp'
    rw [dfsLoop_eq_found hpop hcv] at hp'
    obtain rfl : path = p := by simpa using hp'
    have hm : (goal, path) ∈ stack := by
      obtain ⟨hne, heq⟩ := List.mem_getLast?_eq_getLast (Option.mem_def.mpr hpop)
      exact heq ▸ List.getLast_mem hne
    exact hg _ hm
  | case4 stack vis k n hq c path hpop rest hcv hcg ih =>
    intro hg p hp'
    rw [dfsLoop_eq_step hpop hcv hcg] at hp'
    refine ih ?_ p hp'
    intro e he
    rcases List.mem_append.mp he with he | he
    · exact hg e ((List.dropLast_sublist stack).mem he)
    · obtain ⟨d, hd, hpd, _, rfl⟩ := dfsNbrs_mem.mp he
      have hgc : isGoodPath pass s c path = true := by
        apply hg (c, path)
        obtain ⟨hne, heq⟩ :=
          List.mem_getLast?_eq_getLast (Option.mem_def.mpr hpop)
        exact heq ▸ List.getLast_mem hne
      have hdD : d ∈ DIRECTIONS := (σ k).2.mem_iff.mp hd
      exact isGoodPath_snoc hgc (adjacentB_stepDir hdD) hpd

/-- Main soundness of `PathFinder._dfs`: a returned path is a good path. -/
theorem pfDfs_sound (σ : ShuffleStream) (start goal : Pos)
    (maze : List (List ℕ)) (w h : ℤ) :
    ∀ p, (pfDfs σ start goal maze w h).1 = some p →
      isGoodPath (mazePass maze w h) start goal p = true := by
  intro p hp'
  refine dfsLoop_sound _ _ _ σ goal start _ _ _ _ _ ?_ p hp'
  intro e he
  simp only [List.mem_singleton] at he
  subst he
  exact isGoodPath_singleton _ _
/-! ## Good-path suffix and deduplication lemmas -/

lemma isGoodPath_head_eq {pass : Pos → Bool} {s g : Pos} {l : List Pos}
    (h : isGoodPath pass s g l = true) : l.head? = some s := by
  simp only [isGoodPath, Bool.and_eq_true, beq_iff_eq] at h
  exact h.1.1.1

lemma mem_tail_append_cons {x y : Pos} {l1 l2 : List Pos}
    (hy : y ∈ l2) : y ∈ (l1 ++ x :: l2).tail := by
  cases l1 with
  | nil => simpa using hy
  | cons a t =>
    simp only [List.cons_append, List.tail_cons, List.mem_append, List.mem_cons]
    right
    right
    exact hy

/-- A (contiguous) suffix of a good path is a good path from its own head. -/
lemma isGoodPath_suffix {pass : Pos → Bool} {s g x : Pos} {l1 l2 : List Pos}
    (h : isGoodPath pass s g (l1 ++ x :: l2) = true) :
    isGoodPath pass x g (x :: l2) = true := by
  simp only [isGoodPath, Bool.and_eq_true, beq_iff_eq, List.all_eq_true] at h ⊢
  obtain ⟨⟨⟨hhead, hlast⟩, hchain⟩, htail⟩ := h
  refine ⟨⟨⟨by simp, ?_⟩, ?_⟩, ?_⟩
  · rw [← hlast, List.getLast?_append_cons]
  · rw [chainOk_iff] at hchain ⊢
    exact (List.chain'_append.mp hchain).2.1
  · intro y hy
    simp only [List.tail_cons] at hy
    exact htail y (mem_tail_append_cons hy)

/-- Prepending a cell adjacent to the head of a good path. -/
lemma isGoodPath_cons_of {pass : Pos → Bool} {g a b : Pos} {t : List Pos}
    (h : isGoodPath pass b g t = true) (hpb : pass b = true)
    (hadj : adjacentB a b = true) : isGoodPath pass a g (a :: t) = true := by
  simp only [isGoodPath, Bool.and_eq_true, beq_iff_eq, List.all_eq_true] at h ⊢
  obtain ⟨⟨⟨hhead, hlast⟩, hchain⟩, htail⟩ := h
  obtain ⟨t0, rfl⟩ : ∃ t0, t = b :: t0 := by
    cases t with
    | nil => simp at hhead
    | cons u t0 =>
      simp only [List.head?_cons, Option.some.injEq] at hhead
      exact ⟨t0, by rw [hhead]⟩
  refine ⟨⟨⟨by simp, by simpa using hlast⟩, ?_⟩, ?_⟩
  · simp only [chainOk, Bool.and_eq_true]
    exact ⟨hadj, hchain⟩
  · intro y hy
    simp only [List.tail_cons] at hy
    rcases List.mem_cons.mp hy with rfl | hy
    · exact hpb
    · exact htail y hy

/-- The tail of a good path of length ≥ 2 is a good path from its head. -/
lemma isGoodPath_cons_tail {pass : Pos → Bool} {s g a b : Pos} {r : List Pos}
    (h : isGoodPath pass s g (a :: b :: r) = true) :
    isGoodPath pass b g (b :: r) = true ∧ pass b = true ∧
      adjacentB a b = true := by
  refine ⟨@isGoodPath_suffix pass s g b [a] r h, ?_, ?_⟩
  · simp only [isGoodPath, Bool.and_eq_true, beq_iff_eq, List.all_eq_true] at h
    exact h.2 b (by simp)
  · have h2 : chainOk (a :: b :: r) = true := by
      simp only [isGoodPath, Bool.and_eq_true] at h
      exact h.1.2
    simp only [chainOk, Bool.and_eq_true] at h2
    exact h2.1

/-- Every good path contains a duplicate-free good sub-path. -/
lemma exists_nodup_good {pass : Pos → Bool} {g : Pos} :
    ∀ (s : Pos) (l : List Pos), isGoodPath pass s g l = true →
      ∃ l2, l2.Sublist l ∧ l2.Nodup ∧ isGoodPath pass s g l2 = true := by
  have key : ∀ (m : ℕ) (s : Pos) (l : List Pos), l.length ≤ m →
      isGoodPath pass s g l = true →
      ∃ l2, l2.Sublist l ∧ l2.Nodup ∧ isGoodPath pass s g l2 = true := by
    intro m
    induction m with
    | zero =>
      intro s l hlen h
      have := isGoodPath_length_pos h
      omega
    | succ m ih =>
      intro s l hlen h
      obtain ⟨a, t, rfl⟩ : ∃ a t, l = a :: t := by
        cases l with
        | nil => simpa using isGoodPath_ne_nil h
        | cons a t => exact ⟨a, t, rfl⟩
      have has : a = s := by
        have := isGoodPath_head_eq h
        simpa using this
      subst has
      by_cases hat : a ∈ t
      · obtain ⟨t1, t2, rfl⟩ := List.append_of_mem hat
        have hsfx : isGoodPath pass a g (a :: t2) = true :=
          @isGoodPath_suffix pass a g a (a :: t1) t2 (by simpa using h)
        have hlen2 : (a :: t2).length ≤ m := by
          simp only [List.length_cons, List.length_append] at hlen ⊢
          omega
        obtain ⟨l2, hsub, hnd, hgood⟩ := ih a (a :: t2) hlen2 hsfx
        refine ⟨l2, ?_, hnd, hgood⟩
        refine hsub.trans ?_
        refine List.cons_sublist_cons.mpr ?_
        refine List.sublist_append_of_sublist_right ?_
        exact List.sublist_cons_self _ _
      · cases t with
        | nil =>
          exact ⟨[a], List.Sublist.refl _, by simp, h⟩
        | cons b r =>
          obtain ⟨htail, hpb, hadj⟩ := isGoodPath_cons_tail h
          have hlen2 : (b :: r).length ≤ m := by
            simp only [List.length_cons] at hlen ⊢
            omega
          obtain ⟨l2, hsub, hnd, hgood⟩ := ih b (b :: r) hlen2 htail
          obtain ⟨l3, rfl⟩ : ∃ l3, l2 = b :: l3 := by
            cases l2 with
            | nil => simpa using isGoodPath_ne_nil hgood
            | cons u l3 =>
              have := isGoodPath_head_eq hgood
              simp only [List.head?_cons, Option.some.injEq] at this
              exact ⟨l3, by rw [this]⟩
          refine ⟨a :: b :: l3, List.cons_sublist_cons.mpr hsub, ?_, ?_⟩
          · refine List.nodup_cons.mpr ⟨?_, hnd⟩
            intro hmem
            exact hat (hsub.mem hmem)
          · exact isGoodPath_cons_of hgood hpb hadj
  intro s l h
  exact key l.length s l le_rfl h
/-! ## DLS soundness and completeness -/

/-- Soundness of `_dls_recursive`: a returned path extends the carried path
by at most `remaining` good steps and reaches the goal. -/
lemma dlsRec_sound (pass : Pos → Bool) (goal s : Pos) :
    ∀ (m : ℕ) (remaining : ℤ), (remaining + 1).toNat ≤ m →
      ∀ (c : Pos) (path : List Pos) (vis : Finset Pos) (res : List Pos),
        isGoodPath pass s c path = true →
        (dlsRec pass goal remaining c path vis).1 = some res →
        isGoodPath pass s goal res = true ∧
          res.length ≤ path.length + remaining.toNat := by
  intro m
  induction m with
  | zero =>
    intro remaining hm c path vis res hgood hres
    have hneg : remaining < 0 := by omega
    rw [dlsRec, dif_pos hneg] at hres
    simp at hres
  | succ m ih =>
    intro remaining hm c path vis res hgood hres
    by_cases hneg : remaining < 0
    · rw [dlsRec, dif_pos hneg] at hres
      simp at hres
    · rw [dlsRec, dif_neg hneg] at hres
      by_cases hcg : c = goal
      · rw [if_pos hcg] at hres
        obtain rfl : path = res := by simpa using hres
        subst hcg
        exact ⟨hgood, by omega⟩
      · rw [if_neg hcg] at hres
        have hr0 : (0 : ℤ) ≤ remaining := by omega
        have aux : ∀ (ds : List Pos), (∀ d ∈ ds, d ∈ DIRECTIONS) →
            ∀ (acc : ℕ),
            (dlsTry pass goal remaining (by omega) c path (insert c vis)
              ds acc).1 = some res →
            isGoodPath pass s goal res = true ∧
              res.length ≤ path.length + remaining.toNat := by
          intro ds
          induction ds with
          | nil =>
            intro _ acc hres2
            simp [dlsTry] at hres2
          | cons d ds ihds =>
            intro hds acc hres2
            rw [dlsTry] at hres2
            by_cases hcond : pass (stepDir c d) = true ∧
                stepDir c d ∉ insert c vis
            · rw [if_pos hcond] at hres2
              cases hchild : (dlsRec pass goal (remaining - 1) (stepDir c d)
                  (path ++ [stepDir c d]) (insert c vis)).1 with
              | some r0 =>
                simp only [hchild] at hres2
                have hres3 : r0 = res := by simpa using hres2
                rw [← hres3]
                have hrem1 : 1 ≤ remaining := by
                  by_contra hlt
                  have hneg2 : remaining - 1 < 0 := by omega
                  rw [dlsRec, dif_pos hneg2] at hchild
                  simp at hchild
                have hgood2 : isGoodPath pass s (stepDir c d)
                    (path ++ [stepDir c d]) = true :=
                  isGoodPath_snoc hgood
                    (adjacentB_stepDir (hds d (List.mem_cons_self d ds))) hcond.1
                have := ih (remaining - 1) (by omega) (stepDir c d)
                  (path ++ [stepDir c d]) (insert c vis) r0 hgood2 hchild
                refine ⟨this.1, ?_⟩
                have h2 := this.2
                simp only [List.length_append, List.length_cons,
                  List.length_nil] at h2
                omega
              | none =>
                simp only [hchild] at hres2
                exact ihds (fun d' hd' => hds d' (List.mem_cons_of_mem d hd'))
                  _ hres2
            · rw [if_neg hcond] at hres2
              exact ihds (fun d' hd' => hds d' (List.mem_cons_of_mem d hd'))
                _ hres2
        exact aux DIRECTIONS (fun d hd => hd) 1 hres

/-- Completeness of `_dls_recursive`: a duplicate-free good path from the
current cell whose tail avoids the visited set and which fits in the depth
budget guarantees success. -/
lemma dlsRec_complete (pass : Pos → Bool) (goal : Pos) :
    ∀ (m : ℕ) (remaining : ℤ), (remaining + 1).toNat ≤ m →
      ∀ (c : Pos) (path : List Pos) (vis : Finset Pos) (l : List Pos),
        isGoodPath pass c goal l = true → l.Nodup →
        (∀ x ∈ l.tail, x ∉ vis) → (l.length : ℤ) ≤ remaining + 1 →
        ((dlsRec pass goal remaining c path vis).1).isSome := by
  intro m
  induction m with
  | zero =>
    intro remaining hm c path vis l hl hnd hlv hlen
    have := isGoodPath_length_pos hl
    omega
  | succ m ih =>
    intro remaining hm c path vis l hl hnd hlv hlen
    have hlpos := isGoodPath_length_pos hl
    have hneg : ¬ remaining < 0 := by omega
    rw [dlsRec, dif_neg hneg]
    by_cases hcg : c = goal
    · rw [if_pos hcg]
      simp
    · rw [if_neg hcg]
      obtain ⟨b, r, rfl⟩ : ∃ b r, l = c :: b :: r := by
        cases l with
        | nil => simp at hlpos
        | cons a t =>
          have has : a = c := by
            have := isGoodPath_head_eq hl
            simpa using this
          subst has
          cases t with
          | nil =>
            exfalso
            exact hcg (isGoodPath_length_one hl rfl).symm
          | cons b r => exact ⟨b, r, rfl⟩
      obtain ⟨htail, hpb, hadj⟩ := isGoodPath_cons_tail hl
      obtain ⟨dstar, hdstar, hbstep⟩ := adjacentB_exists_dir hadj
      have hr0 : (0 : ℤ) ≤ remaining := by
        simp only [List.length_cons] at hlen
        push_cast at hlen
        omega
      have hbvis : b ∉ insert c vis := by
        simp only [Finset.mem_insert]
        rintro (rfl | hb)
        · simp at hnd
        · exact hlv b (by simp) hb
      have aux : ∀ (ds : List Pos), dstar ∈ ds → ∀ (acc : ℕ),
          ((dlsTry pass goal remaining (by omega) c path (insert c vis)
            ds acc).1).isSome := by
        intro ds
        induction ds with
        | nil => intro h; simp at h
        | cons d ds ihds =>
          intro hdin acc
          rw [dlsTry]
          by_cases hcond : pass (stepDir c d) = true ∧
              stepDir c d ∉ insert c vis
          · rw [if_pos hcond]
            cases hchild : (dlsRec pass goal (remaining - 1) (stepDir c d)
                (path ++ [stepDir c d]) (insert c vis)).1 with
            | some r0 => simp [hchild]
            | none =>
              rcases List.mem_cons.mp hdin with rfl | hdin2
              · exfalso
                have hsucc := ih (remaining - 1) (by omega) (stepDir c dstar)
                  (path ++ [stepDir c dstar]) (insert c vis) (b :: r)
                  (by rw [← hbstep]; exact htail)
                  (by simpa using (List.nodup_cons.mp hnd).2)
                  ?_ ?_
                · rw [hchild] at hsucc
                  simp at hsucc
                · intro x hx
                  simp only [List.tail_cons] at hx
                  simp only [Finset.mem_insert]
                  rintro (rfl | hxv)
                  · have : x ∈ b :: r := List.mem_cons_of_mem b hx
                    exact (List.nodup_cons.mp hnd).1 this
                  · exact hlv x (List.mem_cons_of_mem b hx) hxv
                · simp only [List.length_cons] at hlen ⊢
                  push_cast at hlen ⊢
                  omega
              · simp only [hchild]
                exact ihds hdin2 _
          · rw [if_neg hcond]
            rcases List.mem_cons.mp hdin with heq | hdin2
            · exfalso
              apply hcond
              rw [← heq, ← hbstep]
              exact ⟨hpb, hbvis⟩
            · exact ihds hdin2 _
      exact aux DIRECTIONS hdstar 1
/-- `_dls` succeeds exactly when a duplicate-free good path fits within the
depth limit. -/
lemma pfDls_isSome_iff (start goal : Pos) (maze : List (List ℕ)) (w h : ℤ)
    (D : ℤ) :
    ((pfDls start goal maze w h D).1).isSome ↔
      ∃ l, isGoodPath (mazePass maze w h) start goal l = true ∧ l.Nodup ∧
        (l.length : ℤ) ≤ D + 1 := by
  constructor
  · intro hs
    by_cases hD : D < 0
    · exfalso
      rw [pfDls, dlsRec, dif_pos hD] at hs
      simp at hs
    · cases hres : (pfDls start goal maze w h D).1 with
      | none => rw [hres] at hs; simp at hs
      | some res =>
        have := dlsRec_sound (mazePass maze w h) goal start
          (D + 1).toNat D le_rfl start [start] ∅ res
          (isGoodPath_singleton _ _) hres
        obtain ⟨l2, hsub, hnd, hgood⟩ := exists_nodup_good start res this.1
        refine ⟨l2, hgood, hnd, ?_⟩
        have h1 := hsub.length_le
        have h2 := this.2
        simp only [List.length_singleton] at h2
        omega
  · rintro ⟨l, hgood, hnd, hlen⟩
    have := dlsRec_complete (mazePass maze w h) goal (D + 1).toNat D le_rfl
      start [start] ∅ l hgood hnd (by simp) hlen
    exact this

/-- `_dls` succeeds at depth `d` exactly when the shortest good-path length
is at most `d + 1`. -/
lemma pfDls_isSome_iff_shortest (start goal : Pos) (maze : List (List ℕ))
    (w h : ℤ) (L : ℕ)
    (hex : ∃ l, isGoodPath (mazePass maze w h) start goal l = true ∧
      l.length = L)
    (hmin : ∀ l, isGoodPath (mazePass maze w h) start goal l = true →
      L ≤ l.length) (d : ℕ) :
    ((pfDls start goal maze w h (d : ℤ)).1).isSome ↔ L ≤ d + 1 := by
  rw [pfDls_isSome_iff]
  constructor
  · rintro ⟨l, hgood, _, hlen⟩
    have := hmin l hgood
    omega
  · intro hLd
    obtain ⟨l, hgood, hlen⟩ := hex
    obtain ⟨l2, hsub, hnd, hgood2⟩ := exists_nodup_good start l hgood
    refine ⟨l2, hgood2, hnd, ?_⟩
    have := hsub.length_le
    push_cast
    omega

/-- Bounds on a successful `_dls` result. -/
lemma pfDls_some_bound {start goal : Pos} {maze : List (List ℕ)} {w h : ℤ}
    {D : ℤ} {res : List Pos}
    (hres : (pfDls start goal maze w h D).1 = some res) :
    isGoodPath (mazePass maze w h) start goal res = true ∧
      res.length ≤ 1 + D.toNat := by
  have := dlsRec_sound (mazePass maze w h) goal start (D + 1).toNat D le_rfl
    start [start] ∅ res (isGoodPath_singleton _ _) hres
  refine ⟨this.1, ?_⟩
  have h2 := this.2
  simp only [List.length_singleton] at h2
  omega

/-! ## IDS characterization -/

lemma idsGo_none_prefix (start goal : Pos) (maze : List (List ℕ)) (w h : ℤ) :
    ∀ (l1 l2 : List ℕ) (total : ℕ),
      (∀ d ∈ l1, (pfDls start goal maze w h (d : ℤ)).1 = none) →
      idsGo start goal maze w h (l1 ++ l2) total =
        idsGo start goal maze w h l2
          (total + (l1.map (fun dd : ℕ =>
            (pfDls start goal maze w h (dd : ℤ)).2)).sum) := by
  intro l1
  induction l1 with
  | nil => intro l2 total _; simp
  | cons d l1 ih =>
    intro l2 total hnone
    have hd := hnone d (List.mem_cons_self d l1)
    have hstep : idsGo start goal maze w h ((d :: l1) ++ l2) total =
        idsGo start goal maze w h (l1 ++ l2)
          (total + (pfDls start goal maze w h (d : ℤ)).2) := by
      simp only [List.cons_append, idsGo, hd]
      simp
    rw [hstep, ih l2 _ (fun d' hd' => hnone d' (List.mem_cons_of_mem d hd'))]
    congr 1
    simp only [List.map_cons, List.sum_cons]
    omega

lemma idsGo_cons_some (start goal : Pos) (maze : List (List ℕ)) (w h : ℤ)
    (d : ℕ) (l2 : List ℕ) (total : ℕ) {r : List Pos}
    (hr : (pfDls start goal maze w h (d : ℤ)).1 = some r) :
    idsGo start goal maze w h (d :: l2) total =
      (some r, total + (pfDls start goal maze w h (d : ℤ)).2) := by
  simp only [idsGo, hr]
  simp
/-- Helper: below the shortest length, every DLS iteration fails. -/
lemma pfDls_none_of_lt (start goal : Pos) (maze : List (List ℕ)) (w h : ℤ)
    (L : ℕ)
    (hmin : ∀ l, isGoodPath (mazePass maze w h) start goal l = true →
      L ≤ l.length) (d : ℕ) (hd : d + 1 < L) :
    (pfDls start goal maze w h (d : ℤ)).1 = none := by
  cases hres : (pfDls start goal maze w h (d : ℤ)).1 with
  | none => rfl
  | some res =>
    exfalso
    have hs : ((pfDls start goal maze w h (d : ℤ)).1).isSome := by
      rw [hres]; rfl
    obtain ⟨l, hgood, _, hlen⟩ := (pfDls_isSome_iff _ _ _ _ _ _).mp hs
    have := hmin l hgood
    omega

/-- The behaviour of `_ids` under a known shortest-path length `L`:
with `max_depth ≥ L` it succeeds at depth `L - 1` with a path of exactly
length `L` and explores the summed DLS node counts of depths `0..L-1`;
with `max_depth < L` it fails, summing all `max_depth` iterations. -/
theorem pfIds_spec (start goal : Pos) (maze : List (List ℕ)) (w h : ℤ)
    (L maxd : ℕ)
    (hex : ∃ l, isGoodPath (mazePass maze w h) start goal l = true ∧
      l.length = L)
    (hmin : ∀ l, isGoodPath (mazePass maze w h) start goal l = true →
      L ≤ l.length) :
    (L ≤ maxd → ∃ p, (pfIds start goal maze w h maxd).1 = some p ∧
      p.length = L ∧
      (pfIds start goal maze w h maxd).2 =
        ((List.range L).map (fun dd : ℕ =>
          (pfDls start goal maze w h (dd : ℤ)).2)).sum) ∧
    (maxd < L → (pfIds start goal maze w h maxd).1 = none ∧
      (pfIds start goal maze w h maxd).2 =
        ((List.range maxd).map (fun dd : ℕ =>
          (pfDls start goal maze w h (dd : ℤ)).2)).sum) := by
  have hL1 : 1 ≤ L := by
    obtain ⟨l, hgood, hlen⟩ := hex
    have := isGoodPath_length_pos hgood
    omega
  constructor
  · intro hLmax
    obtain ⟨k, hk⟩ : ∃ k, maxd = L + k := ⟨maxd - L, by omega⟩
    obtain ⟨L0, hL0⟩ : ∃ L0, L = L0 + 1 := ⟨L - 1, by omega⟩
    have hsome : ((pfDls start goal maze w h (L0 : ℤ)).1).isSome := by
      rw [pfDls_isSome_iff_shortest start goal maze w h L hex hmin]
      omega
    obtain ⟨r, hr⟩ : ∃ r, (pfDls start goal maze w h (L0 : ℤ)).1 = some r :=
      Option.isSome_iff_exists.mp hsome
    have hsplit : List.range maxd =
        List.range L0 ++ (L0 :: (List.range k).map (fun i => L + i)) := by
      rw [hk, hL0]
      rw [show L0 + 1 + k = L0 + (k + 1) from by omega]
      rw [List.range_add, List.range_succ_eq_map]
      simp only [List.cons_append, List.nil_append, List.map_cons, List.map_map,
        Nat.add_zero]
      congr 2
      apply List.map_congr_left
      intro a ha
      simp only [Function.comp_apply]
      omega
    have hnone : ∀ d ∈ List.range L0,
        (pfDls start goal maze w h (d : ℤ)).1 = none := by
      intro d hd
      simp only [List.mem_range] at hd
      exact pfDls_none_of_lt start goal maze w h L hmin d (by omega)
    have heq1 : pfIds start goal maze w h maxd =
        (some r, (((List.range L0).map (fun dd : ℕ =>
            (pfDls start goal maze w h (dd : ℤ)).2)).sum) +
          (pfDls start goal maze w h (L0 : ℤ)).2) := by
      rw [pfIds, hsplit, idsGo_none_prefix start goal maze w h _ _ 0 hnone,
        idsGo_cons_some start goal maze w h L0 _ _ hr]
      simp
    refine ⟨r, by rw [heq1], ?_, ?_⟩
    · have hb := pfDls_some_bound hr
      have hge := hmin r hb.1
      have hle := hb.2
      have : (L0 : ℤ).toNat = L0 := by omega
      omega
    · rw [heq1]
      simp only []
      rw [hL0, List.range_succ, List.map_append, List.sum_append]
      simp
  · intro hmax
    have hnone : ∀ d ∈ List.range maxd,
        (pfDls start goal maze w h (d : ℤ)).1 = none := by
      intro d hd
      simp only [List.mem_range] at hd
      exact pfDls_none_of_lt start goal maze w h L hmin d (by omega)
    have heq1 : pfIds start goal maze w h maxd =
        (none, ((List.range maxd).map (fun dd : ℕ =>
          (pfDls start goal maze w h (dd : ℤ)).2)).sum) := by
      have := idsGo_none_prefix start goal maze w h (List.range maxd) [] 0 hnone
      rw [pfIds]
      rw [List.append_nil] at this
      rw [this]
      simp [idsGo]
    rw [heq1]
    exact ⟨rfl, rfl⟩
/-! ## Bidirectional soundness -/

lemma dropLast_reverse_eq (l : List Pos) :
    l.reverse.dropLast = l.tail.reverse := by
  cases l with
  | nil => simp
  | cons a t => simp [List.reverse_cons, List.dropLast_concat]

/-- The property of paths returned by `_bidirectional`: from `start` to
`goal`, 4-directionally chained, with every strictly interior cell passable
(neither endpoint is validated). -/
def isMeetPath (pass : Pos → Bool) (s g : Pos) (l : List Pos) : Prop :=
  l.head? = some s ∧ l.getLast? = some g ∧ chainOk l = true ∧
    ∀ x ∈ l.tail.dropLast, pass x = true

/-- Gluing a forward path to `c` with the reversed backward path into `c`
gives a meet path (`full_path = path + backward_path[-2::-1]`). -/
lemma isMeetPath_combine {pass : Pos → Bool} {s g c : Pos}
    {f b : List Pos} (hf : isGoodPath pass s c f = true)
    (hb : isGoodPath pass g c b = true) :
    isMeetPath pass s g (f ++ b.dropLast.reverse) := by
  rcases Nat.lt_or_ge b.length 2 with hblen | hblen
  · have hb1 : b.length = 1 := by
      have := isGoodPath_length_pos hb
      omega
    have hcg : c = g := isGoodPath_length_one hb hb1
    obtain ⟨x, rfl⟩ : ∃ x, b = [x] := by
      cases b with
      | nil => simp at hb1
      | cons a t =>
        cases t with
        | nil => exact ⟨a, rfl⟩
        | cons u v => simp at hb1
    rw [show ([x] : List Pos).dropLast = [] from rfl]
    simp only [List.reverse_nil, List.append_nil]
    simp only [isGoodPath, Bool.and_eq_true, beq_iff_eq, List.all_eq_true] at hf
    obtain ⟨⟨⟨hhead, hlast⟩, hchain⟩, htail⟩ := hf
    refine ⟨hhead, by rw [hlast, hcg], hchain, ?_⟩
    intro x hx
    exact htail x ((List.dropLast_sublist _).mem hx)
  · obtain ⟨b0, y, rfl, hb0, hadj, hpc, hb0len⟩ := isGoodPath_decomp hb (by omega)
    rw [List.dropLast_concat]
    have hb0ne : b0 ≠ [] := isGoodPath_ne_nil hb0
    have hfne : f ≠ [] := isGoodPath_ne_nil hf
    simp only [isGoodPath, Bool.and_eq_true, beq_iff_eq, List.all_eq_true]
      at hf hb0
    obtain ⟨⟨⟨hfhead, hflast⟩, hfchain⟩, hftail⟩ := hf
    obtain ⟨⟨⟨hbhead, hblast⟩, hbchain⟩, hbtail⟩ := hb0
    have hygl : b0.getLast hb0ne = y := by
      have := List.getLast?_eq_getLast_of_ne_nil hb0ne
      rw [hblast] at this
      simpa using this.symm
    refine ⟨?_, ?_, ?_, ?_⟩
    · rw [List.head?_append_of_ne_nil _ hfne]
      exact hfhead
    · rw [List.getLast?_append_of_ne_nil _ (by simpa using hb0ne)]
      rw [List.getLast?_reverse]
      exact hbhead
    · rw [chainOk_iff]
      rw [List.chain'_append]
      refine ⟨chainOk_iff.mp hfchain, ?_, ?_⟩
      · rw [List.chain'_reverse]
        refine List.Chain'.imp ?_ (chainOk_iff.mp hbchain)
        intro a bb hab
        exact adjacentB_symm hab
      · intro x hx z hz
        have hxc : x = c := by
          rw [hflast] at hx
          have h2 := Option.mem_def.mp hx
          simpa using h2.symm
        have hzy : z = y := by
          rw [List.head?_reverse] at hz
          rw [List.getLast?_eq_getLast_of_ne_nil hb0ne] at hz
          have h2 := Option.mem_def.mp hz
          have h3 : z = b0.getLast hb0ne := by simpa using h2.symm
          rw [h3, hygl]
        subst hxc
        subst hzy
        exact adjacentB_symm hadj
    · intro x hx
      obtain ⟨a, ft, rfl⟩ : ∃ a ft, f = a :: ft := by
        cases f with
        | nil => simp at hfne
        | cons a ft => exact ⟨a, ft, rfl⟩
      simp only [List.cons_append, List.tail_cons] at hx
      have hbrev : b0.reverse ≠ [] := by simpa using hb0ne
      rw [List.dropLast_append_of_ne_nil ft hbrev] at hx
      rcases List.mem_append.mp hx with hx1 | hx1
      · exact hftail x (by simpa using hx1)
      · rw [dropLast_reverse_eq, List.mem_reverse] at hx1
        exact hbtail x hx1
lemma lookupPos_singleton {a : Pos} {ap : List Pos} {x : Pos} {p : List Pos}
    (h : lookupPos [(a, ap)] x = some p) : x = a ∧ p = ap := by
  simp only [lookupPos, List.find?_singleton] at h
  by_cases hax : a = x
  · subst hax
    simp at h
    exact ⟨rfl, h.symm⟩
  · rw [if_neg (by simpa using hax)] at h
    simp at h

lemma lookupPos_append_one {np : Pos} {pp : List Pos} {x : Pos} {p : List Pos} :
    ∀ (vis : List (Pos × List Pos)),
      lookupPos (vis ++ [(np, pp)]) x = some p →
      lookupPos vis x = some p ∨ (x = np ∧ p = pp) := by
  intro vis
  induction vis with
  | nil =>
    intro h
    simp only [List.nil_append] at h
    exact Or.inr (lookupPos_singleton h)
  | cons a t ih =>
    intro h
    simp only [lookupPos, List.cons_append, List.find?_cons] at h ⊢
    by_cases hax : (a.1 == x) = true
    · rw [hax] at h ⊢
      exact Or.inl h
    · rw [Bool.not_eq_true] at hax
      rw [hax] at h ⊢
      exact ih h

lemma bidirExpand_spec2 (pass : Pos → Bool) (path : List Pos) (c : Pos) :
    ∀ (ds : List Pos) (vis : List (Pos × List Pos)),
      (∀ pr ∈ (bidirExpand pass path c ds vis).1,
        pr.2 = path ++ [pr.1] ∧ pass pr.1 = true ∧
          ∃ d ∈ ds, pr.1 = stepDir c d) ∧
      (∀ x p, lookupPos (bidirExpand pass path c ds vis).2 x = some p →
        lookupPos vis x = some p ∨
          (p = path ++ [x] ∧ pass x = true ∧ ∃ d ∈ ds, x = stepDir c d)) := by
  intro ds
  induction ds with
  | nil =>
    intro vis
    exact ⟨by simp [bidirExpand], fun x p h => Or.inl (by simpa [bidirExpand] using h)⟩
  | cons d ds ih =>
    intro vis
    by_cases hc : pass (stepDir c d) = true ∧
        lookupPos vis (stepDir c d) = none
    · obtain ⟨ihent, ihlook⟩ := ih (vis ++ [(stepDir c d, path ++ [stepDir c d])])
      simp only [bidirExpand, if_pos hc]
      constructor
      · intro pr hpr
        rcases List.mem_cons.mp hpr with rfl | hpr
        · exact ⟨rfl, hc.1, d, List.mem_cons_self d ds, rfl⟩
        · obtain ⟨h1, h2, dd, hdd, h3⟩ := ihent pr hpr
          exact ⟨h1, h2, dd, List.mem_cons_of_mem d hdd, h3⟩
      · intro x p hlook
        rcases ihlook x p hlook with h | ⟨h1, h2, dd, hdd, h3⟩
        · rcases lookupPos_append_one vis h with h' | ⟨rfl, rfl⟩
          · exact Or.inl h'
          · exact Or.inr ⟨rfl, hc.1, d, List.mem_cons_self d ds, rfl⟩
        · exact Or.inr ⟨h1, h2, dd, List.mem_cons_of_mem d hdd, h3⟩
    · obtain ⟨ihent, ihlook⟩ := ih vis
      simp only [bidirExpand, if_neg hc]
      constructor
      · intro pr hpr
        obtain ⟨h1, h2, dd, hdd, h3⟩ := ihent pr hpr
        exact ⟨h1, h2, dd, List.mem_cons_of_mem d hdd, h3⟩
      · intro x p hlook
        rcases ihlook x p hlook with h | ⟨h1, h2, dd, hdd, h3⟩
        · exact Or.inl h
        · exact Or.inr ⟨h1, h2, dd, List.mem_cons_of_mem d hdd, h3⟩

/-- The loop invariant of `_bidirectional`: every queue entry and every
visited-map binding carries a good path from its own root. -/
structure BdInv (pass : Pos → Bool) (s g : Pos)
    (qF qB visF visB : List (Pos × List Pos)) : Prop where
  qF_good : ∀ e ∈ qF, isGoodPath pass s e.1 e.2 = true
  qB_good : ∀ e ∈ qB, isGoodPath pass g e.1 e.2 = true
  vF_good : ∀ c p, lookupPos visF c = some p → isGoodPath pass s c p = true
  vB_good : ∀ c p, lookupPos visB c = some p → isGoodPath pass g c p = true

/-- Invariant transport through one side expansion. -/
lemma BdInv.expand_side {pass : Pos → Bool} {s : Pos} {c : Pos}
    {path : List Pos} {vis : List (Pos × List Pos)}
    (hgood : isGoodPath pass s c path = true)
    (hvis : ∀ c' p, lookupPos vis c' = some p → isGoodPath pass s c' p = true) :
    (∀ pr ∈ (bidirExpand pass path c DIRECTIONS vis).1,
      isGoodPath pass s pr.1 pr.2 = true) ∧
    (∀ c' p, lookupPos (bidirExpand pass path c DIRECTIONS vis).2 c' = some p →
      isGoodPath pass s c' p = true) := by
  obtain ⟨hent, hlook⟩ := bidirExpand_spec2 pass path c DIRECTIONS vis
  constructor
  · intro pr hpr
    obtain ⟨h1, h2, d, hd, h3⟩ := hent pr hpr
    rw [h1]
    have hadj : adjacentB c pr.1 = true := by
      rw [h3]
      exact adjacentB_stepDir hd
    exact isGoodPath_snoc hgood hadj h2
  · intro c' p hlk
    rcases hlook c' p hlk with h | ⟨h1, h2, d, hd, h3⟩
    · exact hvis c' p h
    · rw [h1]
      have hadj : adjacentB c c' = true := by
        rw [h3]
        exact adjacentB_stepDir hd
      exact isGoodPath_snoc hgood hadj h2

/-- Soundness of the bidirectional loop: any returned path is a meet path. -/
theorem bidirLoop_sound (pass : Pos → Bool) (bnd : Finset Pos)
    (hp : ∀ p, pass p = true → p ∈ bnd) (s g : Pos) :
    ∀ (qF qB visF visB : List (Pos × List Pos)) (n : ℕ),
      BdInv pass s g qF qB visF visB →
      ∀ p, (bidirLoop pass bnd hp qF qB visF visB n).1 = some p →
        isMeetPath pass s g p := by
  intro qF qB visF visB n
  induction qF, qB, visF, visB, n using bidirLoop.induct pass bnd hp with
  | case1 visF visB n =>
    intro _ p hp'
    simp [bidirLoop] at hp'
  | case2 c path restF qB visF visB n bpath hlook =>
    intro inv p hp'
    simp only [bidirLoop, hlook] at hp'
    obtain rfl : path ++ bpath.dropLast.reverse = p := by simpa using hp'
    exact isMeetPath_combine (inv.qF_good _ (List.mem_cons_self _ _))
      (inv.vB_good c bpath hlook)
  | case3 c path restF visF visB n hlook e ih =>
    intro inv p hp'
    simp only [bidirLoop, hlook] at hp'
    obtain ⟨hE, hV⟩ := BdInv.expand_side
      (inv.qF_good _ (List.mem_cons_self _ _)) inv.vF_good
    refine ih ⟨?_, by simp, hV, inv.vB_good⟩ p hp'
    intro e' he'
    rcases List.mem_append.mp he' with he' | he'
    · exact inv.qF_good _ (List.mem_cons_of_mem _ he')
    · exact hE e' he'
  | case4 c path restF visF visB n hlook e c2 path2 restB fpath hlook2 =>
    intro inv p hp'
    simp only [bidirLoop, hlook, hlook2] at hp'
    obtain rfl : fpath ++ path2.dropLast.reverse = p := by simpa using hp'
    obtain ⟨hE, hV⟩ := BdInv.expand_side
      (inv.qF_good _ (List.mem_cons_self _ _)) inv.vF_good
    exact isMeetPath_combine (hV c2 fpath hlook2)
      (inv.qB_good _ (List.mem_cons_self _ _))
  | case5 c path restF visF visB n hlook e c2 path2 restB hlook2 e2 ih =>
    intro inv p hp'
    simp only [bidirLoop, hlook, hlook2] at hp'
    obtain ⟨hE, hV⟩ := BdInv.expand_side
      (inv.qF_good _ (List.mem_cons_self _ _)) inv.vF_good
    obtain ⟨hE2, hV2⟩ := BdInv.expand_side
      (inv.qB_good _ (List.mem_cons_self _ _)) inv.vB_good
    refine ih ⟨?_, ?_, hV, hV2⟩ p hp'
    · intro e' he'
      rcases List.mem_append.mp he' with he' | he'
      · exact inv.qF_good _ (List.mem_cons_of_mem _ he')
      · exact hE e' he'
    · intro e' he'
      rcases List.mem_append.mp he' with he' | he'
      · exact inv.qB_good _ (List.mem_cons_of_mem _ he')
      · exact hE2 e' he'
  | case6 c2 path2 restB visF visB n fpath hlook =>
    intro inv p hp'
    simp only [bidirLoop, hlook] at hp'
    obtain rfl : fpath ++ path2.dropLast.reverse = p := by simpa using hp'
    exact isMeetPath_combine (inv.vF_good c2 fpath hlook)
      (inv.qB_good _ (List.mem_cons_self _ _))
  | case7 c2 path2 restB visF visB n hlook e2 ih =>
    intro inv p hp'
    simp only [bidirLoop, hlook] at hp'
    obtain ⟨hE2, hV2⟩ := BdInv.expand_side
      (inv.qB_good _ (List.mem_cons_self _ _)) inv.vB_good
    refine ih ⟨by simp, ?_, inv.vF_good, hV2⟩ p hp'
    intro e' he'
    rcases List.mem_append.mp he' with he' | he'
    · exact inv.qB_good _ (List.mem_cons_of_mem _ he')
    · exact hE2 e' he'

/-- Main soundness of `PathFinder._bidirectional`: a returned path runs from
`start` to `goal` with all strictly interior cells passable (the endpoints are
never validated). -/
theorem pfBidirectional_sound (start goal : Pos) (maze : List (List ℕ))
    (w h : ℤ) :
    ∀ p, (pfBidirectional start goal maze w h).1 = some p →
      isMeetPath (mazePass maze w h) start goal p := by
  intro p hp'
  rw [pfBidirectional] at hp'
  by_cases hsg : start = goal
  · rw [if_pos hsg] at hp'
    obtain rfl : [start] = p := by simpa using hp'
    subst hsg
    exact ⟨rfl, rfl, rfl, by simp⟩
  · rw [if_neg hsg] at hp'
    refine bidirLoop_sound _ _ _ start goal _ _ _ _ _ ⟨?_, ?_, ?_, ?_⟩ p hp'
    · intro e he
      simp only [List.mem_singleton] at he
      subst he
      exact isGoodPath_singleton _ _
    · intro e he
      simp only [List.mem_singleton] at he
      subst he
      exact isGoodPath_singleton _ _
    · intro c pp hlk
      obtain ⟨rfl, rfl⟩ := lookupPos_singleton hlk
      exact isGoodPath_singleton _ _
    · intro c pp hlk
      obtain ⟨rfl, rfl⟩ := lookupPos_singleton hlk
      exact isGoodPath_singleton _ _
/-- A meet path whose goal cell is passable is a good path. -/
lemma isMeetPath_isGoodPath {pass : Pos → Bool} {s g : Pos} {l : List Pos}
    (h : isMeetPath pass s g l) (hg : pass g = true) :
    isGoodPath pass s g l = true := by
  obtain ⟨hhead, hlast, hchain, hint⟩ := h
  simp only [isGoodPath, Bool.and_eq_true, beq_iff_eq, List.all_eq_true]
  refine ⟨⟨⟨hhead, hlast⟩, hchain⟩, ?_⟩
  intro x hx
  by_cases htn : l.tail = []
  · rw [htn] at hx
    simp at hx
  · have hsplit : l.tail.dropLast ++ [l.tail.getLast htn] = l.tail :=
      List.dropLast_append_getLast htn
    rw [← hsplit] at hx
    rcases List.mem_append.mp hx with hx1 | hx1
    · exact hint x hx1
    · have hxl : x = l.tail.getLast htn := by simpa using hx1
      have hgl : l.tail.getLast? = some g := by
        obtain ⟨a, t, rfl⟩ : ∃ a t, l = a :: t := by
          cases l with
          | nil => simp at hhead
          | cons a t => exact ⟨a, t, rfl⟩
        simp only [List.tail_cons] at htn ⊢
        cases t with
        | nil => simp at htn
        | cons b r => simpa [List.getLast?_cons_cons] using hlast
      have : l.tail.getLast htn = g := by
        rw [List.getLast?_eq_getLast_of_ne_nil htn] at hgl
        simpa using hgl
      rw [hxl, this]
      exact hg

/-! ## Start-equals-goal evaluations (each strategy, arbitrary maze) -/

lemma pfBfs_self (s : Pos) (maze : List (List ℕ)) (w h : ℤ) :
    pfBfs s s maze w h = (some [s], 1) := by
  rw [pfBfs]
  simp [bfsLoop]

lemma pfUcs_self (s : Pos) (maze : List (List ℕ)) (w h : ℤ) :
    pfUcs s s maze w h = (some [s], 1) := by
  rw [pfUcs]
  rw [ucsLoop_eq_found
    (show popMin [((0 : ℕ), s, [s])] = some ((0, s, [s]), []) from rfl)
    (by simp)]

lemma pfDfs_self (σ : ShuffleStream) (s : Pos) (maze : List (List ℕ))
    (w h : ℤ) : pfDfs σ s s maze w h = (some [s], 1) := by
  rw [pfDfs]
  rw [dfsLoop_eq_found
    (show [((s : Pos), [s])].getLast? = some (s, [s]) from rfl) (by simp)]

lemma pfDls_self (s : Pos) (maze : List (List ℕ)) (w h : ℤ) (D : ℤ)
    (hD : 0 ≤ D) : pfDls s s maze w h D = (some [s], 1) := by
  rw [pfDls, dlsRec, dif_neg (by omega), if_pos rfl]

lemma pfIds_self (s : Pos) (maze : List (List ℕ)) (w h : ℤ) (maxd : ℕ)
    (hmaxd : 1 ≤ maxd) : pfIds s s maze w h maxd = (some [s], 1) := by
  obtain ⟨k, rfl⟩ : ∃ k, maxd = k + 1 := ⟨maxd - 1, by omega⟩
  have h0 : pfDls s s maze w h ((0 : ℕ) : ℤ) = (some [s], 1) :=
    pfDls_self s maze w h _ (by norm_num)
  rw [pfIds, List.range_succ_eq_map]
  rw [idsGo_cons_some s s maze w h 0 _ 0 (by rw [h0])]
  rw [h0]
  rfl

lemma pfBidirectional_self (s : Pos) (maze : List (List ℕ)) (w h : ℤ) :
    pfBidirectional s s maze w h = (some [s], 1) := by
  rw [pfBidirectional, if_pos rfl]
/-! ## Claim theorems: C7 and C8 -/

/-- C7: for every algorithm identifier not among BFS, UCS, DFS, DLS, IDS,
Bidirectional, `find_path` silently defaults to BFS: it returns exactly the
result of `find_path` with algorithm "BFS" on the same (start, end, maze),
and never signals any error. -/
theorem C7_unknown_algorithm_defaults_to_bfs (σ : ShuffleStream)
    (start goal : Pos) (alg : String) (maze : List (List ℕ))
    (halg : alg ∉ ["BFS", "UCS", "DFS", "DLS", "IDS", "Bidirectional"]) :
    find_path σ start goal alg maze = find_path σ start goal "BFS" maze := by
  simp only [List.mem_cons, List.mem_singleton, not_or,
    List.not_mem_nil, not_false_iff, and_true] at halg
  obtain ⟨h1, h2, h3, h4, h5, h6⟩ := halg
  simp only [find_path, if_neg h1, if_neg h2, if_neg h3, if_neg h4,
    if_neg h5, if_neg h6, if_pos rfl]
  simp

/-- Witness for C7 at the concrete unrecognized identifier "ASTAR". -/
theorem C7_witness :
    "ASTAR" ∉ ["BFS", "UCS", "DFS", "DLS", "IDS", "Bidirectional"] ∧
    find_path idShuffle (1, 1) (1, 2) "ASTAR" [[0, 0], [0, 0]] =
      find_path idShuffle (1, 1) (1, 2) "BFS" [[0, 0], [0, 0]] :=
  ⟨by decide, C7_unknown_algorithm_defaults_to_bfs idShuffle (1, 1) (1, 2)
    "ASTAR" [[0, 0], [0, 0]] (by decide)⟩

/-- C8: for every one of the six strategies (indeed for every algorithm
string, since unknown ones default to BFS) and every grid, a query with
start = goal returns the single-cell path [start] with nodes_explored
exactly 1; Bidirectional short-circuits this case explicitly, the other
five strategies reach it naturally. -/
theorem C8_start_eq_goal_single_cell (σ : ShuffleStream) (alg : String)
    (maze : List (List ℕ)) (s : Pos) :
    find_path σ s s alg maze = (some [s], 1) := by
  rw [find_path]
  split_ifs
  · exact pfBfs_self s maze _ _
  · exact pfUcs_self s maze _ _
  · exact pfDfs_self σ s maze _ _
  · exact pfDls_self s maze _ _ 50 (by norm_num)
  · exact pfIds_self s maze _ _ 100 (by norm_num)
  · exact pfBidirectional_self s maze _ _
  · exact pfBfs_self s maze _ _
/-- A good path is in particular a meet path (the interior cells of the tail
are among the tail cells). -/
lemma isGoodPath_isMeetPath {pass : Pos → Bool} {s g : Pos} {l : List Pos}
    (h : isGoodPath pass s g l = true) : isMeetPath pass s g l := by
  simp only [isGoodPath, Bool.and_eq_true, beq_iff_eq, List.all_eq_true] at h
  exact ⟨h.1.1.1, h.1.1.2, h.1.2, fun x hx => h.2 x (List.dropLast_subset _ hx)⟩

/-- Any path IDS returns comes from a successful DLS iteration, hence is a
good path. -/
lemma idsGo_sound (start goal : Pos) (maze : List (List ℕ)) (w h : ℤ) :
    ∀ ds total p, (idsGo start goal maze w h ds total).1 = some p →
      isGoodPath (mazePass maze w h) start goal p = true := by
  intro ds
  induction ds with
  | nil =>
    intro total p hp
    simp [idsGo] at hp
  | cons d ds ih =>
    intro total p hp
    simp only [idsGo] at hp
    split at hp
    · rename_i hs
      simp only at hp
      exact (pfDls_some_bound hp).1
    · exact ih _ p hp

lemma pfIds_sound (start goal : Pos) (maze : List (List ℕ)) (w h : ℤ)
    (maxd : ℕ) :
    ∀ p, (pfIds start goal maze w h maxd).1 = some p →
      isGoodPath (mazePass maze w h) start goal p = true :=
  fun p hp => idsGo_sound start goal maze w h (List.range maxd) 0 p hp

/-! ## Claim theorems: C10 -/

/-- C10 counterexample: on a 4x3 maze with the two Path cells (1,1),(2,1),
Bidirectional returns the path [(1,1),(1,2)] to the Wall goal (1,2); that
path is not a good path (its last cell fails the passability check), so not
every returned path has all cells after the first in-bounds with maze
value 0. -/
theorem C10_counterexample :
    (find_path idShuffle (1, 1) (1, 2) "Bidirectional"
        [[1, 1, 1, 1], [1, 0, 0, 1], [1, 1, 1, 1]]).1 = some [(1, 1), (1, 2)] ∧
    isGoodPath (mazePass [[1, 1, 1, 1], [1, 0, 0, 1], [1, 1, 1, 1]] 4 3)
      (1, 1) (1, 2) [(1, 1), (1, 2)] = false := by
  constructor
  · simp [find_path, pfBidirectional, bidirLoop, bidirExpand, lookupPos,
      DIRECTIONS, stepDir, mazePass, inBounds, cellVal, -Prod.mk_one_one,
      Prod.ext_iff]
  · decide

/-- C10 (amended): whenever any of the six strategies returns a non-None
path, that path begins with start, ends with goal, consecutive cells are
4-directionally adjacent and its strictly interior cells are in-bounds Path
cells; for every strategy except Bidirectional the full validation holds
(every cell after the first is in-bounds Path), while Bidirectional's last
cell — the goal — is never validated, just as the start never is. -/
theorem C10_amended (σ : ShuffleStream) (start goal : Pos) (alg : String)
    (maze : List (List ℕ)) (p : List Pos)
    (hp : (find_path σ start goal alg maze).1 = some p) :
    (alg ≠ "Bidirectional" →
      isGoodPath (mazePass maze ((maze.headD []).length : ℤ)
        (maze.length : ℤ)) start goal p = true) ∧
    isMeetPath (mazePass maze ((maze.headD []).length : ℤ)
      (maze.length : ℤ)) start goal p := by
  rw [find_path] at hp
  split_ifs at hp with h1 h2 h3 h4 h5 h6
  · have := ((pfBfs_spec start goal maze _ _).2 p hp).1
    exact ⟨fun _ => this, isGoodPath_isMeetPath this⟩
  · have := ((pfUcs_spec start goal maze _ _).2 p hp).1
    exact ⟨fun _ => this, isGoodPath_isMeetPath this⟩
  · have := pfDfs_sound σ start goal maze _ _ p hp
    exact ⟨fun _ => this, isGoodPath_isMeetPath this⟩
  · have := (pfDls_some_bound hp).1
    exact ⟨fun _ => this, isGoodPath_isMeetPath this⟩
  · have := pfIds_sound start goal maze _ _ _ p hp
    exact ⟨fun _ => this, isGoodPath_isMeetPath this⟩
  · exact ⟨fun hne => absurd h6 hne, pfBidirectional_sound start goal maze _ _ p hp⟩
  · have := ((pfBfs_spec start goal maze _ _).2 p hp).1
    exact ⟨fun _ => this, isGoodPath_isMeetPath this⟩

/-- Witness for C10 (amended) at a concrete BFS query. -/
theorem C10_amended_witness :
    (find_path idShuffle (1, 1) (2, 1) "BFS"
        [[1, 1, 1, 1], [1, 0, 0, 1], [1, 1, 1, 1]]).1 = some [(1, 1), (2, 1)] ∧
    isGoodPath (mazePass [[1, 1, 1, 1], [1, 0, 0, 1], [1, 1, 1, 1]] 4 3)
      (1, 1) (2, 1) [(1, 1), (2, 1)] = true := by
  have h1 : (find_path idShuffle (1, 1) (2, 1) "BFS"
      [[1, 1, 1, 1], [1, 0, 0, 1], [1, 1, 1, 1]]).1 = some [(1, 1), (2, 1)] := by
    simp [find_path, pfBfs, bfsLoop, bfsExpand, DIRECTIONS, stepDir,
      mazePass, inBounds, cellVal, -Prod.mk_one_one, Prod.ext_iff]
  exact ⟨h1, (C10_amended idShuffle (1, 1) (2, 1) "BFS"
    [[1, 1, 1, 1], [1, 0, 0, 1], [1, 1, 1, 1]] [(1, 1), (2, 1)] h1).1
    (by decide)⟩
/-- On a good path with distinct endpoints the goal cell itself passes the
passability check (it lies in the validated tail). -/
lemma isGoodPath_pass_goal {pass : Pos → Bool} {s g : Pos} {l : List Pos}
    (h : isGoodPath pass s g l = true) (hne : s ≠ g) : pass g = true := by
  simp only [isGoodPath, Bool.and_eq_true, beq_iff_eq, List.all_eq_true] at h
  obtain ⟨⟨⟨hhead, hlast⟩, _⟩, htail⟩ := h
  cases l with
  | nil => simp at hhead
  | cons a t =>
    have ha : a = s := by simpa using hhead
    cases t with
    | nil =>
      exfalso
      have : a = g := by simpa using hlast
      exact hne (ha ▸ this)
    | cons b r =>
      have hg : g ∈ b :: r := by
        rw [List.getLast?_cons_cons] at hlast
        have := List.mem_getLast?_eq_getLast hlast
        obtain ⟨hne2, hgl⟩ := this
        rw [hgl]
        exact List.getLast_mem hne2
      exact htail g (by simpa using hg)

/-! ## Claim theorems: C3 -/

/-- C3 counterexample: on a 4x3 maze with Path cells (1,1),(2,1), the query
(1,1) to the Wall cell (1,2) makes BFS return no path while Bidirectional
returns one, so BFS, UCS, and Bidirectional do not always return paths of
equal length. -/
theorem C3_counterexample :
    (find_path idShuffle (1, 1) (1, 2) "BFS"
        [[1, 1, 1, 1], [1, 0, 0, 1], [1, 1, 1, 1]]).1 = none ∧
    (find_path idShuffle (1, 1) (1, 2) "Bidirectional"
        [[1, 1, 1, 1], [1, 0, 0, 1], [1, 1, 1, 1]]).1 ≠ none := by
  constructor
  · simp [find_path, pfBfs, bfsLoop, bfsExpand, DIRECTIONS, stepDir,
      mazePass, inBounds, cellVal, -Prod.mk_one_one, Prod.ext_iff]
  · simp [find_path, pfBidirectional, bidirLoop, bidirExpand, lookupPos,
      DIRECTIONS, stepDir, mazePass, inBounds, cellVal, -Prod.mk_one_one,
      Prod.ext_iff]

/-- C3 (amended): BFS and UCS agree on success and return equal-length
paths, each of the shortest length; any path returned by DFS, DLS, IDS, or
Bidirectional on the same query is at least that long. (Bidirectional may
also return a path when BFS returns none, namely to a Wall goal.) -/
theorem C3_amended (σ : ShuffleStream) (start goal : Pos)
    (maze : List (List ℕ)) (w h : ℤ) :
    ((pfBfs start goal maze w h).1 = none ↔
      (pfUcs start goal maze w h).1 = none) ∧
    (∀ p q, (pfBfs start goal maze w h).1 = some p →
      (pfUcs start goal maze w h).1 = some q →
        p.length = q.length ∧
          p.length = dist (mazePass maze w h) start goal) ∧
    (∀ p, (pfBfs start goal maze w h).1 = some p →
      (∀ q, (pfDfs σ start goal maze w h).1 = some q →
        p.length ≤ q.length) ∧
      (∀ D q, (pfDls start goal maze w h D).1 = some q →
        p.length ≤ q.length) ∧
      (∀ maxd q, (pfIds start goal maze w h maxd).1 = some q →
        p.length ≤ q.length) ∧
      (∀ q, (pfBidirectional start goal maze w h).1 = some q →
        p.length ≤ q.length)) := by
  obtain ⟨hbfs_none, hbfs_some⟩ := pfBfs_spec start goal maze w h
  obtain ⟨hucs_none, hucs_some⟩ := pfUcs_spec start goal maze w h
  refine ⟨by rw [hbfs_none, hucs_none], ?_, ?_⟩
  · intro p q hp hq
    have h1 := hbfs_some p hp
    have h2 := hucs_some q hq
    exact ⟨by rw [h1.2, h2.2], h1.2⟩
  · intro p hp
    have h1 := hbfs_some p hp
    refine ⟨?_, ?_, ?_, ?_⟩
    · intro q hq
      rw [h1.2]
      exact dist_le (pfDfs_sound σ start goal maze w h q hq)
    · intro D q hq
      rw [h1.2]
      exact dist_le (pfDls_some_bound hq).1
    · intro maxd q hq
      rw [h1.2]
      exact dist_le (pfIds_sound start goal maze w h maxd q hq)
    · intro q hq
      by_cases hsg : start = goal
      · subst hsg
        rw [pfBidirectional, if_pos rfl] at hq
        have hq2 : q = [start] := by simpa using hq.symm
        rw [h1.2, dist_self, hq2]
        simp
      · have hmeet := pfBidirectional_sound start goal maze w h q hq
        have hpassg : mazePass maze w h goal = true :=
          isGoodPath_pass_goal h1.1 hsg
        rw [h1.2]
        exact dist_le (isMeetPath_isGoodPath hmeet hpassg)

/-- Witness for C3 (amended): BFS and UCS on a concrete solvable query. -/
theorem C3_amended_witness :
    (pfBfs (1, 1) (2, 1) [[1, 1, 1, 1], [1, 0, 0, 1], [1, 1, 1, 1]] 4 3).1 =
      some [(1, 1), (2, 1)] ∧
    (pfUcs (1, 1) (2, 1) [[1, 1, 1, 1], [1, 0, 0, 1], [1, 1, 1, 1]] 4 3).1 =
      some [(1, 1), (2, 1)] ∧
    ([(1, 1), (2, 1)] : List Pos).length =
      dist (mazePass [[1, 1, 1, 1], [1, 0, 0, 1], [1, 1, 1, 1]] 4 3)
        (1, 1) (2, 1) := by
  have h1 : (pfBfs (1, 1) (2, 1)
      [[1, 1, 1, 1], [1, 0, 0, 1], [1, 1, 1, 1]] 4 3).1 =
        some [(1, 1), (2, 1)] := by
    simp [pfBfs, bfsLoop, bfsExpand, DIRECTIONS, stepDir,
      mazePass, inBounds, cellVal, -Prod.mk_one_one, Prod.ext_iff]
  have h2 : (pfUcs (1, 1) (2, 1)
      [[1, 1, 1, 1], [1, 0, 0, 1], [1, 1, 1, 1]] 4 3).1 =
        some [(1, 1), (2, 1)] := by
    simp [pfUcs, ucsLoop, ucsNbrs, popMin, DIRECTIONS, stepDir,
      mazePass, inBounds, cellVal, -Prod.mk_one_one, Prod.ext_iff]
  exact ⟨h1, h2,
    ((C3_amended idShuffle (1, 1) (2, 1)
      [[1, 1, 1, 1], [1, 0, 0, 1], [1, 1, 1, 1]] 4 3).2.1
      [(1, 1), (2, 1)] [(1, 1), (2, 1)] h1 h2).2⟩
/-- A good path between distinct endpoints has at least two cells. -/
lemma isGoodPath_two_le {pass : Pos → Bool} {s g : Pos} {l : List Pos}
    (h : isGoodPath pass s g l = true) (hne : s ≠ g) : 2 ≤ l.length := by
  have hpos := isGoodPath_length_pos h
  by_contra hlt
  have hlen : l.length = 1 := by omega
  exact hne (isGoodPath_length_one h hlen).symm

/-! ## Claim theorems: C5 -/

/-- C5: for every grid, start, and goal admitting a path of shortest length
L (in cells), IDS with max_depth at least L returns a path of exactly that
minimal length, and IDS with max_depth below L returns None; in both cases
its nodes_explored is the sum of the DLS nodes_explored counts over all
depth iterations performed. -/
theorem C5_ids_minimal (start goal : Pos) (maze : List (List ℕ)) (w h : ℤ)
    (L maxd : ℕ)
    (hex : ∃ l, isGoodPath (mazePass maze w h) start goal l = true ∧
      l.length = L)
    (hmin : ∀ l, isGoodPath (mazePass maze w h) start goal l = true →
      L ≤ l.length) :
    (L ≤ maxd → ∃ p, (pfIds start goal maze w h maxd).1 = some p ∧
      p.length = L ∧
      (pfIds start goal maze w h maxd).2 =
        ((List.range L).map (fun dd : ℕ =>
          (pfDls start goal maze w h (dd : ℤ)).2)).sum) ∧
    (maxd < L → (pfIds start goal maze w h maxd).1 = none ∧
      (pfIds start goal maze w h maxd).2 =
        ((List.range maxd).map (fun dd : ℕ =>
          (pfDls start goal maze w h (dd : ℤ)).2)).sum) :=
  pfIds_spec start goal maze w h L maxd hex hmin

/-- Witness for C5 at a concrete query of shortest length 2 and
max_depth 3. -/
theorem C5_witness :
    ∃ p, (pfIds (1, 1) (2, 1)
        [[1, 1, 1, 1], [1, 0, 0, 1], [1, 1, 1, 1]] 4 3 3).1 = some p ∧
      p.length = 2 ∧
      (pfIds (1, 1) (2, 1)
        [[1, 1, 1, 1], [1, 0, 0, 1], [1, 1, 1, 1]] 4 3 3).2 =
        ((List.range 2).map (fun dd : ℕ =>
          (pfDls (1, 1) (2, 1)
            [[1, 1, 1, 1], [1, 0, 0, 1], [1, 1, 1, 1]] 4 3 (dd : ℤ)).2)).sum :=
  (C5_ids_minimal (1, 1) (2, 1) [[1, 1, 1, 1], [1, 0, 0, 1], [1, 1, 1, 1]]
    4 3 2 3
    ⟨[(1, 1), (2, 1)], by decide, rfl⟩
    (fun l hl => isGoodPath_two_le hl (by decide))).1 (by norm_num)
/-! ## Maze generation (`MazeGenerator.generate_maze`, maze_generator.py
lines 13-67)

Randomness is made explicit: `random.choice(neighbors)` draws through the
stream `χ` (value modulo the list length), `random.randrange(1, width-1, 2)`
through `ρ` (start plus step times the value modulo the number of range
elements `(width-1) // 2`; Python raises on an empty range, which happens
only for width < 3, so the modulus is clamped to 1), and
`random.random() < 0.3` through the Boolean stream `coin`, consulted exactly
when the preceding conjuncts of the short-circuited `and` hold. -/

/-- `maze[p.y][p.x] = v` (a no-op when the indices are out of range; the
code only assigns under in-bounds guards). -/
def setCell (maze : List (List ℕ)) (p : Pos) (v : ℕ) : List (List ℕ) :=
  maze.set p.2.toNat ((maze.getD p.2.toNat []).set p.1.toNat v)

/-- The maze is an `h`-row list of `w`-entry rows. -/
def Dims (maze : List (List ℕ)) (w h : ℤ) : Prop :=
  maze.length = h.toNat ∧ ∀ row ∈ maze, row.length = w.toNat

lemma setCell_dims {maze : List (List ℕ)} {w h : ℤ} {p : Pos} {v : ℕ}
    (hm : Dims maze w h) : Dims (setCell maze p v) w h := by
  obtain ⟨hlen, hrow⟩ := hm
  refine ⟨by simpa [setCell] using hlen, ?_⟩
  intro row hmem
  simp only [setCell] at hmem
  by_cases hidx : p.2.toNat < maze.length
  · rcases List.mem_or_eq_of_mem_set hmem with hmem2 | rfl
    · exact hrow row hmem2
    · rw [List.length_set]
      refine hrow _ ?_
      rw [List.getD_eq_getElem _ _ hidx]
      exact maze.getElem_mem hidx
  · rw [List.set_eq_of_length_le (by omega)] at hmem
    exact hrow row hmem

/-- `List.set` read back through `List.getD`. -/
lemma getD_set {α : Type} (l : List α) (i j : ℕ) (v d : α) :
    (l.set i v).getD j d = if j = i ∧ i < l.length then v else l.getD j d := by
  by_cases h1 : j = i
  · subst h1
    by_cases h2 : j < l.length
    · rw [if_pos ⟨rfl, h2⟩, List.getD_eq_getElem?_getD, List.getElem?_set_eq h2]
      rfl
    · rw [if_neg (by tauto), List.set_eq_of_length_le (by omega)]
  · rw [if_neg (by tauto), List.getD_eq_getElem?_getD,
      List.getElem?_set_ne (by omega), ← List.getD_eq_getElem?_getD]

/-- How `setCell` reads back: the written value exactly at the written
(in-range) position, the old value everywhere else. -/
lemma cellVal_setCell (maze : List (List ℕ)) (p : Pos) (v : ℕ) (q : Pos) :
    cellVal (setCell maze p v) q =
      if q.1.toNat = p.1.toNat ∧ q.2.toNat = p.2.toNat ∧
          p.2.toNat < maze.length ∧
          p.1.toNat < (maze.getD p.2.toNat []).length then v
      else cellVal maze q := by
  simp only [cellVal, setCell]
  rw [getD_set]
  by_cases h1 : q.2.toNat = p.2.toNat ∧ p.2.toNat < maze.length
  · rw [if_pos h1, getD_set]
    obtain ⟨h1a, h1b⟩ := h1
    by_cases h2 : q.1.toNat = p.1.toNat ∧
        p.1.toNat < (maze.getD p.2.toNat []).length
    · rw [if_pos h2, if_pos ⟨h2.1, h1a, h1b, h2.2⟩]
    · rw [if_neg h2, if_neg (by tauto), h1a]
  · rw [if_neg h1, if_neg (by tauto)]

/-- Writing at an in-bounds position of a well-dimensioned maze reads back
the written value. -/
lemma cellVal_setCell_self {maze : List (List ℕ)} {w h : ℤ} {p : Pos}
    {v : ℕ} (hm : Dims maze w h) (hin : inBounds w h p = true) :
    cellVal (setCell maze p v) p = v := by
  simp only [inBounds, Bool.and_eq_true, decide_eq_true_eq] at hin
  rw [cellVal_setCell, if_pos]
  refine ⟨rfl, rfl, ?_, ?_⟩
  · rw [hm.1]; omega
  · rw [hm.2 _ ?_]
    · omega
    · have : p.2.toNat < maze.length := by rw [hm.1]; omega
      rw [List.getD_eq_getElem _ _ this]
      exact maze.getElem_mem this
/-- Number of Wall cells inside the grid window (termination measure for
the carving loop). -/
def onesCard (w h : ℤ) (maze : List (List ℕ)) : ℕ :=
  ((bound w h).filter (fun q => cellVal maze q = 1)).card

/-- Distinct in-bounds cells have distinct `toNat` coordinate pairs. -/
lemma bound_toNat_inj {w h : ℤ} {p q : Pos} (hp : p ∈ bound w h)
    (hq : q ∈ bound w h)
    (hpq : q.1.toNat = p.1.toNat ∧ q.2.toNat = p.2.toNat) : q = p := by
  rw [mem_bound] at hp hq
  simp only [inBounds, Bool.and_eq_true, decide_eq_true_eq] at hp hq
  have := hpq.1
  have := hpq.2
  obtain ⟨a, b⟩ := p
  obtain ⟨c, d⟩ := q
  simp_all
  omega

lemma onesCard_setCell_zero_le (w h : ℤ) (maze : List (List ℕ)) (p : Pos) :
    onesCard w h (setCell maze p 0) ≤ onesCard w h maze := by
  refine Finset.card_le_card ?_
  intro q hq
  simp only [Finset.mem_filter] at hq ⊢
  refine ⟨hq.1, ?_⟩
  have := hq.2
  rw [cellVal_setCell] at this
  split at this
  · simp at this
  · exact this

lemma onesCard_setCell_zero_lt {w h : ℤ} {maze : List (List ℕ)} {p : Pos}
    (hm : Dims maze w h) (hin : inBounds w h p = true)
    (hv : cellVal maze p = 1) :
    onesCard w h (setCell maze p 0) < onesCard w h maze := by
  refine Finset.card_lt_card ⟨?_, ?_⟩
  · intro q hq
    simp only [Finset.mem_filter] at hq ⊢
    refine ⟨hq.1, ?_⟩
    have := hq.2
    rw [cellVal_setCell] at this
    split at this
    · simp at this
    · exact this
  · intro hsub
    have hp : p ∈ (bound w h).filter (fun q => cellVal maze q = 1) := by
      simp only [Finset.mem_filter]
      exact ⟨mem_bound.mpr hin, hv⟩
    have := hsub hp
    simp only [Finset.mem_filter] at this
    rw [cellVal_setCell_self hm hin] at this
    simp at this

/-- The carving directions `[(0,2),(2,0),(0,-2),(-2,0)]` paired with their
halves `(dx // 2, dy // 2)`. -/
def genDirs : List (Pos × Pos) :=
  [((0, 2), (0, 1)), ((2, 0), (1, 0)), ((0, -2), (0, -1)), ((-2, 0), (-1, 0))]

/-- The neighbor scan of the carving loop: for each direction the two-step
target cell, when strictly inside the border and still a Wall, together
with the intervening wall cell. -/
def genNbrs (maze : List (List ℕ)) (w h : ℤ) (c : Pos) : List (Pos × Pos) :=
  genDirs.filterMap fun dd =>
    let n := stepDir c dd.1
    if 0 < n.1 ∧ n.1 < w - 1 ∧ 0 < n.2 ∧ n.2 < h - 1 ∧ cellVal maze n = 1
    then some (n, stepDir c dd.2) else none
/-- What membership in the neighbor scan gives: the target cell is strictly
inside the border and a Wall, and the wall cell is the midpoint between `c`
and the target: adjacent to both, distinct from the target, and in bounds. -/
lemma genNbrs_mem {maze : List (List ℕ)} {w h : ℤ} {c : Pos} {e : Pos × Pos}
    (he : e ∈ genNbrs maze w h c) :
    0 < e.1.1 ∧ e.1.1 < w - 1 ∧ 0 < e.1.2 ∧ e.1.2 < h - 1 ∧
      cellVal maze e.1 = 1 ∧
      adjacentB c e.2 = true ∧ adjacentB e.2 e.1 = true ∧ e.2 ≠ e.1 ∧
      0 ≤ e.2.1 ∧ e.2.1 < w ∧ 0 ≤ e.2.2 ∧ e.2.2 < h := by
  simp only [genNbrs, List.mem_filterMap] at he
  obtain ⟨dd, hdd, hsome⟩ := he
  split at hsome
  · rename_i hcond
    obtain rfl : (stepDir c dd.1, stepDir c dd.2) = e := by simpa using hsome
    obtain ⟨hx0, hxw, hy0, hyh, hv⟩ := hcond
    simp only [genDirs, List.mem_cons, List.not_mem_nil, or_false] at hdd
    refine ⟨hx0, hxw, hy0, hyh, hv, ?_, ?_, ?_, ?_, ?_, ?_, ?_⟩
    · exact adjacentB_stepDir (by
        rcases hdd with rfl | rfl | rfl | rfl <;> simp [DIRECTIONS])
    · have hstep : stepDir c dd.1 = stepDir (stepDir c dd.2) dd.2 := by
        rcases hdd with rfl | rfl | rfl | rfl <;>
          simp [stepDir] <;> ring
      rw [hstep]
      exact adjacentB_stepDir (by
        rcases hdd with rfl | rfl | rfl | rfl <;> simp [DIRECTIONS])
    · rcases hdd with rfl | rfl | rfl | rfl <;>
        simp [stepDir, Prod.ext_iff] <;> omega
    · rcases hdd with rfl | rfl | rfl | rfl <;>
        simp [stepDir] at hx0 hxw hy0 hyh ⊢ <;> omega
    · rcases hdd with rfl | rfl | rfl | rfl <;>
        simp [stepDir] at hx0 hxw hy0 hyh ⊢ <;> omega
    · rcases hdd with rfl | rfl | rfl | rfl <;>
        simp [stepDir] at hx0 hxw hy0 hyh ⊢ <;> omega
    · rcases hdd with rfl | rfl | rfl | rfl <;>
        simp [stepDir] at hx0 hxw hy0 hyh ⊢ <;> omega
  · simp at hsome
lemma getD_mem_of_ne_nil {α : Type} (l : List α) (hl : l ≠ []) (i : ℕ)
    (d : α) : l.getD (i % l.length) d ∈ l := by
  have hlen : 0 < l.length := List.length_pos.mpr hl
  have hlt : i % l.length < l.length := Nat.mod_lt _ hlen
  rw [List.getD_eq_getElem _ _ hlt]
  exact l.getElem_mem hlt

/-- Carving a scanned neighbor (wall cell plus target cell) strictly
decreases the number of Wall cells in the window. -/
lemma carve_measure {w h : ℤ} {maze : List (List ℕ)} {c : Pos}
    {e : Pos × Pos} (hm : Dims maze w h) (he : e ∈ genNbrs maze w h c) :
    onesCard w h (setCell (setCell maze e.2 0) e.1 0) < onesCard w h maze := by
  obtain ⟨hx0, hxw, hy0, hyh, hv, _, _, hne, hwx0, hwxw, hwy0, hwyh⟩ :=
    genNbrs_mem he
  have hin1 : inBounds w h e.1 = true := by
    simp only [inBounds, Bool.and_eq_true, decide_eq_true_eq]
    omega
  have hval : cellVal (setCell maze e.2 0) e.1 = cellVal maze e.1 := by
    rw [cellVal_setCell, if_neg]
    rintro ⟨h1, h2, _, _⟩
    exact hne (Prod.ext (by omega) (by omega))
  calc onesCard w h (setCell (setCell maze e.2 0) e.1 0)
      < onesCard w h (setCell maze e.2 0) :=
        onesCard_setCell_zero_lt (setCell_dims hm) hin1 (hval.trans hv)
    _ ≤ onesCard w h maze := onesCard_setCell_zero_le w h maze e.2

/-- The recursive-backtracking carving loop (`while stack:` of
`generate_maze`); the stack top is the list head, `random.choice` picks
index `χ k mod len(neighbors)`. -/
def carve (w h : ℤ) (χ : ℕ → ℕ) :
    (maze : List (List ℕ)) → List Pos → ℕ → Dims maze w h →
      List (List ℕ)
  | maze, [], _, _ => maze
  | maze, c :: rest, k, hm =>
    let nb := genNbrs maze w h c
    if hnb : nb = [] then carve w h χ maze rest k hm
    else
      let pick := nb.getD (χ k % nb.length) ((0, 0), (0, 0))
      carve w h χ (setCell (setCell maze pick.2 0) pick.1 0)
        (pick.1 :: c :: rest) (k + 1)
        (setCell_dims (setCell_dims hm))
termination_by maze stack _ _ => 2 * onesCard w h maze + stack.length
decreasing_by
  · simp only [List.length_cons]
    omega
  · have hpick : nb.getD (χ k % nb.length) ((0, 0), (0, 0)) ∈ nb :=
      getD_mem_of_ne_nil nb hnb _ _
    have := carve_measure hm hpick
    simp only [nb] at this
    simp only [List.length_cons]
    omega
/-- The inner `for dx, dy in DIRECTIONS: ... break` of the loop-injection
phase: carve the first adjacent Wall cell that stays strictly inside the
border and wins the `random.random() < 0.3` coin toss (the coin is only
consulted when the preceding guards hold); returns the maze and the next
coin index. -/
def tryBreak (w h : ℤ) (coin : ℕ → Bool) :
    List Pos → List (List ℕ) → Pos → ℕ → List (List ℕ) × ℕ
  | [], maze, _, j => (maze, j)
  | d :: ds, maze, p, j =>
    let n := stepDir p d
    if 0 < n.1 ∧ n.1 < w - 1 ∧ 0 < n.2 ∧ n.2 < h - 1 ∧ cellVal maze n = 1
    then
      if coin j then (setCell maze n 0, j + 1)
      else tryBreak w h coin ds maze p (j + 1)
    else tryBreak w h coin ds maze p j

/-- The `for _ in range(self.width // 2)` loop-injection phase: pick an odd
in-border cell through `ρ` (two `randrange` draws per iteration) and, if it
is a Path cell, try to break one adjacent wall. -/
def addLoops (w h : ℤ) (ρ : ℕ → ℕ) (coin : ℕ → Bool) :
    ℕ → List (List ℕ) → ℕ → ℕ → List (List ℕ)
  | 0, maze, _, _ => maze
  | i + 1, maze, r, j =>
    let x : ℤ := 1 + 2 * ((ρ r % max 1 ((w - 1) / 2).toNat : ℕ) : ℤ)
    let y : ℤ := 1 + 2 * ((ρ (r + 1) % max 1 ((h - 1) / 2).toNat : ℕ) : ℤ)
    if cellVal maze (x, y) = 0 then
      let t := tryBreak w h coin DIRECTIONS maze (x, y) j
      addLoops w h ρ coin i t.1 (r + 2) t.2
    else addLoops w h ρ coin i maze (r + 2) j

lemma replicate_dims (w h : ℤ) :
    Dims (List.replicate h.toNat (List.replicate w.toNat 1)) w h := by
  refine ⟨by simp, ?_⟩
  intro row hr
  rw [List.eq_of_mem_replicate hr]
  simp

/-- The maze after the recursive-backtracking phase: all-Wall grid, carve
`(1,1)`, push it, run the carving loop. -/
def carvedMaze (w h : ℤ) (χ : ℕ → ℕ) : List (List ℕ) :=
  carve w h χ
    (setCell (List.replicate h.toNat (List.replicate w.toNat 1)) (1, 1) 0)
    [(1, 1)] 0 (setCell_dims (replicate_dims w h))

/-- `MazeGenerator.generate_maze`: carving, loop injection, then the forced
clears of `maze[1][1]` and `maze[height-2][width-2]`. -/
def generate_maze (w h : ℤ) (χ ρ : ℕ → ℕ) (coin : ℕ → Bool) :
    List (List ℕ) :=
  setCell
    (setCell (addLoops w h ρ coin (w / 2).toNat (carvedMaze w h χ) 0 0)
      (1, 1) 0)
    (w - 2, h - 2) 0

/-! ## Monotonicity of carving a cell to Path -/

/-- Setting any cell to `0` keeps every Path cell a Path cell. -/
lemma setCell_zero_keeps {maze : List (List ℕ)} {z q : Pos}
    (hq : cellVal maze q = 0) : cellVal (setCell maze z 0) q = 0 := by
  rw [cellVal_setCell]
  split
  · rfl
  · exact hq

lemma isGoodPath_mono {pass pass' : Pos → Bool}
    (hmono : ∀ p, pass p = true → pass' p = true) {s g : Pos} {l : List Pos}
    (h : isGoodPath pass s g l = true) : isGoodPath pass' s g l = true := by
  simp only [isGoodPath, Bool.and_eq_true, List.all_eq_true] at h ⊢
  exact ⟨h.1, fun x hx => hmono x (h.2 x hx)⟩

lemma reach_mono {pass pass' : Pos → Bool}
    (hmono : ∀ p, pass p = true → pass' p = true) {s g : Pos}
    (h : Reach pass s g) : Reach pass' s g := by
  obtain ⟨l, hl⟩ := h
  exact ⟨l, isGoodPath_mono hmono hl⟩

/-- A maze whose Path cells include those of `maze` has a pointwise larger
passability predicate. -/
lemma mazePass_mono {maze maze' : List (List ℕ)} {w h : ℤ}
    (hkeep : ∀ q, cellVal maze q = 0 → cellVal maze' q = 0) (p : Pos)
    (hp : mazePass maze w h p = true) : mazePass maze' w h p = true := by
  simp only [mazePass, Bool.and_eq_true, beq_iff_eq] at hp ⊢
  exact ⟨hp.1, hkeep p hp.2⟩

/-- `tryBreak` only ever writes `0`. -/
lemma tryBreak_keeps (w h : ℤ) (coin : ℕ → Bool) :
    ∀ ds maze (p : Pos) j (q : Pos), cellVal maze q = 0 →
      cellVal (tryBreak w h coin ds maze p j).1 q = 0 := by
  intro ds
  induction ds with
  | nil =>
    intro maze p j q hq
    simpa [tryBreak] using hq
  | cons d ds ih =>
    intro maze p j q hq
    simp only [tryBreak]
    split
    · split
      · exact setCell_zero_keeps hq
      · exact ih maze p (j + 1) q hq
    · exact ih maze p j q hq

/-- `addLoops` only ever writes `0`. -/
lemma addLoops_keeps (w h : ℤ) (ρ : ℕ → ℕ) (coin : ℕ → Bool) :
    ∀ i maze r j (q : Pos), cellVal maze q = 0 →
      cellVal (addLoops w h ρ coin i maze r j) q = 0 := by
  intro i
  induction i with
  | zero =>
    intro maze r j q hq
    simpa [addLoops] using hq
  | succ i ih =>
    intro maze r j q hq
    simp only [addLoops]
    split
    · exact ih _ _ _ q (tryBreak_keeps w h coin DIRECTIONS maze _ j q hq)
    · exact ih maze _ j q hq
/-! ## Claim theorems: C6 -/

/-- C6: the loop-injection phase of maze generation only ever carves Wall
cells to Path and never turns a Path cell back to Wall, so the set of cells
reachable (from any start, in particular (1,1)) after loop injection is a
superset of the set reachable before it. -/
theorem C6_loop_injection_monotone (w h : ℤ) (ρ : ℕ → ℕ) (coin : ℕ → Bool)
    (i : ℕ) (maze : List (List ℕ)) (r j : ℕ) :
    (∀ q, cellVal maze q = 0 →
      cellVal (addLoops w h ρ coin i maze r j) q = 0) ∧
    (∀ s g, Reach (mazePass maze w h) s g →
      Reach (mazePass (addLoops w h ρ coin i maze r j) w h) s g) :=
  ⟨fun q => addLoops_keeps w h ρ coin i maze r j q,
   fun s g hreach => reach_mono
     (mazePass_mono (fun q => addLoops_keeps w h ρ coin i maze r j q))
     hreach⟩

/-- Witness for C6 at a concrete maze, cell, and reachability fact. -/
theorem C6_witness :
    cellVal (addLoops 4 3 (fun n => n) (fun _ => true) 2
      [[1, 1, 1, 1], [1, 0, 0, 1], [1, 1, 1, 1]] 0 0) (2, 1) = 0 ∧
    Reach (mazePass (addLoops 4 3 (fun n => n) (fun _ => true) 2
      [[1, 1, 1, 1], [1, 0, 0, 1], [1, 1, 1, 1]] 0 0) 4 3) (1, 1) (2, 1) :=
  ⟨(C6_loop_injection_monotone 4 3 (fun n => n) (fun _ => true) 2
      [[1, 1, 1, 1], [1, 0, 0, 1], [1, 1, 1, 1]] 0 0).1 (2, 1) (by decide),
   (C6_loop_injection_monotone 4 3 (fun n => n) (fun _ => true) 2
      [[1, 1, 1, 1], [1, 0, 0, 1], [1, 1, 1, 1]] 0 0).2 (1, 1) (2, 1)
     ⟨[(1, 1), (2, 1)], by decide⟩⟩
/-- The target cell of a scanned neighbor lies two steps from `c` with the
wall cell as midpoint. -/
lemma genNbrs_mid {maze : List (List ℕ)} {w h : ℤ} {c : Pos}
    {e : Pos × Pos} (he : e ∈ genNbrs maze w h c) :
    e.1.1 - c.1 = 2 * (e.2.1 - c.1) ∧ e.1.2 - c.2 = 2 * (e.2.2 - c.2) := by
  simp only [genNbrs, List.mem_filterMap] at he
  obtain ⟨dd, hdd, hsome⟩ := he
  split at hsome
  · obtain rfl : (stepDir c dd.1, stepDir c dd.2) = e := by simpa using hsome
    simp only [genDirs, List.mem_cons, List.not_mem_nil, or_false] at hdd
    rcases hdd with rfl | rfl | rfl | rfl <;> simp [stepDir] <;> omega
  · simp at hsome

lemma cellVal_congr_toNat {maze : List (List ℕ)} {p q : Pos}
    (h1 : q.1.toNat = p.1.toNat) (h2 : q.2.toNat = p.2.toNat) :
    cellVal maze q = cellVal maze p := by
  simp [cellVal, h1, h2]

lemma inBounds_toNat_inj {w h : ℤ} {p q : Pos}
    (hp : inBounds w h p = true) (hq : inBounds w h q = true)
    (h1 : q.1.toNat = p.1.toNat) (h2 : q.2.toNat = p.2.toNat) : q = p := by
  simp only [inBounds, Bool.and_eq_true, decide_eq_true_eq] at hp hq
  exact Prod.ext (by omega) (by omega)

/-- An odd-coordinate room cell strictly inside the border. -/
def Room (w h : ℤ) (p : Pos) : Prop :=
  p.1 % 2 = 1 ∧ p.2 % 2 = 1 ∧ 0 < p.1 ∧ p.1 < w - 1 ∧ 0 < p.2 ∧ p.2 < h - 1

lemma room_inBounds {w h : ℤ} {p : Pos} (hp : Room w h p) :
    inBounds w h p = true := by
  obtain ⟨_, _, h1, h2, h3, h4⟩ := hp
  simp only [inBounds, Bool.and_eq_true, decide_eq_true_eq]
  omega

/-- Every in-bounds Path cell of the maze is reachable from `(1,1)`. -/
def AllReach (w h : ℤ) (maze : List (List ℕ)) : Prop :=
  ∀ q, inBounds w h q = true → cellVal maze q = 0 →
    Reach (mazePass maze w h) (1, 1) q

/-- Invariant of the carving loop: cells hold only 0 or 1, `(1,1)` is
carved, the stack holds carved room cells, every in-bounds carved cell is
reachable from `(1,1)`, and every carved room cell off the stack has all
its room lattice neighbors carved. -/
structure CarveInv (w h : ℤ) (maze : List (List ℕ))
    (stack : List Pos) : Prop where
  binary : ∀ q, cellVal maze q = 0 ∨ cellVal maze q = 1
  start_zero : cellVal maze (1, 1) = 0
  stack_room : ∀ c ∈ stack, Room w h c
  stack_zero : ∀ c ∈ stack, cellVal maze c = 0
  reach_zero : AllReach w h maze
  closed : ∀ z, Room w h z → cellVal maze z = 0 → z ∉ stack →
    ∀ d ∈ genDirs, Room w h (stepDir z d.1) →
      cellVal maze (stepDir z d.1) = 0

/-- Popping an exhausted cell preserves the carving invariant. -/
lemma carveInv_pop {w h : ℤ} {maze : List (List ℕ)} {c : Pos}
    {rest : List Pos} (hinv : CarveInv w h maze (c :: rest))
    (hnb : genNbrs maze w h c = []) : CarveInv w h maze rest := by
  obtain ⟨hbin, hsz, hsr, hs0, hrz, hcl⟩ := hinv
  refine ⟨hbin, hsz, fun x hx => hsr x (List.mem_cons_of_mem c hx),
    fun x hx => hs0 x (List.mem_cons_of_mem c hx), hrz, ?_⟩
  intro z hzr hz0 hzs d hd hnr
  by_cases hzc : z = c
  · subst hzc
    have hnone := (List.filterMap_eq_nil.mp hnb) d hd
    simp only at hnone
    split at hnone
    · exact absurd hnone (by simp)
    · rename_i hcond
      obtain ⟨_, _, hn1, hn2, hn3, hn4⟩ := hnr
      have hne1 : cellVal maze (stepDir z d.1) ≠ 1 := by
        intro hv1
        exact hcond ⟨hn1, hn2, hn3, hn4, hv1⟩
      rcases hbin (stepDir z d.1) with hv | hv
      · exact hv
      · exact absurd hv hne1
  · exact hcl z hzr hz0 (by simp [hzc, hzs]) d hd hnr

/-- Carving a chosen neighbor preserves the carving invariant. -/
lemma carveInv_step {w h : ℤ} {maze : List (List ℕ)} {c : Pos}
    {rest : List Pos} {e : Pos × Pos} (hm : Dims maze w h)
    (hinv : CarveInv w h maze (c :: rest))
    (hpick : e ∈ genNbrs maze w h c) :
    CarveInv w h (setCell (setCell maze e.2 0) e.1 0)
      (e.1 :: c :: rest) := by
  obtain ⟨hx0, hxw, hy0, hyh, hv, hadjcw, hadjwn, hne, hwx0, hwxw, hwy0,
    hwyh⟩ := genNbrs_mem hpick
  obtain ⟨hmid1, hmid2⟩ := genNbrs_mid hpick
  have hcr : Room w h c := hinv.stack_room c (List.mem_cons_self c rest)
  have hc0 : cellVal maze c = 0 := hinv.stack_zero c (List.mem_cons_self c rest)
  have hnin : inBounds w h e.1 = true := by
    simp only [inBounds, Bool.and_eq_true, decide_eq_true_eq]
    omega
  have hwin : inBounds w h e.2 = true := by
    simp only [inBounds, Bool.and_eq_true, decide_eq_true_eq]
    omega
  have hkeep : ∀ q, cellVal maze q = 0 →
      cellVal (setCell (setCell maze e.2 0) e.1 0) q = 0 :=
    fun q hq => setCell_zero_keeps (setCell_zero_keeps hq)
  have hwn_tonat : ¬ (e.2.1.toNat = e.1.1.toNat ∧ e.2.2.toNat = e.1.2.toNat) := by
    rintro ⟨ht1, ht2⟩
    exact hne (inBounds_toNat_inj hnin hwin ht1 ht2)
  have hval_n : cellVal (setCell (setCell maze e.2 0) e.1 0) e.1 = 0 :=
    cellVal_setCell_self (setCell_dims hm) hnin
  have hval_w : cellVal (setCell (setCell maze e.2 0) e.1 0) e.2 = 0 := by
    rw [cellVal_setCell, if_neg (by tauto)]
    exact cellVal_setCell_self hm hwin
  have hunchanged : ∀ q, ¬ (q.1.toNat = e.1.1.toNat ∧ q.2.toNat = e.1.2.toNat) →
      ¬ (q.1.toNat = e.2.1.toNat ∧ q.2.toNat = e.2.2.toNat) →
      cellVal (setCell (setCell maze e.2 0) e.1 0) q = cellVal maze q := by
    intro q h1 h2
    rw [cellVal_setCell, if_neg (by tauto), cellVal_setCell, if_neg (by tauto)]
  have hroom_n : Room w h e.1 := by
    obtain ⟨hp1, hp2, _, _, _, _⟩ := hcr
    exact ⟨by omega, by omega, hx0, hxw, hy0, hyh⟩
  have hreach2 : Reach (mazePass (setCell (setCell maze e.2 0) e.1 0) w h)
      (1, 1) e.1 := by
    have h1 : Reach (mazePass maze w h) (1, 1) c :=
      hinv.reach_zero c (room_inBounds hcr) hc0
    have h2 := reach_mono (mazePass_mono hkeep) h1
    have h3 := (reach_snoc h2 hadjcw (by
      simp only [mazePass, Bool.and_eq_true, beq_iff_eq]
      exact ⟨hwin, hval_w⟩)).1
    exact (reach_snoc h3 hadjwn (by
      simp only [mazePass, Bool.and_eq_true, beq_iff_eq]
      exact ⟨hnin, hval_n⟩)).1
  refine ⟨?_, hkeep _ hinv.start_zero, ?_, ?_, ?_, ?_⟩
  · intro q
    rw [cellVal_setCell]
    split
    · exact Or.inl rfl
    · rw [cellVal_setCell]
      split
      · exact Or.inl rfl
      · exact hinv.binary q
  · intro x hx
    rcases List.mem_cons.mp hx with rfl | hx2
    · exact hroom_n
    · exact hinv.stack_room x hx2
  · intro x hx
    rcases List.mem_cons.mp hx with rfl | hx2
    · exact hval_n
    · exact hkeep x (hinv.stack_zero x hx2)
  · intro q hqin hq0
    by_cases h1 : q.1.toNat = e.1.1.toNat ∧ q.2.toNat = e.1.2.toNat
    · have : q = e.1 := inBounds_toNat_inj hnin hqin h1.1 h1.2
      rw [this]
      exact hreach2
    · by_cases h2 : q.1.toNat = e.2.1.toNat ∧ q.2.toNat = e.2.2.toNat
      · have hq : q = e.2 := inBounds_toNat_inj hwin hqin h2.1 h2.2
        subst hq
        have hr1 : Reach (mazePass maze w h) (1, 1) c :=
          hinv.reach_zero c (room_inBounds hcr) hc0
        have hr2 := reach_mono (mazePass_mono hkeep) hr1
        exact (reach_snoc hr2 hadjcw (by
          simp only [mazePass, Bool.and_eq_true, beq_iff_eq]
          exact ⟨hwin, hval_w⟩)).1
      · have hq0' : cellVal maze q = 0 := by
          rw [← hunchanged q h1 h2]
          exact hq0
        exact reach_mono (mazePass_mono hkeep)
          (hinv.reach_zero q hqin hq0')
  · intro z hzr hz0 hzs d hd hnr
    have hzn : z ≠ e.1 := fun hzn => hzs (hzn ▸ List.mem_cons_self e.1 _)
    have hzin : inBounds w h z = true := room_inBounds hzr
    have hznw : z ≠ e.2 := by
      rintro rfl
      obtain ⟨dw, hdw, hstep⟩ := adjacentB_exists_dir hadjcw
      obtain ⟨hcp1, hcp2, _, _, _, _⟩ := hcr
      obtain ⟨hzp1, hzp2, _, _, _, _⟩ := hzr
      rw [hstep] at hzp1 hzp2
      simp only [DIRECTIONS, List.mem_cons, List.not_mem_nil, or_false] at hdw
      rcases hdw with rfl | rfl | rfl | rfl <;>
        simp only [stepDir] at hzp1 hzp2 <;> omega
    have h1 : ¬ (z.1.toNat = e.1.1.toNat ∧ z.2.toNat = e.1.2.toNat) := by
      rintro ⟨ht1, ht2⟩
      exact hzn (inBounds_toNat_inj hnin hzin ht1 ht2)
    have h2 : ¬ (z.1.toNat = e.2.1.toNat ∧ z.2.toNat = e.2.2.toNat) := by
      rintro ⟨ht1, ht2⟩
      exact hznw (inBounds_toNat_inj hwin hzin ht1 ht2)
    have hz0' : cellVal maze z = 0 := by
      rw [← hunchanged z h1 h2]
      exact hz0
    have hznc : z ∉ c :: rest := fun hmem => hzs (List.mem_cons_of_mem _ hmem)
    exact hkeep _ (hinv.closed z hzr hz0' hznc d hd hnr)

lemma carve_inv {w h : ℤ} {χ : ℕ → ℕ} :
    ∀ maze stack k (hm : Dims maze w h), CarveInv w h maze stack →
      CarveInv w h (carve w h χ maze stack k hm) [] := by
  intro maze stack k hm
  induction maze, stack, k, hm using carve.induct w h χ with
  | case1 maze k hm => exact fun hinv => by rw [carve]; exact hinv
  | case2 maze c rest k hm nb hnb hm2 ih =>
    exact fun hinv => by
      rw [carve, dif_pos hnb]
      exact ih (carveInv_pop hinv hnb)
  | case3 maze c rest k hm nb hnb pick hm2 ih =>
    exact fun hinv => by
      rw [carve, dif_neg hnb]
      exact ih (carveInv_step hm hinv (getD_mem_of_ne_nil _ hnb _ _))
lemma cellVal_replicate (w h : ℤ) (q : Pos) :
    cellVal (List.replicate h.toNat (List.replicate w.toNat 1)) q = 1 := by
  simp only [cellVal, List.getD_eq_getElem?_getD, List.getElem?_replicate]
  split
  · simp only [Option.getD_some, List.getElem?_replicate]
    split
    · simp
    · simp
  · simp

/-- The carving invariant holds at entry: all-Wall grid with `(1,1)`
carved and pushed. -/
lemma carveInv_init {w h : ℤ} (hw : 3 ≤ w) (hh : 3 ≤ h) :
    CarveInv w h
      (setCell (List.replicate h.toNat (List.replicate w.toNat 1)) (1, 1) 0)
      [(1, 1)] := by
  have hin11 : inBounds w h ((1, 1) : Pos) = true := by
    simp only [inBounds, Bool.and_eq_true, decide_eq_true_eq]
    omega
  have hdims0 := replicate_dims w h
  have h11 : cellVal
      (setCell (List.replicate h.toNat (List.replicate w.toNat 1)) (1, 1) 0)
      (1, 1) = 0 := cellVal_setCell_self hdims0 hin11
  have hsplit : ∀ q : Pos,
      cellVal (setCell (List.replicate h.toNat (List.replicate w.toNat 1))
        (1, 1) 0) q = 0 →
      q.1.toNat = (1 : ℤ).toNat ∧ q.2.toNat = (1 : ℤ).toNat := by
    intro q hq
    rw [cellVal_setCell] at hq
    split at hq
    · rename_i hcond
      exact ⟨hcond.1, hcond.2.1⟩
    · rw [cellVal_replicate] at hq
      simp at hq
  refine ⟨?_, h11, ?_, ?_, ?_, ?_⟩
  · intro q
    rw [cellVal_setCell]
    split
    · exact Or.inl rfl
    · exact Or.inr (cellVal_replicate w h q)
  · intro x hx
    rw [List.mem_singleton] at hx
    subst hx
    exact ⟨by norm_num, by norm_num, by norm_num, by omega, by norm_num,
      by omega⟩
  · intro x hx
    rw [List.mem_singleton] at hx
    subst hx
    exact h11
  · intro q hqin hq0
    have hq := hsplit q hq0
    have : q = (1, 1) := inBounds_toNat_inj hin11 hqin hq.1 hq.2
    subst this
    exact reach_self _ _
  · intro z hzr hz0 hzs d hd hnr
    exfalso
    have hz := hsplit z hz0
    exact hzs (by
      rw [List.mem_singleton]
      exact inBounds_toNat_inj hin11 (room_inBounds hzr) hz.1 hz.2)

/-- Lattice induction: if every carved room cell has all its room lattice
neighbors carved and `(1,1)` is carved, every room cell is carved. -/
lemma rooms_all_zero {w h : ℤ} {maze : List (List ℕ)}
    (hcl : ∀ z, Room w h z → cellVal maze z = 0 →
      ∀ d ∈ genDirs, Room w h (stepDir z d.1) →
        cellVal maze (stepDir z d.1) = 0)
    (hstart : cellVal maze (1, 1) = 0) :
    ∀ p, Room w h p → cellVal maze p = 0 := by
  suffices H : ∀ n (p : Pos), (p.1 + p.2).toNat ≤ n → Room w h p →
      cellVal maze p = 0 from fun p hp => H _ p le_rfl hp
  intro n
  induction n with
  | zero =>
    intro p hle hp
    obtain ⟨_, _, h3, _, h5, _⟩ := hp
    omega
  | succ n ih =>
    intro p hle hp
    obtain ⟨hp1, hp2, hp3, hp4, hp5, hp6⟩ := hp
    by_cases h1 : 1 < p.1
    · have hroom' : Room w h (p.1 - 2, p.2) :=
        ⟨by omega, hp2, by omega, by omega, hp5, hp6⟩
      have hval' : cellVal maze (p.1 - 2, p.2) = 0 :=
        ih (p.1 - 2, p.2) (by simp only; omega) hroom'
      have hps : stepDir (p.1 - 2, p.2) (2, 0) = p :=
        Prod.ext (by simp [stepDir]) (by simp [stepDir])
      have := hcl (p.1 - 2, p.2) hroom' hval' ((2, 0), (1, 0))
        (by simp [genDirs]) (by
          rw [show (((2, 0), (1, 0)) : Pos × Pos).1 = ((2, 0) : Pos) from rfl,
            hps]
          exact ⟨hp1, hp2, hp3, hp4, hp5, hp6⟩)
      rw [show (((2, 0), (1, 0)) : Pos × Pos).1 = ((2, 0) : Pos) from rfl,
        hps] at this
      exact this
    · by_cases h2 : 1 < p.2
      · have hroom' : Room w h (p.1, p.2 - 2) :=
          ⟨hp1, by omega, hp3, hp4, by omega, by omega⟩
        have hval' : cellVal maze (p.1, p.2 - 2) = 0 :=
          ih (p.1, p.2 - 2) (by simp only; omega) hroom'
        have hps : stepDir (p.1, p.2 - 2) (0, 2) = p :=
          Prod.ext (by simp [stepDir]) (by simp [stepDir])
        have := hcl (p.1, p.2 - 2) hroom' hval' ((0, 2), (0, 1))
          (by simp [genDirs]) (by
            rw [show (((0, 2), (0, 1)) : Pos × Pos).1 = ((0, 2) : Pos) from
              rfl, hps]
            exact ⟨hp1, hp2, hp3, hp4, hp5, hp6⟩)
        rw [show (((0, 2), (0, 1)) : Pos × Pos).1 = ((0, 2) : Pos) from rfl,
          hps] at this
        exact this
      · have : p = (1, 1) := Prod.ext (by omega) (by omega)
        rw [this]
        exact hstart
/-- Carving an in-bounds cell adjacent to a Path cell preserves
reachability of every Path cell from `(1,1)`. -/
lemma allReach_setCell {w h : ℤ} {maze : List (List ℕ)} {z p : Pos}
    (har : AllReach w h maze) (hp0 : cellVal maze p = 0)
    (hpin : inBounds w h p = true) (hadj : adjacentB p z = true)
    (hzin : inBounds w h z = true) :
    AllReach w h (setCell maze z 0) := by
  intro q hqin hq0
  by_cases hqz : q.1.toNat = z.1.toNat ∧ q.2.toNat = z.2.toNat
  · have hq : q = z := inBounds_toNat_inj hzin hqin hqz.1 hqz.2
    subst hq
    have h1 : Reach (mazePass (setCell maze q 0) w h) (1, 1) p :=
      reach_mono (mazePass_mono (fun r hr => setCell_zero_keeps hr))
        (har p hpin hp0)
    exact (reach_snoc h1 hadj (by
      simp only [mazePass, Bool.and_eq_true, beq_iff_eq]
      exact ⟨hqin, hq0⟩)).1
  · have hq0' : cellVal maze q = 0 := by
      rw [cellVal_setCell, if_neg (by tauto)] at hq0
      exact hq0
    exact reach_mono (mazePass_mono (fun r hr => setCell_zero_keeps hr))
      (har q hqin hq0')

lemma tryBreak_allreach (w h : ℤ) (coin : ℕ → Bool) :
    ∀ ds, ds ⊆ DIRECTIONS → ∀ maze (p : Pos) j, AllReach w h maze →
      cellVal maze p = 0 → inBounds w h p = true →
      AllReach w h (tryBreak w h coin ds maze p j).1 := by
  intro ds
  induction ds with
  | nil =>
    intro _ maze p j har _ _
    simpa [tryBreak] using har
  | cons d ds ih =>
    intro hsub maze p j har hp0 hpin
    simp only [tryBreak]
    split
    · rename_i hcond
      split
      · exact allReach_setCell har hp0 hpin
          (adjacentB_stepDir (hsub (List.mem_cons_self d ds)))
          (by
            simp only [inBounds, Bool.and_eq_true, decide_eq_true_eq]
            omega)
      · exact ih (fun x hx => hsub (List.mem_cons_of_mem d hx)) maze p
          (j + 1) har hp0 hpin
    · exact ih (fun x hx => hsub (List.mem_cons_of_mem d hx)) maze p j
        har hp0 hpin

lemma addLoops_allreach {w h : ℤ} (hw : 3 ≤ w) (hh : 3 ≤ h)
    (ρ : ℕ → ℕ) (coin : ℕ → Bool) :
    ∀ i maze r j, AllReach w h maze →
      AllReach w h (addLoops w h ρ coin i maze r j) := by
  intro i
  induction i with
  | zero =>
    intro maze r j har
    simpa [addLoops] using har
  | succ i ih =>
    intro maze r j har
    simp only [addLoops]
    split
    · rename_i h0
      refine ih _ _ _ (tryBreak_allreach w h coin DIRECTIONS
        (fun x hx => hx) maze _ j har h0 ?_)
      have hm1 : (1 : ℕ) ≤ ((w - 1) / 2).toNat := by omega
      have hm2 : (1 : ℕ) ≤ ((h - 1) / 2).toNat := by omega
      rw [Nat.max_eq_right hm1, Nat.max_eq_right hm2]
      have hmod1 := Nat.mod_lt (ρ r) (show 0 < ((w - 1) / 2).toNat by omega)
      have hmod2 := Nat.mod_lt (ρ (r + 1))
        (show 0 < ((h - 1) / 2).toNat by omega)
      simp only [inBounds, Bool.and_eq_true, decide_eq_true_eq]
      omega
    · exact ih maze _ j har

/-- Writing a value a cell already holds changes no reads at all. -/
lemma cellVal_setCell_same {maze : List (List ℕ)} {z : Pos} {v : ℕ}
    (hz : cellVal maze z = v) (q : Pos) :
    cellVal (setCell maze z v) q = cellVal maze q := by
  rw [cellVal_setCell]
  split
  · rename_i hcond
    rw [cellVal_congr_toNat hcond.1 hcond.2.1, hz]
  · rfl

lemma mazePass_congr {maze maze' : List (List ℕ)} {w h : ℤ}
    (hsame : ∀ q, cellVal maze' q = cellVal maze q) :
    mazePass maze' w h = mazePass maze w h :=
  funext fun p => by simp [mazePass, hsame p]

/-! ## Claim theorems: C1 -/

/-- C1: for every odd width and height at least 5 and every draw of the
three random streams, the grid returned by `generate_maze` has every Path
cell reachable from `(1,1)` via 4-directional adjacency restricted to Path
cells; in particular every odd-coordinate room cell strictly inside the
border is Path and reachable from `(1,1)`. -/
theorem C1_generate_maze_connected (w h : ℤ) (χ ρ : ℕ → ℕ)
    (coin : ℕ → Bool) (hw : 5 ≤ w) (hwodd : w % 2 = 1) (hh : 5 ≤ h)
    (hhodd : h % 2 = 1) :
    (∀ p, mazePass (generate_maze w h χ ρ coin) w h p = true →
      Reach (mazePass (generate_maze w h χ ρ coin) w h) (1, 1) p) ∧
    (∀ p, Room w h p → cellVal (generate_maze w h χ ρ coin) p = 0 ∧
      Reach (mazePass (generate_maze w h χ ρ coin) w h) (1, 1) p) := by
  have hinv2 : CarveInv w h (carvedMaze w h χ) [] :=
    carve_inv _ _ 0 _ (carveInv_init (by omega) (by omega))
  have hrooms2 : ∀ p, Room w h p → cellVal (carvedMaze w h χ) p = 0 :=
    rooms_all_zero (fun z hz hz0 => hinv2.closed z hz hz0 (by simp))
      hinv2.start_zero
  have har3 : AllReach w h
      (addLoops w h ρ coin (w / 2).toNat (carvedMaze w h χ) 0 0) :=
    addLoops_allreach (by omega) (by omega) ρ coin _ _ 0 0 hinv2.reach_zero
  have hrooms3 : ∀ p, Room w h p →
      cellVal (addLoops w h ρ coin (w / 2).toNat (carvedMaze w h χ) 0 0)
        p = 0 :=
    fun p hp => addLoops_keeps w h ρ coin _ _ 0 0 p (hrooms2 p hp)
  have hstart3 : cellVal
      (addLoops w h ρ coin (w / 2).toNat (carvedMaze w h χ) 0 0)
      (1, 1) = 0 :=
    addLoops_keeps w h ρ coin _ _ 0 0 (1, 1) hinv2.start_zero
  have hroom_end : Room w h ((w - 2, h - 2) : Pos) := by
    refine ⟨by simp only; omega, by simp only; omega, by simp only; omega,
      by simp only; omega, by simp only; omega, by simp only; omega⟩
  have hend3 : cellVal
      (addLoops w h ρ coin (w / 2).toNat (carvedMaze w h χ) 0 0)
      (w - 2, h - 2) = 0 := hrooms3 _ hroom_end
  have e1 := cellVal_setCell_same hstart3
  have hend3' : cellVal
      (setCell (addLoops w h ρ coin (w / 2).toNat (carvedMaze w h χ) 0 0)
        (1, 1) 0) (w - 2, h - 2) = 0 := (e1 _).trans hend3
  have e2 := cellVal_setCell_same hend3'
  have hsame : ∀ q, cellVal (generate_maze w h χ ρ coin) q =
      cellVal (addLoops w h ρ coin (w / 2).toNat (carvedMaze w h χ) 0 0)
        q := by
    intro q
    simp only [generate_maze]
    exact (e2 q).trans (e1 q)
  have hpass_eq : mazePass (generate_maze w h χ ρ coin) w h =
      mazePass (addLoops w h ρ coin (w / 2).toNat (carvedMaze w h χ) 0 0)
        w h := mazePass_congr hsame
  constructor
  · intro p hp
    rw [hpass_eq] at hp ⊢
    simp only [mazePass, Bool.and_eq_true, beq_iff_eq] at hp
    exact har3 p hp.1 hp.2
  · intro p hproom
    refine ⟨(hsame p).trans (hrooms3 p hproom), ?_⟩
    rw [hpass_eq]
    exact har3 p (room_inBounds hproom) (hrooms3 p hproom)

/-- Witness for C1 at concrete 5x5 dimensions and streams. -/
theorem C1_witness :
    cellVal (generate_maze 5 5 (fun n => n) (fun n => n)
      (fun _ => false)) (3, 3) = 0 ∧
    Reach (mazePass (generate_maze 5 5 (fun n => n) (fun n => n)
      (fun _ => false)) 5 5) (1, 1) (3, 3) :=
  (C1_generate_maze_connected 5 5 (fun n => n) (fun n => n) (fun _ => false)
    (by norm_num) (by norm_num) (by norm_num) (by norm_num)).2 (3, 3)
    ⟨by norm_num, by norm_num, by norm_num, by norm_num, by norm_num,
      by norm_num⟩
/-! ## Feature placement and solvability (`main3.py` lines 325-446)

`random.choice(lst)` draws through the stream `σc` (list entry at the
drawn value modulo the list length); each call advances the running index
by one.  Wall-clock time and `self.max_moves` bookkeeping follow the code;
the class state is threaded explicitly (in particular `self.enemy_path`,
which `create_enemy_path` leaves untouched when there is no enemy). -/

/-- `bfs_avoid_enemy(start, end)` of `is_solvable_with_enemy`: the same
BFS loop as `PathFinder._bfs` with the blocked patrol cells excluded,
returning only success. -/
def bfs_avoid_enemy (start goal : Pos) (maze : List (List ℕ)) (w h : ℤ)
    (blocked : List Pos) : Bool :=
  ((bfsLoop (mazePassAvoid maze w h blocked) (bound w h)
    (fun p hpp => mem_bound.mpr (by
      simp only [mazePassAvoid, Bool.and_eq_true] at hpp
      exact hpp.1.1))
    goal [(start, [start])] {start} 0).1).isSome

lemma bfs_avoid_enemy_spec (start goal : Pos) (maze : List (List ℕ))
    (w h : ℤ) (blocked : List Pos) :
    bfs_avoid_enemy start goal maze w h blocked = true ↔
      Reach (mazePassAvoid maze w h blocked) start goal := by
  have hspec := bfsLoop_spec (mazePassAvoid maze w h blocked) (bound w h)
    (fun p hpp => mem_bound.mpr (by
      simp only [mazePassAvoid, Bool.and_eq_true] at hpp
      exact hpp.1.1))
    start goal [(start, [start])] {start} 0 (BfsInv.init _ _ _)
  rw [bfs_avoid_enemy]
  constructor
  · intro hs
    rw [Option.isSome_iff_exists] at hs
    obtain ⟨p, hp⟩ := hs
    exact ⟨p, (hspec.2 p hp).1⟩
  · intro hreach
    by_contra hns
    rw [Option.not_isSome_iff_eq_none] at hns
    exact hspec.1 hns hreach

/-- `abs(k[0] - pos[0]) + abs(k[1] - pos[1])`. -/
def manhattan (a b : Pos) : ℕ :=
  (a.1 - b.1).natAbs + (a.2 - b.2).natAbs

/-- Python `min(l, key=f)` over a nonempty list: the first element of
minimal key wins ties. -/
def pyMin (f : Pos → ℕ) : Pos → List Pos → Pos
  | best, [] => best
  | best, x :: xs => if f x < f best then pyMin f x xs else pyMin f best xs

lemma pyMin_mem (f : Pos → ℕ) :
    ∀ xs best, pyMin f best xs ∈ best :: xs := by
  intro xs
  induction xs with
  | nil =>
    intro best
    simp [pyMin]
  | cons x xs ih =>
    intro best
    simp only [pyMin]
    split
    · have := ih x
      simp only [List.mem_cons] at this ⊢
      tauto
    · have := ih best
      simp only [List.mem_cons] at this ⊢
      tauto

lemma erase_pyMin_lt (f : Pos → ℕ) (k : Pos) (ks : List Pos) :
    ((k :: ks).erase (pyMin f k ks)).length < (k :: ks).length := by
  rw [List.length_erase_of_mem (pyMin_mem f ks k)]
  simp

/-- The `while test_keys:` chain of `is_solvable_with_enemy`: repeatedly
walk to the Manhattan-nearest remaining key, then to the exit. -/
def solvableChain (bfs : Pos → Pos → Bool) (endp : Pos) :
    Pos → List Pos → Bool
  | pos, [] => bfs pos endp
  | pos, k :: ks =>
    let nearest := pyMin (fun q => manhattan q pos) k ks
    if bfs pos nearest then
      solvableChain bfs endp nearest ((k :: ks).erase nearest)
    else false
termination_by _ keys => keys.length
decreasing_by
  exact erase_pyMin_lt _ _ _

/-- The ordered sequence of chain waypoints
start, key, key, …, exit the solvability check walks through. -/
def chainPts (endp : Pos) : Pos → List Pos → List Pos
  | pos, [] => [pos, endp]
  | pos, k :: ks =>
    let nearest := pyMin (fun q => manhattan q pos) k ks
    pos :: chainPts endp nearest ((k :: ks).erase nearest)
termination_by _ keys => keys.length
decreasing_by
  exact erase_pyMin_lt _ _ _

/-- `is_solvable_with_enemy`: every consecutive chain leg passes the
enemy-avoiding BFS, with `blocked` exactly the patrol cells. -/
def is_solvable_with_enemy (maze : List (List ℕ)) (w h : ℤ)
    (keys : List Pos) (enemy_path : List Pos) (endp : Pos) : Bool :=
  solvableChain (fun a b => bfs_avoid_enemy a b maze w h enemy_path) endp
    (1, 1) keys
lemma chainPts_head (endp pos : Pos) (keys : List Pos) :
    (chainPts endp pos keys).head? = some pos := by
  cases keys with
  | nil => rw [chainPts]; rfl
  | cons k ks => rw [chainPts]; rfl

/-- A passed solvability chain yields the relation on every consecutive
pair of chain waypoints. -/
lemma solvableChain_reach {bfs : Pos → Pos → Bool} {R : Pos → Pos → Prop}
    (hbfs : ∀ a b, bfs a b = true → R a b) (endp : Pos) :
    ∀ pos keys, solvableChain bfs endp pos keys = true →
      (chainPts endp pos keys).Chain' R := by
  intro pos keys
  induction pos, keys using solvableChain.induct bfs endp with
  | case1 pos =>
    intro hs
    rw [solvableChain] at hs
    rw [chainPts]
    exact List.chain'_pair.mpr (hbfs _ _ hs)
  | case2 pos k ks nearest hb ih =>
    intro hs
    rw [solvableChain] at hs
    rw [chainPts, List.chain'_cons']
    rw [if_pos hb] at hs
    constructor
    · intro b hbmem
      rw [chainPts_head] at hbmem
      obtain rfl : nearest = b := by simpa using hbmem
      exact hbfs _ _ hb
    · exact ih hs
  | case3 pos k ks nearest hb =>
    intro hs
    rw [solvableChain] at hs
    rw [if_neg hb] at hs
    exact absurd hs (by simp)
/-- The feature set `setup_difficulty_features` assembles (`self.traps`,
`self.keys`, `self.teleporters`, `self.enemy_pos`, `self.enemy_path`). -/
structure FeatureSet where
  traps : List Pos
  keys : List Pos
  teleporters : List (Pos × Pos)
  enemy_pos : Option Pos
  enemy_path : List Pos

/-- The `empty_spaces` scan: row-major over the interior, Path cells other
than `[1,1]` and the exit. -/
def emptySpaces (maze : List (List ℕ)) (w h : ℤ) (endp : Pos) :
    List Pos :=
  (List.range (h - 2).toNat).flatMap fun yi =>
    (List.range (w - 2).toNat).filterMap fun xi =>
      let p : Pos := ((xi : ℤ) + 1, (yi : ℤ) + 1)
      if cellVal maze p = 0 ∧ p ≠ (1, 1) ∧ p ≠ endp then some p else none

/-- `for _ in range(n): if avail: pos = random.choice(avail);
picked.append(pos); avail.remove(pos)` — returns the picks in order, the
remaining pool, and the next draw index. -/
def pickPlace (σc : ℕ → ℕ) : ℕ → List Pos → ℕ →
    List Pos × List Pos × ℕ
  | 0, avail, r => ([], avail, r)
  | n + 1, avail, r =>
    if avail.isEmpty then ([], avail, r)
    else
      let pos := avail.getD (σc r % avail.length) (0, 0)
      let rest := pickPlace σc n (avail.erase pos) (r + 1)
      (pos :: rest.1, rest.2.1, rest.2.2)

/-- The teleporter placement: two pairs drawn (with removal) when at least
4 candidates exist, otherwise none. -/
def placeTeles (σc : ℕ → ℕ) (cand : List Pos) (r : ℕ) :
    List (Pos × Pos) × ℕ :=
  if 4 ≤ cand.length then
    let p1 := cand.getD (σc r % cand.length) (0, 0)
    let c1 := cand.erase p1
    let p2 := c1.getD (σc (r + 1) % c1.length) (0, 0)
    let c2 := c1.erase p2
    let p3 := c2.getD (σc (r + 2) % c2.length) (0, 0)
    let c3 := c2.erase p3
    let p4 := c3.getD (σc (r + 3) % c3.length) (0, 0)
    ([(p1, p2), (p3, p4)], r + 4)
  else ([], r)

/-- `create_enemy_path`: the first neighbor in the fixed direction order
that is an in-bounds Path cell not yet on the path. -/
def epPick (maze : List (List ℕ)) (w h : ℤ) (path : List Pos) (c : Pos) :
    Option Pos :=
  match [((1 : ℤ), (0 : ℤ)), (0, 1), (-1, 0), (0, -1)].find?
      (fun d => mazePass maze w h (stepDir c d) &&
        !(path.contains (stepDir c d))) with
  | some d => some (stepDir c d)
  | none => none

/-- The `for _ in range(6)` greedy extension of `create_enemy_path` (an
iteration without a usable neighbor leaves the state unchanged). -/
def epGo (maze : List (List ℕ)) (w h : ℤ) :
    ℕ → List Pos → Pos → List Pos
  | 0, path, _ => path
  | n + 1, path, c =>
    match epPick maze w h path c with
    | some np => epGo maze w h n (path ++ [np]) np
    | none => epGo maze w h n path c

/-- `create_enemy_path` of `main3.py` (lines 448-469): without an enemy it
returns leaving the previous patrol path in place. -/
def create_enemy_path (maze : List (List ℕ)) (w h : ℤ)
    (enemy_pos : Option Pos) (prev : List Pos) : List Pos :=
  match enemy_pos with
  | none => prev
  | some e => epGo maze w h 6 [e] e

/-- One attempt body of the `for attempt in range(max_attempts)` loop:
place keys, traps, teleporter pairs, and the enemy; returns the feature
set and the next draw index. -/
def attemptPlace (maze : List (List ℕ)) (w h : ℤ) (σc : ℕ → ℕ)
    (required_keys : ℕ) (endp : Pos) (r : ℕ) (prev : List Pos) :
    FeatureSet × ℕ :=
  let empty := emptySpaces maze w h endp
  let kp := pickPlace σc required_keys empty r
  let keys := kp.1
  let trapCand := empty.filter (fun p => !(keys.contains p))
  let numTraps := Nat.min 8 (trapCand.length / 10)
  let tp := pickPlace σc numTraps trapCand kp.2.2
  let traps := tp.1
  let teleCand := empty.filter
    (fun p => !(keys.contains p) && !(traps.contains p))
  let tele := placeTeles σc teleCand tp.2.2
  let enemyCand := empty.filter
    (fun p => !(keys.contains p) && !(traps.contains p))
  let ep : Option Pos × ℕ :=
    if enemyCand.isEmpty then (none, tele.2)
    else (some (enemyCand.getD (σc tele.2 % enemyCand.length) (0, 0)),
      tele.2 + 1)
  let path := create_enemy_path maze w h ep.1 prev
  (⟨traps, keys, tele.1, ep.1, path⟩, ep.2)

/-- The retry loop: run attempts until one passes
`is_solvable_with_enemy`; returns the accepted feature set, or the draw
index and threaded patrol path when all attempts fail. -/
def setupAttempts (maze : List (List ℕ)) (w h : ℤ) (σc : ℕ → ℕ)
    (required_keys : ℕ) (endp : Pos) :
    ℕ → ℕ → List Pos → Option FeatureSet × ℕ × List Pos
  | 0, r, prev => (none, r, prev)
  | a + 1, r, prev =>
    let F := attemptPlace maze w h σc required_keys endp r prev
    if is_solvable_with_enemy maze w h F.1.keys F.1.enemy_path endp then
      (some F.1, F.2, F.1.enemy_path)
    else setupAttempts maze w h σc required_keys endp a F.2 F.1.enemy_path

/-- The fallback of `setup_difficulty_features` (lines 428-446): clear
traps and teleporters, re-place keys and the enemy, and return without any
further solvability check. -/
def fallbackPlace (maze : List (List ℕ)) (w h : ℤ) (σc : ℕ → ℕ)
    (required_keys : ℕ) (endp : Pos) (r : ℕ) (prev : List Pos) :
    FeatureSet :=
  let empty := emptySpaces maze w h endp
  let kp := pickPlace σc required_keys empty r
  let keys := kp.1
  let avail := kp.2.1
  let ep : Option Pos :=
    if avail.isEmpty then none
    else some (avail.getD (σc kp.2.2 % avail.length) (0, 0))
  let path := create_enemy_path maze w h ep prev
  ⟨[], keys, [], ep, path⟩

/-- `setup_difficulty_features` (lines 325-446): 20 attempts, then the
fallback; also returns the updated `self.max_moves` (3 times the BFS
optimal length when a path exists). -/
def setup_difficulty_features (maze : List (List ℕ)) (w h : ℤ)
    (σc : ℕ → ℕ) (required_keys : ℕ) (endp : Pos) (max_moves0 : ℕ) :
    FeatureSet × ℕ :=
  match setupAttempts maze w h σc required_keys endp 20 0 [] with
  | (some F, _, _) =>
    (F, match (pfBfs (1, 1) endp maze w h).1 with
        | some p => 3 * p.length
        | none => max_moves0)
  | (none, r, prev) =>
    let F := fallbackPlace maze w h σc required_keys endp r prev
    (F, match (pfBfs (1, 1) endp maze w h).1 with
        | some p => 3 * p.length
        | none => max_moves0)
/-! ## Claim theorems: C2 -/

/-- C2: every feature set accepted inside the retry loop of
`setup_difficulty_features` satisfies the solvability constraint: with
blocked exactly the enemy patrol cells (traps are not blocked),
reachability holds for every consecutive leg of the greedy
start → nearest-remaining-key → exit chain. -/
theorem C2_accepted_solvable (maze : List (List ℕ)) (w h : ℤ)
    (σc : ℕ → ℕ) (required_keys : ℕ) (endp : Pos) :
    ∀ a r prev F r2 prev2,
      setupAttempts maze w h σc required_keys endp a r prev =
        (some F, r2, prev2) →
      (chainPts endp (1, 1) F.keys).Chain'
        (fun x y => Reach (mazePassAvoid maze w h F.enemy_path) x y) := by
  intro a
  induction a with
  | zero =>
    intro r prev F r2 prev2 hset
    simp [setupAttempts] at hset
  | succ a ih =>
    intro r prev F r2 prev2 hset
    simp only [setupAttempts] at hset
    split at hset
    · rename_i hsolv
      obtain ⟨hF, _, _⟩ := Prod.mk.injEq .. ▸ hset
      obtain rfl : (attemptPlace maze w h σc required_keys endp r prev).1
          = F := by simpa using hF
      exact solvableChain_reach
        (fun x y hxy => (bfs_avoid_enemy_spec x y maze w h _).mp hxy)
        endp (1, 1) _ hsolv
    · exact ih _ _ _ _ _ hset

/-- Witness for C2: a first-attempt acceptance on a featureless maze. -/
theorem C2_witness :
    setupAttempts [[1, 1, 1, 1], [1, 0, 0, 1], [1, 1, 1, 1]] 4 3
      (fun _ => 0) 0 (2, 1) 1 0 [] =
      (some ⟨[], [], [], none, []⟩, 0, []) ∧
    (chainPts (2, 1) (1, 1) ([] : List Pos)).Chain'
      (fun x y => Reach
        (mazePassAvoid [[1, 1, 1, 1], [1, 0, 0, 1], [1, 1, 1, 1]] 4 3 [])
        x y) := by
  have h1 : setupAttempts [[1, 1, 1, 1], [1, 0, 0, 1], [1, 1, 1, 1]] 4 3
      (fun _ => 0) 0 (2, 1) 1 0 [] =
      (some ⟨[], [], [], none, []⟩, 0, []) := by
    simp [setupAttempts, attemptPlace, emptySpaces, pickPlace, placeTeles,
      create_enemy_path, is_solvable_with_enemy, solvableChain,
      bfs_avoid_enemy, bfsLoop, bfsExpand, mazePassAvoid, inBounds,
      cellVal, DIRECTIONS, stepDir, -Prod.mk_one_one, Prod.ext_iff,
      List.range_succ]
  exact ⟨h1, C2_accepted_solvable [[1, 1, 1, 1], [1, 0, 0, 1], [1, 1, 1, 1]]
    4 3 (fun _ => 0) 0 (2, 1) 1 0 [] ⟨[], [], [], none, []⟩ 0 [] h1⟩
/-! ## Claim theorems: C4 -/

/-- A 5x5 maze whose exit room (3,3) is walled off from the start region. -/
def c4maze : List (List ℕ) :=
  [[1, 1, 1, 1, 1], [1, 0, 0, 1, 1], [1, 0, 0, 1, 1],
   [1, 1, 1, 0, 1], [1, 1, 1, 1, 1]]

/-- The enemy patrol the greedy extension builds on `c4maze` from spawn
(2,1): it covers the entire reachable region. -/
def c4path : List Pos := [(2, 1), (2, 2), (1, 2), (1, 1)]

lemma c4_attempt (r : ℕ) (prev : List Pos) :
    attemptPlace c4maze 5 5 (fun _ => 0) 0 (3, 3) r prev =
      (⟨[], [], [], some (2, 1), c4path⟩, r + 1) := by
  have hempty : emptySpaces c4maze 5 5 (3, 3) = [(2, 1), (1, 2), (2, 2)] :=
    rfl
  simp only [attemptPlace, hempty, pickPlace]
  rfl

set_option maxHeartbeats 1600000 in
lemma c4_solv : is_solvable_with_enemy c4maze 5 5 [] c4path (3, 3) =
    false := by
  rw [is_solvable_with_enemy, solvableChain]
  simp [bfs_avoid_enemy, bfsLoop, bfsExpand, mazePassAvoid, inBounds,
    cellVal, DIRECTIONS, stepDir, c4maze, c4path, -Prod.mk_one_one,
    Prod.ext_iff]

lemma c4_loop : ∀ a r (prev : List Pos),
    setupAttempts c4maze 5 5 (fun _ => 0) 0 (3, 3) (a + 1) r prev =
      (none, r + (a + 1), c4path) := by
  intro a
  induction a with
  | zero =>
    intro r prev
    conv_lhs => rw [setupAttempts]
    simp only [c4_attempt, c4_solv, Bool.false_eq_true, if_false,
      setupAttempts]
  | succ a ih =>
    intro r prev
    conv_lhs => rw [setupAttempts]
    simp only [c4_attempt, c4_solv, Bool.false_eq_true, if_false]
    rw [ih (r + 1) c4path]
    congr 1
    congr 1
    omega

set_option maxHeartbeats 1600000 in
/-- C4 counterexample: on `c4maze` (exit unreachable) no attempt is
solvable, and the call returns the degraded feature set — enemy patrolling
the whole reachable region — even though that degraded configuration
itself fails the solvability check: nothing re-validates it and no error
of any kind is reported. -/
theorem C4_counterexample :
    (setup_difficulty_features c4maze 5 5 (fun _ => 0) 0 (3, 3) 300).1 =
      ⟨[], [], [], some (2, 1), c4path⟩ ∧
    is_solvable_with_enemy c4maze 5 5 [] c4path (3, 3) = false := by
  refine ⟨?_, c4_solv⟩
  rw [setup_difficulty_features, show (20 : ℕ) = 19 + 1 from rfl,
    c4_loop 19 0 []]
  rfl

/-- C4 (amended): if no attempt within the 20 retries yields a solvable
configuration, `setup_difficulty_features` returns the degraded feature
set with traps and teleporters cleared (keys and enemy patrol only) — but
it does so directly: the degraded configuration is not validated for
solvability before being returned, and no error is reported even when it
is unsolvable. -/
theorem C4_fallback_degraded (maze : List (List ℕ)) (w h : ℤ)
    (σc : ℕ → ℕ) (required_keys : ℕ) (endp : Pos) (mm : ℕ)
    (hfail : (setupAttempts maze w h σc required_keys endp 20 0 []).1 =
      none) :
    (setup_difficulty_features maze w h σc required_keys endp mm).1.traps
      = [] ∧
    (setup_difficulty_features maze w h σc required_keys endp
      mm).1.teleporters = [] := by
  rw [setup_difficulty_features]
  rcases hset : setupAttempts maze w h σc required_keys endp 20 0 [] with
    ⟨o, r, prev⟩
  rw [hset] at hfail
  simp only at hfail
  subst hfail
  simp [fallbackPlace]

/-- Witness for C4 (amended) at the concrete unsolvable input. -/
theorem C4_witness :
    (setupAttempts c4maze 5 5 (fun _ => 0) 0 (3, 3) 20 0 []).1 = none ∧
    (setup_difficulty_features c4maze 5 5 (fun _ => 0) 0 (3, 3) 300).1.traps
      = [] ∧
    (setup_difficulty_features c4maze 5 5 (fun _ => 0) 0
      (3, 3) 300).1.teleporters = [] := by
  have h1 : (setupAttempts c4maze 5 5 (fun _ => 0) 0 (3, 3) 20 0 []).1 =
      none := by
    rw [show (20 : ℕ) = 19 + 1 from rfl, c4_loop 19 0 []]
  have h2 := C4_fallback_degraded c4maze 5 5 (fun _ => 0) 0 (3, 3) 300 h1
  exact ⟨h1, h2.1, h2.2⟩
/-! ## Enemy patrol path (`Enemy.create_patrol_path`, game_objects.py
lines 35-80)

`random.shuffle(directions)` draws a fresh permutation from the shuffle
stream `σ` at each outer iteration; the fallback scans the directions in
their most recently shuffled order, which the loop threads through. -/

/-- The `for _ in range(10)` greedy extension: walk to the first passable
unvisited neighbor in the current shuffled order, else stop; returns the
path and the direction order in effect when the loop ended. -/
def patrolGo (σ : ShuffleStream) (maze : List (List ℕ)) (w h : ℤ) :
    ℕ → ℕ → List Pos → Pos → Finset Pos → List Pos →
      List Pos × List Pos
  | 0, _, path, _, _, dirs => (path, dirs)
  | n + 1, k, path, c, vis, _ =>
    let dirs := (σ k).1
    match dirs.find? (fun d => mazePass maze w h (stepDir c d) &&
        !(decide (stepDir c d ∈ vis))) with
    | some d =>
      patrolGo σ maze w h n (k + 1) (path ++ [stepDir c d]) (stepDir c d)
        (insert (stepDir c d) vis) dirs
    | none => (path, dirs)

/-- `Enemy.create_patrol_path` for a present spawn `pos`: the greedy
10-step extension, then the back-and-forth fallback when the result has
fewer than 3 cells (the fallback appends the first available neighbor —
if any exists). -/
def create_patrol_path (σ : ShuffleStream) (maze : List (List ℕ))
    (w h : ℤ) (pos : Pos) : List Pos :=
  let r := patrolGo σ maze w h 10 0 [pos] pos {pos} DIRECTIONS
  if r.1.length < 3 then
    pos :: (match r.2.find?
        (fun d => mazePass maze w h (stepDir pos d)) with
      | some d => [stepDir pos d]
      | none => [])
  else r.1

lemma patrolGo_head (σ : ShuffleStream) (maze : List (List ℕ)) (w h : ℤ) :
    ∀ n k path c vis dirs, path ≠ [] →
      ((patrolGo σ maze w h n k path c vis dirs).1).head? =
        path.head? := by
  intro n
  induction n with
  | zero =>
    intro k path c vis dirs _
    rw [patrolGo]
  | succ n ih =>
    intro k path c vis dirs hne
    rw [patrolGo]
    split
    · rw [ih _ _ _ _ _ (by simp)]
      cases path with
      | nil => exact absurd rfl hne
      | cons a t => simp
    · rfl

lemma patrolGo_dirs_perm (σ : ShuffleStream) (maze : List (List ℕ))
    (w h : ℤ) :
    ∀ n k path c vis dirs, dirs.Perm DIRECTIONS →
      ((patrolGo σ maze w h n k path c vis dirs).2).Perm DIRECTIONS := by
  intro n
  induction n with
  | zero =>
    intro k path c vis dirs hperm
    rw [patrolGo]
    exact hperm
  | succ n ih =>
    intro k path c vis dirs hperm
    rw [patrolGo]
    split
    · exact ih _ _ _ _ _ (σ k).2
    · exact (σ k).2

/-! ## Claim theorems: C9 -/

/-- C9 counterexample: an enemy spawned on an isolated Path cell (no
in-bounds Path neighbor) gets the one-cell patrol path [spawn]: the
fallback only appends a neighbor when one exists, so the path does not
always have at least 2 cells. -/
theorem C9_counterexample :
    create_patrol_path idShuffle [[1, 1, 1], [1, 0, 1], [1, 1, 1]] 3 3
      (1, 1) = [(1, 1)] ∧
    ¬ 2 ≤ (create_patrol_path idShuffle [[1, 1, 1], [1, 0, 1], [1, 1, 1]]
      3 3 (1, 1)).length := by
  constructor
  · rfl
  · rw [show create_patrol_path idShuffle [[1, 1, 1], [1, 0, 1], [1, 1, 1]]
      3 3 (1, 1) = [(1, 1)] from rfl]
    simp

/-- C9 (amended): the patrol path always begins at the spawn and is
nonempty, and whenever the spawn has at least one in-bounds Path neighbor
the resulting patrol path has at least 2 cells (so the patrol loop, which
additionally guards against paths shorter than 2, cannot divide by zero);
for an isolated spawn the path is the single cell [spawn]. -/
theorem C9_patrol_min_length (σ : ShuffleStream) (maze : List (List ℕ))
    (w h : ℤ) (pos : Pos) :
    (create_patrol_path σ maze w h pos).head? = some pos ∧
    1 ≤ (create_patrol_path σ maze w h pos).length ∧
    ((∃ d ∈ DIRECTIONS, mazePass maze w h (stepDir pos d) = true) →
      2 ≤ (create_patrol_path σ maze w h pos).length) := by
  have hhead : (create_patrol_path σ maze w h pos).head? = some pos := by
    rw [create_patrol_path]
    split
    · rfl
    · rw [patrolGo_head σ maze w h 10 0 [pos] pos {pos} DIRECTIONS
        (by simp)]
      rfl
  refine ⟨hhead, ?_, ?_⟩
  · cases hl : create_patrol_path σ maze w h pos with
    | nil => rw [hl] at hhead; simp at hhead
    | cons a t => simp
  · intro ⟨d, hd, hpass⟩
    rw [create_patrol_path]
    split
    · rename_i hshort
      have hperm : ((patrolGo σ maze w h 10 0 [pos] pos {pos}
          DIRECTIONS).2).Perm DIRECTIONS :=
        patrolGo_dirs_perm σ maze w h 10 0 [pos] pos {pos} DIRECTIONS
          (List.Perm.refl _)
      have hmem : d ∈ (patrolGo σ maze w h 10 0 [pos] pos {pos}
          DIRECTIONS).2 := hperm.mem_iff.mpr hd
      have hfind : ((patrolGo σ maze w h 10 0 [pos] pos {pos}
          DIRECTIONS).2).find?
          (fun d => mazePass maze w h (stepDir pos d)) |>.isSome := by
        rw [List.find?_isSome]
        exact ⟨d, hmem, hpass⟩
      obtain ⟨d2, hd2⟩ := Option.isSome_iff_exists.mp hfind
      rw [hd2]
      simp
    · rename_i hlong
      omega

/-- Witness for C9 (amended) at a spawn with a Path neighbor. -/
theorem C9_witness :
    (create_patrol_path idShuffle [[1, 1, 1, 1], [1, 0, 0, 1], [1, 1, 1, 1]]
      4 3 (1, 1)).head? = some (1, 1) ∧
    2 ≤ (create_patrol_path idShuffle
      [[1, 1, 1, 1], [1, 0, 0, 1], [1, 1, 1, 1]] 4 3 (1, 1)).length := by
  have h := C9_patrol_min_length idShuffle
    [[1, 1, 1, 1], [1, 0, 0, 1], [1, 1, 1, 1]] 4 3 (1, 1)
  exact ⟨h.1, h.2.2 ⟨(1, 0), by decide, by decide⟩⟩

end MazeAi
